import Mathlib

/-!
# Verification development for the `webserver` repository

A shallow embedding of the routing trie (`src/trie.cc`), the wire codec
(`src/res_req_helpers.cc`), the configuration parser
(`src/nginx_config_parser.cc`), the configuration interpreter
(`src/config_interpreter.cc`) and the dispatch step of the session engine
(`src/session.cc`), followed by theorems about them.

Conventions of the embedding.
* A `std::string` is the list of its characters (`Str`).
* A C++ loop over a stream becomes a recursion over the characters (or the
  tokens) that remain in the stream.
* A pointer that may be null is an `Option`; dereferencing a null pointer,
  reading `top()` of an empty stack and indexing a vector out of bounds are
  explicit outcomes, never silently defined.
* An exception is an explicit error value.
-/

namespace Webserver

/-- A `std::string`, as the list of its characters. -/
abbrev Str := List Char

/-! ## Stream primitives shared by the components -/

/-- One call of `std::getline(stream, token, delim)` on a stream whose unread
characters are the argument: `none` when the call fails (nothing is left to
read), otherwise the token read and the characters left in the stream.  The
delimiter is consumed and is not part of the token. -/
def getline (delim : Char) : Str → Option (Str × Str)
  | [] => none
  | c :: cs =>
    if c = delim then some ([], cs)
    else match getline delim cs with
      | none => some ([c], [])
      | some (t, rest) => some (c :: t, rest)

/-- The tokens produced by `while (getline(stream, token, delim))`, in order. -/
def getlineTokens (delim : Char) : Str → List Str
  | [] => []
  | c :: cs =>
    if c = delim then [] :: getlineTokens delim cs
    else match getlineTokens delim cs with
      | [] => [[c]]
      | t :: ts => (c :: t) :: ts

/-- The result of `s.find(c)`: the index of the first occurrence of `c`. -/
def findChar (c : Char) : Str → Option Nat
  | [] => none
  | d :: ds => if d = c then some 0 else (findChar c ds).map (· + 1)

/-! ## Routing trie (`src/trie.cc`) -/

/-- A `TrieNode`: the `children` map (read and written by key only) and the
`config` pointer, `none` for `nullptr`. -/
inductive TrieNode (α : Type) where
  | mk (children : List (Str × TrieNode α)) (config : Option α) : TrieNode α

namespace TrieNode

/-- A freshly constructed node: no children, `config = nullptr`. -/
def empty {α : Type} : TrieNode α := .mk [] none

/-- The `config` field. -/
def config {α : Type} : TrieNode α → Option α
  | .mk _ c => c

/-- The `children` field. -/
def children {α : Type} : TrieNode α → List (Str × TrieNode α)
  | .mk ch _ => ch

/-- The lookup `children.find(token)`. -/
def childLookup {α : Type} (token : Str) : List (Str × TrieNode α) → Option (TrieNode α)
  | [] => none
  | (k, n) :: rest => if k = token then some n else childLookup token rest

/-- The step of `insert` on one token: `children[token]` is created as a fresh
node when absent, and the rest of the walk (`f`) continues in that child. -/
def childUpdate {α : Type} (token : Str) (f : TrieNode α → TrieNode α) :
    List (Str × TrieNode α) → List (Str × TrieNode α)
  | [] => [(token, f empty)]
  | (k, n) :: rest =>
    if k = token then (k, f n) :: rest else (k, n) :: childUpdate token f rest

/-- The loop of `TrieNode::insert` over the tokens that `getline` yields. -/
def insertTokens {α : Type} : List Str → Option α → TrieNode α → TrieNode α
  | [], config_ptr, .mk ch _ => .mk ch config_ptr
  | token :: rest, config_ptr, .mk ch cfg =>
    if token = [] then insertTokens rest config_ptr (.mk ch cfg)
    else .mk (childUpdate token (fun child => insertTokens rest config_ptr child) ch) cfg

/-- The method `TrieNode::insert(path, config_ptr)`. -/
def insert {α : Type} (node : TrieNode α) (path : Str) (config_ptr : Option α) : TrieNode α :=
  insertTokens (getlineTokens '/' path) config_ptr node

/-- The loop of `TrieNode::find`: `last_config` is the third argument. -/
def findTokens {α : Type} : List Str → TrieNode α → Option α → Option α
  | [], _, last_config => last_config
  | token :: rest, .mk ch cfg, last_config =>
    if token = [] then findTokens rest (.mk ch cfg) last_config
    else match childLookup token ch with
      | none => last_config
      | some child =>
        findTokens rest child
          (match child.config with
            | some c => some c
            | none => last_config)

/-- The query-string strip at the head of `TrieNode::find`. -/
def stripQuery (uri : Str) : Str :=
  match findChar '?' uri with
  | some query_pos => uri.take query_pos
  | none => uri

/-- The method `TrieNode::find(uri)`; `none` is `nullptr`. -/
def find {α : Type} (node : TrieNode α) (uri : Str) : Option α :=
  findTokens (getlineTokens '/' (stripQuery uri)) node none

/-- The trie built from an empty root by inserting the given entries in order. -/
def build {α : Type} (inserts : List (Str × α)) : TrieNode α :=
  inserts.foldl (fun t pe => t.insert pe.1 (some pe.2)) empty

end TrieNode

/-! ### The vocabulary of the routing claim -/

/-- The path of a request URI: the URI cut at its first `?`. -/
def path (u : Str) : Str := u.takeWhile (fun c => c ≠ '?')

/-- The non-empty pieces of `s` split on `/`. -/
def segs (s : Str) : List Str := (s.splitOn '/').filter (fun t => t ≠ [])

/-- The entry most recently inserted for a prefix whose segments are `L`. -/
def lastInsertedFor {α : Type} (inserts : List (Str × α)) (L : List Str) : Option α :=
  (inserts.reverse.find? (fun pe => decide (segs pe.1 = L))).map Prod.snd

/-- The config stored at the node reached from `t` along the segments `L`;
`none` when the node does not exist or holds no config. -/
def cfgAt {α : Type} : List Str → TrieNode α → Option α
  | [], t => t.config
  | s :: L, .mk ch _ =>
    match TrieNode.childLookup s ch with
    | none => none
    | some child => cfgAt L child

/-- The longest non-empty prefix of `sg` bound by `M`, longer prefixes first. -/
def bestMatch {α : Type} : (List Str → Option α) → List Str → Option α
  | _, [] => none
  | M, s :: r =>
    match bestMatch (fun L => M (s :: L)) r with
    | some e => some e
    | none => M [s]

/-! ## Wire codec (`src/res_req_helpers.cc`) -/

/-- The order of `std::string` keys in a `std::map`: lexicographic on the
character codes. -/
def strLt : Str → Str → Bool
  | [], [] => false
  | [], _ :: _ => true
  | _ :: _, [] => false
  | a :: as, b :: bs =>
    if a.toNat < b.toNat then true
    else if b.toNat < a.toNat then false
    else strLt as bs

/-- A `std::map<std::string, std::string>`, as the list of its bindings in
iteration order (ascending by key). -/
abbrev StdMap := List (Str × Str)

/-- The assignment `m[key] = value`. -/
def mapSet : StdMap → Str → Str → StdMap
  | [], key, value => [(key, value)]
  | (k, v) :: rest, key, value =>
    if k = key then (key, value) :: rest
    else if strLt key k then (key, value) :: (k, v) :: rest
    else (k, v) :: mapSet rest key value

/-- The lookup `m.find(key)`. -/
def mapGet : StdMap → Str → Option Str
  | [], _ => none
  | (k, v) :: rest, key => if k = key then some v else mapGet rest key

/-- The struct `request` of `include/request.h`. -/
structure request where
  method : Str := []
  uri : Str := []
  http_version : Str := []
  headers : StdMap := []
  body : Str := []
  deriving DecidableEq, Repr

/-- The struct `response` of `include/response.h`. -/
structure response where
  http_version : Str := []
  status_code : Int := 0
  reason_phrase : Str := []
  headers : StdMap := []
  body : Str := []
  deriving DecidableEq, Repr

/-- The result of `s.find(pat)`: the least index at which `pat` occurs. -/
def findStr (pat : Str) : Str → Option Nat
  | [] => if pat = [] then some 0 else none
  | c :: cs =>
    if pat.isPrefixOf (c :: cs) then some 0 else (findStr pat cs).map (· + 1)

/-- The call `s.substr(pos)`; `none` is the `std::out_of_range` it throws when
`pos > s.size()`. -/
def substrFrom (s : Str) (pos : Nat) : Option Str :=
  if pos ≤ s.length then some (s.drop pos) else none

/-- The call `s.substr(pos, n)`; `none` is the `std::out_of_range` it throws
when `pos > s.size()`. -/
def substr (s : Str) (pos n : Nat) : Option Str :=
  if pos ≤ s.length then some ((s.drop pos).take n) else none

/-- The characters `std::isspace` accepts in the classic locale. -/
def isSpace (c : Char) : Bool :=
  c = ' ' || c = '\t' || c = '\n' || c = '\x0b' || c = '\x0c' || c = '\r'

/-- One extraction `stream >> word`: leading whitespace is skipped and the word
runs to the next whitespace; `none` when the extraction fails (no character
left for the word). -/
def extractWord (s : Str) : Option (Str × Str) :=
  let t := s.dropWhile isSpace
  let w := t.takeWhile (fun c => !isSpace c)
  if w = [] then none else some (w, t.dropWhile (fun c => !isSpace c))

/-- The `\r` strip applied to every line:
`if (!line.empty() && line.back() == '\r') line.pop_back()`. -/
def stripCR (line : Str) : Str :=
  if line.getLast? = some '\r' then line.dropLast else line

/-- The header-body separator. -/
def crlfcrlf : Str := ['\r', '\n', '\r', '\n']

/-- The reading of the request line: `none` when one of the three extractions
fails (the code returns the empty request), otherwise method, uri, version and
what is left in `header_stream`.  When the first `getline` fails the three
fields keep their initial empty value. -/
def readRequestLine (header_part : Str) : Option (Str × Str × Str × Str) :=
  match getline '\n' header_part with
  | none => some ([], [], [], [])
  | some (line, rest) =>
    match extractWord (stripCR line) with
    | none => none
    | some (method, l1) =>
      match extractWord l1 with
      | none => none
      | some (uri, l2) =>
        match extractWord l2 with
        | none => none
        | some (http_version, _) => some (method, uri, http_version, rest)

/-- The header loop of `parse_request` over the lines `getline` yields; the
outer `none` is an exception thrown by `substr`. -/
def parseHeaders : List Str → StdMap → Option StdMap
  | [], headers => some headers
  | raw_line :: rest, headers =>
    let line := stripCR raw_line
    if line = [] then some headers
    else
      match findChar ':' line with
      | some colon =>
        match substr line 0 colon, substrFrom line (colon + 1) with
        | some key, some value =>
          if value.head? = some ' ' then
            match substrFrom value 1 with
            | some value2 => parseHeaders rest (mapSet headers key value2)
            | none => none
          else parseHeaders rest (mapSet headers key value)
        | _, _ => none
      | none => parseHeaders rest headers

/-- The letters accepted in a method. -/
def upperLetters : Str := "ABCDEFGHIJKLMNOPQRSTUVWXYZ".toList

/-- The characters accepted in a version. -/
def versionChars : Str := "HTTP/./0123456789".toList

/-- The function `parse_request`.  The outer `none` is an exception escaping
the function; the empty request `{}` is the malformed sentinel. -/
def parse_request (raw_request : Str) : Option request :=
  match findStr crlfcrlf raw_request with
  | none => some {}
  | some header_end =>
    match substr raw_request 0 header_end, substrFrom raw_request (header_end + 4) with
    | some header_part, some body =>
      match readRequestLine header_part with
      | none => some {}
      | some (method, uri, http_version, stream) =>
        if method.any (fun c => !upperLetters.contains c) then some {}
        else if uri = [] || uri.head? ≠ some '/' then some {}
        else if http_version ≠ "HTTP/1.0".toList && http_version ≠ "HTTP/1.1".toList then some {}
        else if http_version.any (fun c => !versionChars.contains c) then some {}
        else
          match parseHeaders (getlineTokens '\n' stream) [] with
          | some headers =>
            some { method := method, uri := uri, http_version := http_version,
                   headers := headers, body := body }
          | none => none
    | _, _ => none

/-- The decimal digits of a natural number, as `operator<<` prints them. -/
def natDigits (n : Nat) : Str := (Nat.toDigits 10 n)

/-- The text `operator<<` writes for an `int`. -/
def decimal (i : Int) : Str :=
  match i with
  | Int.ofNat n => natDigits n
  | Int.negSucc n => '-' :: natDigits (n + 1)

/-- The loop of `serialize_response` over the headers, appending to the
stream's contents. -/
def writeHeaders : StdMap → Str → Str
  | [], out => out
  | (k, v) :: rest, out => writeHeaders rest (out ++ k ++ [':', ' '] ++ v ++ ['\r', '\n'])

/-- The function `serialize_response`. -/
def serialize_response (res : response) : Str :=
  let out := res.http_version ++ [' '] ++ decimal res.status_code ++ [' '] ++
    res.reason_phrase ++ ['\r', '\n']
  let out := writeHeaders res.headers out
  let out := out ++ ['\r', '\n']
  out ++ res.body

/-! ### The vocabulary of the codec claims -/

/-- The header block `K ": " V CRLF` of a list of headers, in the given order. -/
def headerLines : List (Str × Str) → Str
  | [] => []
  | (k, v) :: rest => k ++ [':', ' '] ++ v ++ ['\r', '\n'] ++ headerLines rest

/-- The raw request `M SP U SP V CRLF (K ": " V CRLF)* CRLF B`. -/
def rawRequest (m u v : Str) (hs : List (Str × Str)) (b : Str) : Str :=
  m ++ [' '] ++ u ++ [' '] ++ v ++ ['\r', '\n'] ++ headerLines hs ++ ['\r', '\n'] ++ b

/-- The value of the last binding of `key` in a list of headers. -/
def lastBinding (hs : List (Str × Str)) (key : Str) : Option Str :=
  (hs.reverse.find? (fun kv => decide (kv.1 = key))).map Prod.snd

/-- The header lines without the final line break, each led by its line break:
the header part of a raw request after its request line. -/
def headerTail : List (Str × Str) → Str
  | [] => []
  | (k, v) :: rest => ['\r', '\n'] ++ (k ++ [':', ' '] ++ v) ++ headerTail rest

/-- What is left in `header_stream` once the request line has been read. -/
def headerStream : List (Str × Str) → Str
  | [] => []
  | (k, v) :: rest => (k ++ [':', ' '] ++ v) ++ headerTail rest

/-- The header map obtained from the empty map by the assignments
`m[k] = v` of the list, in order. -/
def mapOfAssignments (kvs : List (Str × Str)) : StdMap :=
  kvs.foldl (fun m kv => mapSet m kv.1 kv.2) []

/-- The order of two bindings of a map: by key. -/
def keyLt (a b : Str × Str) : Prop := strLt a.1 b.1 = true

/-! ## Configuration tree (`include/nginx_config.h`) -/

/-- A `NginxConfigStatement`: its `tokens_` and its `child_block_` (`none` for a
null pointer); a block, `NginxConfig`, is the list of its `statements_`. -/
inductive NginxConfigStatement where
  | mk (tokens_ : List Str) (child_block_ : Option (List NginxConfigStatement)) :
      NginxConfigStatement

/-- A `NginxConfig`: the vector `statements_`. -/
abbrev NginxConfig := List NginxConfigStatement

namespace NginxConfigStatement

/-- The field `tokens_`. -/
def tokens_ : NginxConfigStatement → List Str
  | .mk t _ => t

/-- The field `child_block_`. -/
def child_block_ : NginxConfigStatement → Option NginxConfig
  | .mk _ c => c

end NginxConfigStatement

/-! ## Configuration parser (`src/nginx_config_parser.cc`) -/

/-- The enum `TokenType`. -/
inductive TokenType where
  | TOKEN_TYPE_START
  | TOKEN_TYPE_NORMAL
  | TOKEN_TYPE_START_BLOCK
  | TOKEN_TYPE_END_BLOCK
  | TOKEN_TYPE_COMMENT
  | TOKEN_TYPE_STATEMENT_END
  | TOKEN_TYPE_EOF
  | TOKEN_TYPE_ERROR
  | TOKEN_TYPE_QUOTED_STRING
  deriving DecidableEq, Repr

/-- The enum `TokenParserState`. -/
inductive TokenParserState where
  | TOKEN_STATE_INITIAL_WHITESPACE
  | TOKEN_STATE_SINGLE_QUOTE
  | TOKEN_STATE_DOUBLE_QUOTE
  | TOKEN_STATE_TOKEN_TYPE_COMMENT
  | TOKEN_STATE_TOKEN_TYPE_NORMAL
  deriving DecidableEq, Repr

open TokenType TokenParserState

/-- The character `value->at(value->length() - 2)`, when the value has two
characters or more. -/
def secondLast (value : Str) : Option Char :=
  if value.length < 2 then none else value.get? (value.length - 2)

/-- The loop of `ParseToken` from a tokenizer state, the value built so far and
the unread input; the result is the token type, the value and the input left
unread.  When the input is exhausted the loop ends: the token is
`TOKEN_TYPE_ERROR` inside a quote and `TOKEN_TYPE_EOF` otherwise. -/
def ParseTokenFrom : TokenParserState → Str → Str → TokenType × Str × Str
  | state, value, [] =>
    if state = TOKEN_STATE_SINGLE_QUOTE ∨ state = TOKEN_STATE_DOUBLE_QUOTE then
      (TOKEN_TYPE_ERROR, value, [])
    else (TOKEN_TYPE_EOF, value, [])
  | TOKEN_STATE_INITIAL_WHITESPACE, value, c :: cs =>
    if c = '{' then (TOKEN_TYPE_START_BLOCK, [c], cs)
    else if c = '}' then (TOKEN_TYPE_END_BLOCK, [c], cs)
    else if c = '#' then ParseTokenFrom TOKEN_STATE_TOKEN_TYPE_COMMENT [c] cs
    else if c = '"' then ParseTokenFrom TOKEN_STATE_DOUBLE_QUOTE [c] cs
    else if c = '\'' then ParseTokenFrom TOKEN_STATE_SINGLE_QUOTE [c] cs
    else if c = ';' then (TOKEN_TYPE_STATEMENT_END, [c], cs)
    else if c = ' ' ∨ c = '\t' ∨ c = '\n' ∨ c = '\r' then
      ParseTokenFrom TOKEN_STATE_INITIAL_WHITESPACE value cs
    else ParseTokenFrom TOKEN_STATE_TOKEN_TYPE_NORMAL (value ++ [c]) cs
  | TOKEN_STATE_SINGLE_QUOTE, value, c :: cs =>
    if c = '\\' then
      match cs with
      | [] => (TOKEN_TYPE_ERROR, value ++ [c] ++ [c], [])
      | escaped_char :: rest =>
        ParseTokenFrom TOKEN_STATE_SINGLE_QUOTE (value ++ [c] ++ [c] ++ [escaped_char]) rest
    else if c = '\'' ∧ secondLast (value ++ [c]) ≠ some '\\' then
      (TOKEN_TYPE_QUOTED_STRING, value ++ [c], cs)
    else ParseTokenFrom TOKEN_STATE_SINGLE_QUOTE (value ++ [c]) cs
  | TOKEN_STATE_DOUBLE_QUOTE, value, c :: cs =>
    if c = '\\' then
      match cs with
      | [] => (TOKEN_TYPE_ERROR, value ++ [c] ++ [c], [])
      | escaped_char :: rest =>
        ParseTokenFrom TOKEN_STATE_DOUBLE_QUOTE (value ++ [c] ++ [c] ++ [escaped_char]) rest
    else if c = '"' ∧ secondLast (value ++ [c]) ≠ some '\\' then
      (TOKEN_TYPE_QUOTED_STRING, value ++ [c], cs)
    else ParseTokenFrom TOKEN_STATE_DOUBLE_QUOTE (value ++ [c]) cs
  | TOKEN_STATE_TOKEN_TYPE_COMMENT, value, c :: cs =>
    if c = '\n' ∨ c = '\r' then (TOKEN_TYPE_COMMENT, value, cs)
    else ParseTokenFrom TOKEN_STATE_TOKEN_TYPE_COMMENT (value ++ [c]) cs
  | TOKEN_STATE_TOKEN_TYPE_NORMAL, value, c :: cs =>
    if c = ' ' ∨ c = '\t' ∨ c = '\n' ∨ c = ';' ∨ c = '{' ∨ c = '}' then
      (TOKEN_TYPE_NORMAL, value, c :: cs)
    else ParseTokenFrom TOKEN_STATE_TOKEN_TYPE_NORMAL (value ++ [c]) cs

/-- The method `ParseToken(input, &value)` called with an empty `value`, as
`Parse` does: token type, value, and the input left unread. -/
def ParseToken (input : Str) : TokenType × Str × Str :=
  ParseTokenFrom TOKEN_STATE_INITIAL_WHITESPACE [] input

/-- What a call of `Parse` comes to: it returns `success` and leaves `config`,
or it runs into undefined behaviour (`top()` or `pop()` of the empty
`config_stack`, `back()` of an empty `statements_`), or the bound on the number
of loop iterations of this model is used up. -/
inductive ParseOutcome where
  | returned (success : Bool) (config : NginxConfig)
  | undefinedBehaviour
  | fuelExhausted

/-- The statement `statements_.back()->tokens_.push_back(token)` on a block;
`none` when the block has no statement. -/
def pushToken : NginxConfig → Str → Option NginxConfig
  | [], _ => none
  | [.mk tokens child], token => some [.mk (tokens ++ [token]) child]
  | st :: st2 :: rest, token => (pushToken (st2 :: rest) token).map (fun b => st :: b)

/-- The statement `statements_.back()->child_block_.reset(child)` on a block;
`none` when the block has no statement. -/
def setChild : NginxConfig → NginxConfig → Option NginxConfig
  | [], _ => none
  | [.mk tokens _], child => some [.mk tokens (some child)]
  | st :: st2 :: rest, child => (setChild (st2 :: rest) child).map (fun b => st :: b)

/-- The variables of the loop of `Parse`.  The blocks on `config_stack` are
listed top first; the block of a stack entry is the child block of the last
statement of the entry beneath it, and is written into that statement when the
entry is popped.  `root_block` holds the root block once it has been popped. -/
structure ParserState where
  config_stack : List NginxConfig
  root_block : Option NginxConfig
  last_token_type : TokenType
  open_blocks : Int

/-- The tree rooted at the bottom of the stack, `child` being the block of the
entry above the listed ones. -/
def closeInto (child : NginxConfig) : List NginxConfig → NginxConfig
  | [] => child
  | parent :: below =>
    closeInto (match setChild parent child with
      | some parent2 => parent2
      | none => parent) below

/-- The tree that `config` points to, for the blocks on the stack. -/
def closeBlocks : List NginxConfig → NginxConfig
  | [] => []
  | top :: below => closeInto top below

/-- The tree that `config` points to in a state of the loop. -/
def ParserState.config (st : ParserState) : NginxConfig :=
  match st.root_block with
  | some root => root
  | none => closeBlocks st.config_stack

/-- The loop `while (true)` of `Parse`, for at most the given number of
iterations. -/
def ParseLoop : Nat → ParserState → Str → ParseOutcome
  | 0, _, _ => .fuelExhausted
  | fuel + 1, st, input =>
    match ParseToken input with
    | (token_type, token, rest) =>
      if token_type = TOKEN_TYPE_ERROR then .returned false st.config
      else if token_type = TOKEN_TYPE_COMMENT then ParseLoop fuel st rest
      else if token_type = TOKEN_TYPE_START then .returned false st.config
      else if token_type = TOKEN_TYPE_NORMAL ∨ token_type = TOKEN_TYPE_QUOTED_STRING then
        if st.last_token_type = TOKEN_TYPE_START ∨
            st.last_token_type = TOKEN_TYPE_STATEMENT_END ∨
            st.last_token_type = TOKEN_TYPE_START_BLOCK ∨
            st.last_token_type = TOKEN_TYPE_END_BLOCK ∨
            st.last_token_type = TOKEN_TYPE_NORMAL ∨
            st.last_token_type = TOKEN_TYPE_QUOTED_STRING then
          match st.config_stack with
          | [] => .undefinedBehaviour
          | top :: below =>
            let top1 :=
              if st.last_token_type ≠ TOKEN_TYPE_NORMAL ∧
                  st.last_token_type ≠ TOKEN_TYPE_QUOTED_STRING then
                top ++ [.mk [] none]
              else top
            match pushToken top1 token with
            | none => .undefinedBehaviour
            | some top2 =>
              ParseLoop fuel
                { st with config_stack := top2 :: below, last_token_type := token_type } rest
        else .returned false st.config
      else if token_type = TOKEN_TYPE_STATEMENT_END then
        if st.last_token_type ≠ TOKEN_TYPE_NORMAL ∧
            st.last_token_type ≠ TOKEN_TYPE_QUOTED_STRING then
          .returned false st.config
        else ParseLoop fuel { st with last_token_type := token_type } rest
      else if token_type = TOKEN_TYPE_START_BLOCK then
        if st.last_token_type ≠ TOKEN_TYPE_NORMAL ∧
            st.last_token_type ≠ TOKEN_TYPE_QUOTED_STRING then
          .returned false st.config
        else
          match st.config_stack with
          | [] => .undefinedBehaviour
          | top :: below =>
            match setChild top [] with
            | none => .undefinedBehaviour
            | some top2 =>
              ParseLoop fuel
                { st with config_stack := [] :: top2 :: below,
                          last_token_type := token_type,
                          open_blocks := st.open_blocks + 1 } rest
      else if token_type = TOKEN_TYPE_END_BLOCK then
        if st.last_token_type ≠ TOKEN_TYPE_STATEMENT_END ∧
            st.last_token_type ≠ TOKEN_TYPE_END_BLOCK ∧
            st.last_token_type ≠ TOKEN_TYPE_COMMENT ∧
            st.last_token_type ≠ TOKEN_TYPE_START_BLOCK then
          .returned false st.config
        else
          match st.config_stack with
          | [] => .undefinedBehaviour
          | [root] =>
            ParseLoop fuel
              { config_stack := [], root_block := some root,
                last_token_type := token_type, open_blocks := st.open_blocks - 1 } rest
          | child :: parent :: below =>
            match setChild parent child with
            | none => .undefinedBehaviour
            | some parent2 =>
              ParseLoop fuel
                { st with config_stack := parent2 :: below,
                          last_token_type := token_type,
                          open_blocks := st.open_blocks - 1 } rest
      else if token_type = TOKEN_TYPE_EOF then
        if st.open_blocks ≠ 0 then .returned false st.config
        else if st.last_token_type ≠ TOKEN_TYPE_STATEMENT_END ∧
            st.last_token_type ≠ TOKEN_TYPE_END_BLOCK then
          .returned false st.config
        else .returned true st.config
      else .returned false st.config

/-- The state in which `Parse` enters its loop, `config` being empty. -/
def ParserState.initial : ParserState :=
  { config_stack := [[]], root_block := none,
    last_token_type := TOKEN_TYPE_START, open_blocks := 0 }

/-- The method `Parse(std::istream* input, NginxConfig* config)` on a stream
holding `input`, with an empty `config`.  The loop reads at least one
character per iteration that does not end it, so `input.length + 1` iterations
are enough. -/
def Parse (input : Str) : ParseOutcome :=
  ParseLoop (input.length + 1) ParserState.initial input

/-- The value `Parse` returns: `some true`, `some false`, or `none` when it
does not return. -/
def ParseOutcome.success : ParseOutcome → Option Bool
  | .returned b _ => some b
  | _ => none

/-- Whether `Parse` ran into undefined behaviour. -/
def ParseOutcome.isUndefined : ParseOutcome → Bool
  | .undefinedBehaviour => true
  | _ => false

/-! ### The vocabulary of the parser claims -/

/-- Whether the text after an opening quote `q` holds a closing quote: a
backslash escapes the character after it, and the first `q` that is not
escaped closes the string. -/
def closesQuote (q : Char) : Str → Bool
  | [] => false
  | c :: rest =>
    if c = '\\' then
      match rest with
      | [] => false
      | _ :: rest2 => closesQuote q rest2
    else if c = q then true
    else closesQuote q rest

/-- The whitespace the tokenizer skips between tokens. -/
def isConfigSpace (c : Char) : Prop := c = ' ' ∨ c = '\t' ∨ c = '\n' ∨ c = '\r'

/-! ## Configuration interpreter (`src/config_interpreter.cc`) -/

/-- The `std::runtime_error`s the interpreter throws, one constructor per
message. -/
inductive ConfigError where
  | noValidDirective (key : Str)
  | invalidPortFormat
  | trailingSlash (uri : Str)
  | staticFileHandlerMisconfigured
  | crudHandlerNeedsChildBlock
  | createQuizHandlerNeedsChildBlock
  | handlerNotSupported (handler : Str)
  | duplicateLocations
  deriving DecidableEq, Repr

/-- What a call of an interpreter function comes to: a value, a thrown
`std::runtime_error`, or undefined behaviour (a vector indexed out of bounds, a
null block pointer dereferenced). -/
inductive Outcome (α : Type) where
  | ok (value : α)
  | error (e : ConfigError)
  | undefinedBehaviour
  deriving DecidableEq, Repr

mutual
/-- The body of the loop of `find_value_for_key` for one statement: `some v`
when the function returns `v` at this statement (it is `key <value>`, or the
recursive call on its child block returns), `none` when the loop goes on to the
next statement. -/
def find_value_in_statement : NginxConfigStatement → Str → Option Str
  | .mk tokens child, key =>
    match tokens with
    | [t0, t1] => if t0 = key then some t1 else find_value_in_child child key
    | _ => find_value_in_child child key
/-- The recursion of `find_value_for_key` into `child_block_`, when present,
inside `try`/`catch`. -/
def find_value_in_child : Option (List NginxConfigStatement) → Str → Option Str
  | none, _ => none
  | some block, key => find_value_for_key block key
/-- The function `find_value_for_key(config_block, key)`; `none` is the
`std::runtime_error` thrown after the loop, `No valid <key> directive found`. -/
def find_value_for_key : List NginxConfigStatement → Str → Option Str
  | [], _ => none
  | statement :: rest, key =>
    match find_value_in_statement statement key with
    | some v => some v
    | none => find_value_for_key rest key
end

/-- The number a string of decimal digits denotes, most significant first. -/
def digitsValue (ds : Str) : Nat :=
  ds.foldl (fun acc c => 10 * acc + (c.toNat - '0'.toNat)) 0

/-- The call `std::stoi(str)`: leading whitespace is skipped, a sign is
accepted, and the longest run of decimal digits that follows is converted;
`none` is the exception thrown when there is no digit (`std::invalid_argument`)
or the value does not fit an `int` (`std::out_of_range`). -/
def stoi (str : Str) : Option Int :=
  let t := str.dropWhile isSpace
  let negative := t.head? = some '-'
  let u := if t.head? = some '-' ∨ t.head? = some '+' then t.drop 1 else t
  let ds := u.takeWhile Char.isDigit
  if ds = [] then none
  else
    let v : Int := if negative then -(digitsValue ds : Int) else (digitsValue ds : Int)
    if -2147483648 ≤ v ∧ v ≤ 2147483647 then some v else none

/-- The conversion `static_cast<short>(i)` of an `int`: the value modulo
`2^16`, in the range of a 16-bit signed integer. -/
def toShort (i : Int) : Int := (i + 32768) % 65536 - 32768

/-- The literal `"listen"`. -/
def listenKey : Str := "listen".toList

/-- The function `find_listen_port`. -/
def find_listen_port (config_block : NginxConfig) : Outcome Int :=
  match find_value_for_key config_block listenKey with
  | none => .error (.noValidDirective listenKey)
  | some port_str =>
    match stoi port_str with
    | some v => .ok (toShort v)
    | none => .error .invalidPortFormat

/-- The struct `ConfigStruct` (its header is not among the sources; the fields
are those the sources use): `uri`, `handler`, and the map `args`, as the list
of its bindings. -/
structure ConfigStruct where
  uri : Str := []
  handler : Str := []
  args : List (Str × Str) := []
  deriving DecidableEq, Repr

/-- The assignment `args[key] = value` on an argument map. -/
def argsSet : List (Str × Str) → Str → Str → List (Str × Str)
  | [], key, value => [(key, value)]
  | (k, v) :: rest, key, value =>
    if k = key then (key, value) :: rest else (k, v) :: argsSet rest key value

/-- The body of the loop of `extract_handler_configs` for one statement: the
entry pushed onto `handler_configs`, `none` when the statement is passed
over. -/
def extract_statement (statement : NginxConfigStatement) : Outcome (Option ConfigStruct) :=
  match statement.tokens_ with
  | t0 :: t1 :: more =>
    if t0 = "location".toList then
      let uri := t1
      if uri.getLast? = some '/' then .error (.trailingSlash uri)
      else
        match more with
        | [] => .undefinedBehaviour
        | handler :: _ =>
          let config : ConfigStruct := { uri := uri, handler := handler }
          if handler = "StaticFileHandler".toList then
            let args := argsSet config.args "mount_point".toList config.uri
            match statement.child_block_ with
            | some child =>
              match find_value_for_key child "root".toList with
              | some v => .ok (some { config with args := argsSet args "doc_root".toList v })
              | none => .error (.noValidDirective "root".toList)
            | none => .error .staticFileHandlerMisconfigured
          else if handler = "EchoHandler".toList then .ok (some config)
          else if handler = "CrudHandler".toList then
            match statement.child_block_ with
            | some child =>
              match find_value_for_key child "data_path".toList with
              | some v => .ok (some { config with args := argsSet config.args "data_path".toList v })
              | none => .error (.noValidDirective "data_path".toList)
            | none => .error .crudHandlerNeedsChildBlock
          else if handler = "HealthHandler".toList then .ok (some config)
          else if handler = "SleepHandler".toList then .ok (some config)
          else if handler = "QuizHandler".toList then
            match statement.child_block_ with
            | some child =>
              match find_value_for_key child "quiz_root".toList with
              | some v => .ok (some { config with args := argsSet config.args "quiz_root".toList v })
              | none => .error (.noValidDirective "quiz_root".toList)
            | none => .undefinedBehaviour
          else if handler = "ResultHandler".toList then
            match statement.child_block_ with
            | some child =>
              match find_value_for_key child "quiz_root".toList with
              | some v => .ok (some { config with args := argsSet config.args "quiz_root".toList v })
              | none => .error (.noValidDirective "quiz_root".toList)
            | none => .undefinedBehaviour
          else if handler = "CreateQuizHandler".toList then
            match statement.child_block_ with
            | some child =>
              match find_value_for_key child "quiz_root".toList with
              | some v => .ok (some { config with args := argsSet config.args "quiz_root".toList v })
              | none => .error (.noValidDirective "quiz_root".toList)
            | none => .error .createQuizHandlerNeedsChildBlock
          else .error (.handlerNotSupported handler)
    else .ok none
  | _ => .ok none

/-- The loop of `extract_handler_configs` over the statements of the root
block, `handler_configs` being the second argument. -/
def extract_loop : List NginxConfigStatement → List ConfigStruct → Outcome (List ConfigStruct)
  | [], handler_configs => .ok handler_configs
  | statement :: rest, handler_configs =>
    match extract_statement statement with
    | .ok none => extract_loop rest handler_configs
    | .ok (some config) => extract_loop rest (handler_configs ++ [config])
    | .error e => .error e
    | .undefinedBehaviour => .undefinedBehaviour

/-- The function `extract_handler_configs`. -/
def extract_handler_configs (config_block : NginxConfig) : Outcome (List ConfigStruct) :=
  extract_loop config_block []

/-! ### The vocabulary of the interpreter claims -/

mutual
/-- The statements of a statement's subtree in depth-first order: the statement
itself, then the statements of its child block. -/
def dfsStatement : NginxConfigStatement → List NginxConfigStatement
  | .mk tokens child => .mk tokens child :: dfsChild child
/-- The statements of an optional child block in depth-first order. -/
def dfsChild : Option (List NginxConfigStatement) → List NginxConfigStatement
  | none => []
  | some block => dfsBlock block
/-- The statements of a block in depth-first order: statements in source
order, a statement before the statements of its child block. -/
def dfsBlock : List NginxConfigStatement → List NginxConfigStatement
  | [] => []
  | statement :: rest => dfsStatement statement ++ dfsBlock rest
end

/-- Whether a statement is `key <value>`: exactly two tokens, the first `key`. -/
def isKeyValue (key : Str) (statement : NginxConfigStatement) : Bool :=
  statement.tokens_.length = 2 ∧ statement.tokens_.head? = some key

/-- Whether a string begins with a decimal integer: optional whitespace, an
optional sign, then at least one decimal digit. -/
def beginsWithInteger (v : Str) : Prop :=
  ∃ (ws sign : Str) (d : Char) (rest : Str),
    v = ws ++ sign ++ d :: rest ∧ (∀ c ∈ ws, isSpace c = true) ∧
    (sign = [] ∨ sign = ['+'] ∨ sign = ['-']) ∧ d.isDigit = true

/-- The second token of a statement (empty when there is none). -/
def secondToken (statement : NginxConfigStatement) : Str :=
  statement.tokens_.getD 1 []

/-- The first statement in depth-first order that is `key <value>`. -/
def selectedStatement (config_block : NginxConfig) (key : Str) : Option NginxConfigStatement :=
  (dfsBlock config_block).find? (isKeyValue key)

/-- The digits `std::stoi` converts: those that follow the optional whitespace
and the optional sign. -/
def leadingDigits (str : Str) : Str :=
  let t := str.dropWhile isSpace
  let u := if t.head? = some '-' ∨ t.head? = some '+' then t.drop 1 else t
  u.takeWhile Char.isDigit

/-! ## Session engine (`src/session.cc`, `src/request_handler_factory.cc`) -/

/-- A `RequestHandler`: its method `handle_request`, which returns a
`std::unique_ptr<response>` (`none` when null) or throws a `std::exception`
(the message). -/
structure RequestHandler where
  handle_request : request → Except Str (Option response)

/-- The type `RequestHandler::Factory`: from the arguments to a
`std::unique_ptr<RequestHandler>` (`none` when null), or a thrown
`std::exception`. -/
abbrev Factory := List (Str × Str) → Except Str (Option RequestHandler)

/-- A `RequestHandlerFactory`: the map `factory_map_`. -/
structure RequestHandlerFactory where
  factory_map_ : List (Str × Factory)

/-- The lookup `factory_map_.find(handler_name)`. -/
def RequestHandlerFactory.lookup : List (Str × Factory) → Str → Option Factory
  | [], _ => none
  | (k, f) :: rest, name => if k = name then some f else lookup rest name

/-- The method `RequestHandlerFactory::create_handler`: the registered
constructor applied to the arguments, `nullptr` when the name is not
registered. -/
def RequestHandlerFactory.create_handler (factory : RequestHandlerFactory)
    (handler_name : Str) (args : List (Str × Str)) : Except Str (Option RequestHandler) :=
  match RequestHandlerFactory.lookup factory.factory_map_ handler_name with
  | some f => f args
  | none => .ok none

/-- What one call of `session::handle_read` comes to. -/
inductive ReadOutcome where
  /-- The read failed: the session is deleted. -/
  | deleted
  /-- No header terminator yet: another read is issued, the buffer kept. -/
  | awaiting (request_buffer_ : Str)
  /-- The bytes handed to `async_write`. -/
  | wrote (out : Str)
  /-- Undefined behaviour: `handler->handle_request` on a null `handler`. -/
  | nullHandlerDereferenced
  /-- Undefined behaviour: `res->headers` on a null `res`. -/
  | nullResponseDereferenced
  /-- An exception leaves `handle_read`. -/
  | thrown
  deriving DecidableEq, Repr

/-- The response synthesized for a malformed request. -/
def badRequestResponse : response :=
  let res : response :=
    { http_version := "HTTP/1.1".toList, status_code := 400,
      reason_phrase := "Bad Request".toList }
  let res := { res with headers := mapSet res.headers "Content-Type".toList "text/plain".toList }
  let res := { res with body := "Bad Request".toList }
  let length := natDigits res.body.length
  let res := { res with headers := mapSet res.headers "Content-Length".toList length }
  { res with headers := mapSet res.headers "Connection".toList "close".toList }

/-- The end of the dispatch branch of `handle_read`: `Connection: close` is
set on `*res`, which is serialized and written. -/
def writeResponse (res : Option response) : ReadOutcome :=
  match res with
  | none => .nullResponseDereferenced
  | some r =>
    .wrote (serialize_response
      { r with headers := mapSet r.headers "Connection".toList "close".toList })

/-- The method `session::handle_read`, as a function of the routing trie, the
handler registry, the buffer accumulated so far, whether the read failed, and
the bytes read. -/
def handle_read ( trie_root_ : TrieNode ConfigStruct) (factory_ : RequestHandlerFactory)
    (request_buffer_ : Str) (error : Bool) (data : Str) : ReadOutcome :=
  if error then .deleted
  else
    let buffer := request_buffer_ ++ data
    match findStr crlfcrlf buffer with
    | none => .awaiting buffer
    | some _ =>
      match parse_request buffer with
      | none => .thrown
      | some req =>
        if req.method = [] then .wrote (serialize_response badRequestResponse)
        else
          match TrieNode.find trie_root_ req.uri with
          | some handler_config =>
            match factory_.create_handler handler_config.handler handler_config.args with
            | .error _ => writeResponse none
            | .ok none => .nullHandlerDereferenced
            | .ok (some handler) =>
              match handler.handle_request req with
              | .error _ => writeResponse none
              | .ok res => writeResponse res
          | none =>
            match factory_.create_handler "NotFoundHandler".toList [] with
            | .error _ => .thrown
            | .ok none => .nullHandlerDereferenced
            | .ok (some handler) =>
              match handler.handle_request req with
              | .error _ => .thrown
              | .ok res => writeResponse res

/-- The method `NotFoundHandler::handle_request`. -/
def NotFoundHandler.handle_request (_req : request) : Except Str (Option response) :=
  let resp : response := {}
  let resp := { resp with http_version := "HTTP/1.1".toList }
  let resp := { resp with status_code := 404 }
  let resp := { resp with reason_phrase := "Not Found".toList }
  let resp := { resp with body := "404 Not Found".toList }
  let length := natDigits resp.body.length
  let resp := { resp with headers := mapSet resp.headers "Content-Length".toList length }
  let resp := { resp with headers := mapSet resp.headers "Content-Type".toList "text/plain".toList }
  .ok (some resp)

/-- The method `NotFoundHandler::create`, which ignores its arguments. -/
def NotFoundHandler.create : Factory := fun _ =>
  .ok (some { handle_request := NotFoundHandler.handle_request })

/-- The method `StaticFileHandler::create`: the handler it constructs (a
parameter here) when both `mount_point` and `doc_root` are among the
arguments, `nullptr` otherwise. -/
def StaticFileHandler.create (constructed : RequestHandler) : Factory := fun args =>
  if (args.any fun kv => kv.1 = "mount_point".toList) ∧
      (args.any fun kv => kv.1 = "doc_root".toList) then
    .ok (some constructed)
  else .ok none

/-! ## Route table and startup (`src/config_interpreter.cc`, `src/server_main.cc`) -/

/-- The default-constructed `ConfigStruct`. -/
instance : Inhabited ConfigStruct := ⟨{}⟩

/-- The lookup `m.find(key)` on a `std::map<std::string, ConfigStruct>`, given
as the list of its bindings in ascending key order. -/
def configMapFind : List (Str × ConfigStruct) → Str → Option ConfigStruct
  | [], _ => none
  | (k, v) :: rest, key => if k = key then some v else configMapFind rest key

/-- The assignment `m[key] = value` on a `std::map<std::string, ConfigStruct>`. -/
def configMapSet : List (Str × ConfigStruct) → Str → ConfigStruct → List (Str × ConfigStruct)
  | [], key, value => [(key, value)]
  | (k, v) :: rest, key, value =>
    if k = key then (key, value) :: rest
    else if strLt key k then (key, value) :: (k, v) :: rest
    else (k, v) :: configMapSet rest key value

/-- The loop of `create_uri_to_config_map`, `uri_to_config_map` being the
second argument. -/
def create_uri_to_config_map_loop :
    List ConfigStruct → List (Str × ConfigStruct) → Outcome (List (Str × ConfigStruct))
  | [], uri_to_config_map => .ok uri_to_config_map
  | config :: rest, uri_to_config_map =>
    if (configMapFind uri_to_config_map config.uri).isSome then .error .duplicateLocations
    else create_uri_to_config_map_loop rest (configMapSet uri_to_config_map config.uri config)

/-- The function `create_uri_to_config_map`. -/
def create_uri_to_config_map (handler_configs : List ConfigStruct) :
    Outcome (List (Str × ConfigStruct)) :=
  create_uri_to_config_map_loop handler_configs []

/-- What the startup part of `main` comes to, for a configuration file that
could be opened: the process exits with a status, or the server is constructed
on a port with a routing trie, or the behaviour is undefined. -/
inductive StartupOutcome where
  | exited (status : Nat)
  | serverStarted (port : Int) (trie : TrieNode ConfigStruct)
  | undefinedBehaviour
  | fuelExhausted

/-- The startup part of `main` on the text of the configuration file:
`process_config_file`, `find_listen_port`, `extract_handler_configs`, the loop
that inserts every entry into the trie, and the construction of the server. -/
def main_startup (config_text : Str) : StartupOutcome :=
  match Parse config_text with
  | .returned false _ => .exited 1
  | .undefinedBehaviour => .undefinedBehaviour
  | .fuelExhausted => .fuelExhausted
  | .returned true config =>
    match find_listen_port config with
    | .error _ => .exited 1
    | .undefinedBehaviour => .undefinedBehaviour
    | .ok port =>
      match extract_handler_configs config with
      | .error _ => .exited 1
      | .undefinedBehaviour => .undefinedBehaviour
      | .ok handler_configs =>
        .serverStarted port
          (handler_configs.foldl (fun t config => t.insert config.uri (some config))
            TrieNode.empty)

/-- The port the server was constructed on, when it was. -/
def StartupOutcome.port : StartupOutcome → Option Int
  | .serverStarted port _ => some port
  | _ => none

/-- The entry the routing trie of the started server finds for a URI. -/
def StartupOutcome.route : StartupOutcome → Str → Option ConfigStruct
  | .serverStarted _ trie, uri => trie.find uri
  | _, _ => none

/-- The exit status, when the process exited during startup. -/
def StartupOutcome.exitStatus : StartupOutcome → Option Nat
  | .exited status => some status
  | _ => none

/-! ### The vocabulary of the request-line claim -/

/-- The whitespace-separated fields of a line: its maximal runs of characters
that are not whitespace. -/
def fields (line : Str) : List Str :=
  (line.splitOnP isSpace).filter (fun t => t ≠ [])

/-- The header part of a raw request: what precedes its first `\r\n\r\n` (the
whole request when there is none). -/
def headerPart (raw : Str) : Str :=
  raw.take ((findStr crlfcrlf raw).getD raw.length)

/-- The first line of a header part: what precedes its first line feed. -/
def firstLine (header_part : Str) : Str :=
  header_part.takeWhile (fun c => c ≠ '\n')

/-! ### The vocabulary of the route-extraction claim -/

/-- Whether the first token of a statement is `location`. -/
def isLocation (statement : NginxConfigStatement) : Bool :=
  statement.tokens_.head? = some "location".toList

/-- The value of the directive `key` in a child block: the second token of the
first statement `key <value>` of the block in depth-first order. -/
def directiveValue (child : Option NginxConfig) (key value : Str) : Prop :=
  ∃ block statement, child = some block ∧
    selectedStatement block key = some statement ∧ value = secondToken statement

/-- The arguments a route entry carries, by handler name: `mount_point` and
`doc_root` for `StaticFileHandler`, `data_path` for `CrudHandler`, `quiz_root`
for the three quiz handlers, nothing for `EchoHandler`, `HealthHandler` and
`SleepHandler`. -/
def requiredArgs (handler uri : Str) (child : Option NginxConfig)
    (args : List (Str × Str)) : Prop :=
  (handler = "StaticFileHandler".toList ∧
    ∃ v, directiveValue child "root".toList v ∧
      args = [("mount_point".toList, uri), ("doc_root".toList, v)]) ∨
  (handler = "CrudHandler".toList ∧
    ∃ v, directiveValue child "data_path".toList v ∧ args = [("data_path".toList, v)]) ∨
  ((handler = "QuizHandler".toList ∨ handler = "ResultHandler".toList ∨
      handler = "CreateQuizHandler".toList) ∧
    ∃ v, directiveValue child "quiz_root".toList v ∧ args = [("quiz_root".toList, v)]) ∨
  ((handler = "EchoHandler".toList ∨ handler = "HealthHandler".toList ∨
      handler = "SleepHandler".toList) ∧ args = [])

/-- The route entry of a well-formed `location <uri> <handler>` statement: at
least three tokens, a URI that does not end in `/`, a supported handler with
its required directive; the entry has the URI, the handler name and the
arguments of the handler. -/
def RouteOf (statement : NginxConfigStatement) (entry : ConfigStruct) : Prop :=
  ∃ uri handler more,
    statement.tokens_ = "location".toList :: uri :: handler :: more ∧
    uri.getLast? ≠ some '/' ∧
    entry.uri = uri ∧ entry.handler = handler ∧
    requiredArgs handler uri statement.child_block_ entry.args

/-! ### The vocabulary of the grammar claims -/

/-- The kinds of the tokens that successive calls of `ParseToken` return on an
input, up to and including the first end-of-stream or error token, for at most
the given number of calls. -/
def tokenTypes : Nat → Str → List TokenType
  | 0, _ => []
  | fuel + 1, input =>
    match ParseToken input with
    | (token_type, _, rest) =>
      if token_type = TOKEN_TYPE_EOF ∨ token_type = TOKEN_TYPE_ERROR then [token_type]
      else token_type :: tokenTypes fuel rest

/-- The token sequence of an input: the kinds of the tokens `ParseToken`
returns on it, call after call, up to the end-of-stream or error token. -/
def tokenSequence (input : Str) : List TokenType :=
  tokenTypes (input.length + 1) input

/-- The token sequence of an input without its comment tokens. -/
def significantTokens (input : Str) : List TokenType :=
  (tokenSequence input).filter (fun t => t ≠ TOKEN_TYPE_COMMENT)

/-- A token sequence that the grammar accepts after a token of kind `prev`:
every `;` and every `{` comes directly after a word or quoted string, and the
sequence ends with the end-of-stream token, directly after `;` or `}`. -/
def legalFrom : TokenType → List TokenType → Prop
  | _, [] => False
  | prev, t :: rest =>
    if t = TOKEN_TYPE_EOF then
      rest = [] ∧ (prev = TOKEN_TYPE_STATEMENT_END ∨ prev = TOKEN_TYPE_END_BLOCK)
    else
      ((t = TOKEN_TYPE_STATEMENT_END ∨ t = TOKEN_TYPE_START_BLOCK) →
        (prev = TOKEN_TYPE_NORMAL ∨ prev = TOKEN_TYPE_QUOTED_STRING)) ∧
      legalFrom t rest

/-! ### One iteration of the loop of `Parse` -/

/-- What one iteration of the loop of `Parse` comes to: the loop goes on in a
new state on the input left unread, or `Parse` ends. -/
inductive LoopStep where
  | next (st : ParserState) (rest : Str)
  | done (outcome : ParseOutcome)

/-- The body of the loop `while (true)` of `Parse`: one call of `ParseToken`
and the branch taken on the token it returns. -/
def ParseStep (st : ParserState) (input : Str) : LoopStep :=
  match ParseToken input with
  | (token_type, token, rest) =>
    if token_type = TOKEN_TYPE_ERROR then .done (.returned false st.config)
    else if token_type = TOKEN_TYPE_COMMENT then .next st rest
    else if token_type = TOKEN_TYPE_START then .done (.returned false st.config)
    else if token_type = TOKEN_TYPE_NORMAL ∨ token_type = TOKEN_TYPE_QUOTED_STRING then
      if st.last_token_type = TOKEN_TYPE_START ∨
          st.last_token_type = TOKEN_TYPE_STATEMENT_END ∨
          st.last_token_type = TOKEN_TYPE_START_BLOCK ∨
          st.last_token_type = TOKEN_TYPE_END_BLOCK ∨
          st.last_token_type = TOKEN_TYPE_NORMAL ∨
          st.last_token_type = TOKEN_TYPE_QUOTED_STRING then
        match st.config_stack with
        | [] => .done .undefinedBehaviour
        | top :: below =>
          let top1 :=
            if st.last_token_type ≠ TOKEN_TYPE_NORMAL ∧
                st.last_token_type ≠ TOKEN_TYPE_QUOTED_STRING then
              top ++ [.mk [] none]
            else top
          match pushToken top1 token with
          | none => .done .undefinedBehaviour
          | some top2 =>
            .next { st with config_stack := top2 :: below, last_token_type := token_type } rest
      else .done (.returned false st.config)
    else if token_type = TOKEN_TYPE_STATEMENT_END then
      if st.last_token_type ≠ TOKEN_TYPE_NORMAL ∧
          st.last_token_type ≠ TOKEN_TYPE_QUOTED_STRING then
        .done (.returned false st.config)
      else .next { st with last_token_type := token_type } rest
    else if token_type = TOKEN_TYPE_START_BLOCK then
      if st.last_token_type ≠ TOKEN_TYPE_NORMAL ∧
          st.last_token_type ≠ TOKEN_TYPE_QUOTED_STRING then
        .done (.returned false st.config)
      else
        match st.config_stack with
        | [] => .done .undefinedBehaviour
        | top :: below =>
          match setChild top [] with
          | none => .done .undefinedBehaviour
          | some top2 =>
            .next { st with config_stack := [] :: top2 :: below,
                            last_token_type := token_type,
                            open_blocks := st.open_blocks + 1 } rest
    else if token_type = TOKEN_TYPE_END_BLOCK then
      if st.last_token_type ≠ TOKEN_TYPE_STATEMENT_END ∧
          st.last_token_type ≠ TOKEN_TYPE_END_BLOCK ∧
          st.last_token_type ≠ TOKEN_TYPE_COMMENT ∧
          st.last_token_type ≠ TOKEN_TYPE_START_BLOCK then
        .done (.returned false st.config)
      else
        match st.config_stack with
        | [] => .done .undefinedBehaviour
        | [root] =>
          .next { config_stack := [], root_block := some root,
                  last_token_type := token_type, open_blocks := st.open_blocks - 1 } rest
        | child :: parent :: below =>
          match setChild parent child with
          | none => .done .undefinedBehaviour
          | some parent2 =>
            .next { st with config_stack := parent2 :: below,
                            last_token_type := token_type,
                            open_blocks := st.open_blocks - 1 } rest
    else if token_type = TOKEN_TYPE_EOF then
      if st.open_blocks ≠ 0 then .done (.returned false st.config)
      else if st.last_token_type ≠ TOKEN_TYPE_STATEMENT_END ∧
          st.last_token_type ≠ TOKEN_TYPE_END_BLOCK then
        .done (.returned false st.config)
      else .done (.returned true st.config)
    else .done (.returned false st.config)

/-- The states in which the loop of `Parse` starts its iterations, one after
the other, for at most the given number of iterations. -/
def ParseStates : Nat → ParserState → Str → List ParserState
  | 0, _, _ => []
  | fuel + 1, st, input =>
    st :: (match ParseStep st input with
      | .next st2 rest => ParseStates fuel st2 rest
      | .done _ => [])

/-! ### The vocabulary of the printing claim -/

/-- The tokens of a statement, separated by one space. -/
def renderTokens : List Str → Str
  | [] => []
  | [token] => token
  | token :: token2 :: rest => token ++ ' ' :: renderTokens (token2 :: rest)

mutual
/-- The canonical text of a statement: its tokens, then `;` and a newline, or
its child block between ` {`, a newline, and `}`, a newline. -/
def renderStatement : NginxConfigStatement → Str
  | .mk tokens child => renderTokens tokens ++ renderChild child
/-- The canonical text that follows the tokens of a statement. -/
def renderChild : Option (List NginxConfigStatement) → Str
  | none => [';', '\n']
  | some block => [' ', '{', '\n'] ++ renderBlock block ++ ['}', '\n']
/-- The canonical text of a block: the texts of its statements in order. -/
def renderBlock : List NginxConfigStatement → Str
  | [] => []
  | statement :: rest => renderStatement statement ++ renderBlock rest
end

/-- A plain word: not empty, without space, tab, CR, LF, `{`, `}` or `;`, and
not starting with `#`, `'` or `"`. -/
def plainWord (w : Str) : Bool :=
  decide (w ≠ []) &&
  w.all (fun c => decide (c ≠ ' ' ∧ c ≠ '\t' ∧ c ≠ '\r' ∧ c ≠ '\n' ∧
    c ≠ '{' ∧ c ≠ '}' ∧ c ≠ ';')) &&
  decide (w.head? ≠ some '#' ∧ w.head? ≠ some '\'' ∧ w.head? ≠ some '"')

mutual
/-- Whether a statement and the statements beneath it have at least one token
each, every token a plain word. -/
def plainStatement : NginxConfigStatement → Bool
  | .mk tokens child => decide (tokens ≠ []) && tokens.all plainWord && plainChild child
/-- Whether the statements of an optional child block are plain. -/
def plainChild : Option (List NginxConfigStatement) → Bool
  | none => true
  | some block => plainBlock block
/-- Whether the statements of a block are plain. -/
def plainBlock : List NginxConfigStatement → Bool
  | [] => true
  | statement :: rest => plainStatement statement && plainBlock rest
end

/-! ### The vocabulary of the statement invariants -/

/-- The token lists of the statements of a tree, in depth-first order. -/
def tokenLists (config : NginxConfig) : List (List Str) :=
  (dfsBlock config).map NginxConfigStatement.tokens_

/-- Whether a token kind is a word or a quoted string. -/
def isWordToken (t : TokenType) : Prop :=
  t = TOKEN_TYPE_NORMAL ∨ t = TOKEN_TYPE_QUOTED_STRING

/-- How the token lists of the tree change from the state of one iteration to
the state of the next: not at all when the token read is not a word; by a new
one-token list at the end when a word is read after a token that is not a
word; by one more token at the end of the last list when a word is read
directly after a word. -/
def TokensExtend (st st2 : ParserState) : Prop :=
  (tokenLists st2.config = tokenLists st.config ∧
    (st2.last_token_type = st.last_token_type ∨ ¬ isWordToken st2.last_token_type)) ∨
  (isWordToken st2.last_token_type ∧ ¬ isWordToken st.last_token_type ∧
    ∃ token, tokenLists st2.config = tokenLists st.config ++ [[token]]) ∨
  (isWordToken st2.last_token_type ∧ isWordToken st.last_token_type ∧
    ∃ lists tokens token, tokenLists st.config = lists ++ [tokens] ∧
      tokenLists st2.config = lists ++ [tokens ++ [token]])

/-- The invariant of the loop of `Parse`.  While the root block is on the
stack: every block beneath the top one has a statement (the one whose child
block lies above it), after a word the top block ends with a statement without
child block, and no statement of a block on the stack has an empty token list.
Once the root block has been popped: the stack is empty, the last token is not
a word, and no statement of the tree has an empty token list. -/
def LoopInvariant (st : ParserState) : Prop :=
  (st.root_block = none ∧ ∃ top below, st.config_stack = top :: below ∧
      (∀ block ∈ below, block ≠ []) ∧
      (isWordToken st.last_token_type → ∃ init tokens, top = init ++ [.mk tokens none]) ∧
      (∀ block ∈ top :: below, [] ∉ tokenLists block)) ∨
  (st.config_stack = [] ∧ ¬ isWordToken st.last_token_type ∧
    ∃ root, st.root_block = some root ∧ [] ∉ tokenLists root)

/-! ### The vocabulary of the comment claim -/

/-- The state of the tokenizer after it has read a text, over as many calls of
`ParseToken` as the text holds tokens: the state and value of `ParseToken` at
the start, then character by character as `ParseToken` goes; when a token is
returned the next call starts in the initial state with an empty value, and a
word's delimiter, pushed back, is read again by that call.  A text that ends
right after the backslash of an escape leaves the tokenizer inside the quoted
string. -/
def stateAfter : TokenParserState → Str → Str → TokenParserState
  | state, _, [] => state
  | TOKEN_STATE_INITIAL_WHITESPACE, value, c :: cs =>
    if c = '{' then stateAfter TOKEN_STATE_INITIAL_WHITESPACE [] cs
    else if c = '}' then stateAfter TOKEN_STATE_INITIAL_WHITESPACE [] cs
    else if c = '#' then stateAfter TOKEN_STATE_TOKEN_TYPE_COMMENT [c] cs
    else if c = '"' then stateAfter TOKEN_STATE_DOUBLE_QUOTE [c] cs
    else if c = '\'' then stateAfter TOKEN_STATE_SINGLE_QUOTE [c] cs
    else if c = ';' then stateAfter TOKEN_STATE_INITIAL_WHITESPACE [] cs
    else if c = ' ' ∨ c = '\t' ∨ c = '\n' ∨ c = '\r' then
      stateAfter TOKEN_STATE_INITIAL_WHITESPACE value cs
    else stateAfter TOKEN_STATE_TOKEN_TYPE_NORMAL (value ++ [c]) cs
  | TOKEN_STATE_SINGLE_QUOTE, value, c :: cs =>
    if c = '\\' then
      match cs with
      | [] => TOKEN_STATE_SINGLE_QUOTE
      | escaped_char :: rest =>
        stateAfter TOKEN_STATE_SINGLE_QUOTE (value ++ [c] ++ [c] ++ [escaped_char]) rest
    else if c = '\'' ∧ secondLast (value ++ [c]) ≠ some '\\' then
      stateAfter TOKEN_STATE_INITIAL_WHITESPACE [] cs
    else stateAfter TOKEN_STATE_SINGLE_QUOTE (value ++ [c]) cs
  | TOKEN_STATE_DOUBLE_QUOTE, value, c :: cs =>
    if c = '\\' then
      match cs with
      | [] => TOKEN_STATE_DOUBLE_QUOTE
      | escaped_char :: rest =>
        stateAfter TOKEN_STATE_DOUBLE_QUOTE (value ++ [c] ++ [c] ++ [escaped_char]) rest
    else if c = '"' ∧ secondLast (value ++ [c]) ≠ some '\\' then
      stateAfter TOKEN_STATE_INITIAL_WHITESPACE [] cs
    else stateAfter TOKEN_STATE_DOUBLE_QUOTE (value ++ [c]) cs
  | TOKEN_STATE_TOKEN_TYPE_COMMENT, value, c :: cs =>
    if c = '\n' ∨ c = '\r' then stateAfter TOKEN_STATE_INITIAL_WHITESPACE [] cs
    else stateAfter TOKEN_STATE_TOKEN_TYPE_COMMENT (value ++ [c]) cs
  | TOKEN_STATE_TOKEN_TYPE_NORMAL, value, c :: cs =>
    if c = ' ' ∨ c = '\t' ∨ c = '\n' ∨ c = ';' ∨ c = '{' ∨ c = '}' then
      stateAfter TOKEN_STATE_INITIAL_WHITESPACE [] cs
    else stateAfter TOKEN_STATE_TOKEN_TYPE_NORMAL (value ++ [c]) cs

/-- The state of the tokenizer at the point of an input that follows `text`. -/
def tokenizerStateAt (text : Str) : TokenParserState :=
  stateAfter TOKEN_STATE_INITIAL_WHITESPACE [] text

/-! ## Trie lookup with the trie it leaves (`src/trie.cc`) -/

/-- The loop of `TrieNode::find` together with the node as the loop leaves it.
The loop assigns to no field; `children.find(token)` only reads, and
`children[token]` is evaluated for a key that is present, where `operator[]`
of a `std::map` returns the mapped child and inserts nothing.  The child as the
rest of the walk leaves it is put back under its key. -/
def TrieNode.findTokensVisit {α : Type} :
    List Str → TrieNode α → Option α → Option α × TrieNode α
  | [], node, last_config => (last_config, node)
  | token :: rest, .mk ch cfg, last_config =>
    if token = [] then findTokensVisit rest (.mk ch cfg) last_config
    else match TrieNode.childLookup token ch with
      | none => (last_config, .mk ch cfg)
      | some child =>
        let visited := findTokensVisit rest child
          (match child.config with
            | some c => some c
            | none => last_config)
        (visited.1, .mk (TrieNode.childUpdate token (fun _ => visited.2) ch) cfg)

/-- The method `TrieNode::find(uri)` together with the trie after the call. -/
def TrieNode.findVisit {α : Type} (node : TrieNode α) (uri : Str) : Option α × TrieNode α :=
  TrieNode.findTokensVisit (getlineTokens '/' (TrieNode.stripQuery uri)) node none

/-! ## Static file handler (`src/static_file_handler.cc`) -/

/-- Whether a `std::filesystem::path` is absolute (POSIX): it starts with `/`. -/
def pathIsAbsolute (p : Str) : Bool := p.head? = some '/'

/-- Whether a `std::filesystem::path` has a filename: it is not empty and does
not end with `/`. -/
def pathHasFilename (p : Str) : Bool := decide (p ≠ []) && decide (p.getLast? ≠ some '/')

/-- The elements that iterating a `std::filesystem::path` yields (POSIX): the
root directory `/` when the path starts with `/`, the filenames between runs
of `/`, and an empty filename at the end when the path ends with `/` after a
filename. -/
def pathElements (p : Str) : List Str :=
  (if pathIsAbsolute p then [['/']] else []) ++ segs p ++
    (if segs p ≠ [] ∧ p.getLast? = some '/' then [[]] else [])

/-- The operator `p /= q` of `std::filesystem::path` (POSIX): an absolute `q`
replaces `p`; otherwise `q` is appended, after a `/` when `p` has a
filename. -/
def pathAppend (p q : Str) : Str :=
  if pathIsAbsolute q then q
  else if pathHasFilename p then p ++ '/' :: q
  else p ++ q

/-- The member `extension()` of a `std::filesystem::path`: the part of the
filename from its last `.` on, empty when the filename is `.` or `..`, has no
`.`, or has its only `.` in front. -/
def pathExtension (p : Str) : Str :=
  let filename := (p.reverse.takeWhile (fun c => c ≠ '/')).reverse
  if filename = ['.'] ∨ filename = ['.', '.'] then []
  else
    let ext := (filename.reverse.takeWhile (fun c => c ≠ '.')).reverse
    if ext.length = filename.length ∨ ext.length + 1 = filename.length then []
    else '.' :: ext

/-- The table `StaticFileHandler::kMimeTypes`. -/
def kMimeTypes : List (Str × Str) :=
  [(".html".toList, "text/html".toList), (".css".toList, "text/css".toList),
   (".js".toList, "application/javascript".toList), (".json".toList, "application/json".toList),
   (".png".toList, "image/png".toList), (".jpg".toList, "image/jpeg".toList),
   (".jpeg".toList, "image/jpeg".toList), (".webp".toList, "image/webp".toList),
   (".txt".toList, "text/plain".toList), (".zip".toList, "application/zip".toList)]

/-- The member `mount_point_` as the constructor of `StaticFileHandler` leaves
it: a `/` is appended unless the mount point is empty or ends with `/`. -/
def StaticFileHandler.mount_point_ (mount_point : Str) : Str :=
  if mount_point ≠ [] ∧ mount_point.getLast? ≠ some '/' then mount_point ++ ['/']
  else mount_point

/-- The member `doc_root_` as the constructor of `StaticFileHandler` leaves
it: a trailing `/` is removed. -/
def StaticFileHandler.doc_root_ (doc_root : Str) : Str :=
  if doc_root ≠ [] ∧ doc_root.getLast? = some '/' then doc_root.dropLast else doc_root

/-- The response of `StaticFileHandler::handle_request` for everything it does
not serve. -/
def StaticFileHandler.notFound (req : request) : response :=
  { http_version := req.http_version, status_code := 404,
    reason_phrase := "Not Found".toList, body := "404 Not Found".toList }

/-- The loop of `StaticFileHandler::handle_request` over the elements of
`rel_path`, `safe` being the second argument: `none` when an element is `..`. -/
def StaticFileHandler.safePath : List Str → Str → Option Str
  | [], safe => some safe
  | part :: rest, safe =>
    if part = ['.', '.'] then none
    else StaticFileHandler.safePath rest (pathAppend safe part)

/-- The method `StaticFileHandler::handle_request` of a handler constructed
with a mount point and a document root.  `regularFile` is the file system: the
contents of the regular file a path leads to, `none` when the path does not
exist or is no regular file.  The result is the response and the path of the
file that was opened for reading, `none` when no file was. -/
def StaticFileHandler.handle_request (mount_point doc_root : Str)
    (regularFile : Str → Option Str) (req : request) : response × Option Str :=
  let mount := StaticFileHandler.mount_point_ mount_point
  let root := StaticFileHandler.doc_root_ doc_root
  if ¬ mount.isPrefixOf req.uri then (StaticFileHandler.notFound req, none)
  else
    let rel_path := req.uri.drop mount.length
    if rel_path = [] ∨ rel_path = ['/'] then (StaticFileHandler.notFound req, none)
    else
      match StaticFileHandler.safePath (pathElements rel_path) [] with
      | none => (StaticFileHandler.notFound req, none)
      | some safe =>
        let full := pathAppend root safe
        match regularFile full with
        | none => (StaticFileHandler.notFound req, none)
        | some data =>
          let ext := pathExtension full
          let mime :=
            match kMimeTypes.find? (fun kv => kv.1 = ext) with
            | some kv => kv.2
            | none => "application/octet-stream".toList
          let headers := mapSet [] "Content-Type".toList mime
          let headers := mapSet headers "Content-Length".toList (natDigits data.length)
          ({ http_version := req.http_version, status_code := 200,
             reason_phrase := "OK".toList, headers := headers, body := data }, some full)

/-! ## Quiz result (`src/result_handler.cc`) -/

/-- The statement `counts[val]++` on a `std::map<std::string, int>`, the map
being the list of its bindings in ascending order of key.  A counter is at
most the number of form fields. -/
def countsIncrement : List (Str × Nat) → Str → List (Str × Nat)
  | [], val => [(val, 1)]
  | (k, n) :: rest, val =>
    if k = val then (k, n + 1) :: rest
    else if strLt val k then (val, 1) :: (k, n) :: rest
    else (k, n) :: countsIncrement rest val

/-- The condition of the first loop of `calculate_result`: the key starts with
`q` and is not `quiz_id`. -/
def isAnswerField (key : Str) : Bool :=
  decide (key.head? = some 'q') && decide (key ≠ "quiz_id".toList)

/-- The first loop of `calculate_result` over the fields, in the order in
which the unordered map yields them. -/
def countAnswers (params : List (Str × Str)) : List (Str × Nat) :=
  params.foldl (fun counts kv => if isAnswerField kv.1 then countsIncrement counts kv.2 else counts)
    []

/-- The second loop of `calculate_result` over `counts`, `max_count` and `top`
being the second and third argument; the result is `top`. -/
def topValues : List (Str × Nat) → Nat → List Str → List Str
  | [], _, top => top
  | (val, count) :: rest, max_count, top =>
    if count > max_count then topValues rest count [val]
    else if count = max_count then topValues rest max_count (top ++ [val])
    else topValues rest max_count top

/-- The function `calculate_result` on the fields of the unordered map
`params`, listed in its iteration order. -/
def calculate_result (params : List (Str × Str)) : Str :=
  match topValues (countAnswers params) 0 [] with
  | [] => "no-result".toList
  | first :: _ => first

/-- The values of the answer fields of a form, in the order of the fields. -/
def answerValues (params : List (Str × Str)) : List Str :=
  (params.filter (fun kv => isAnswerField kv.1)).map Prod.snd

/-! ## CRUD handler (`src/crud_handler.cc`) -/

/-- The response `CrudHandler::handle_request` starts from, with a status, a
reason and a body set. -/
def CrudHandler.errorResponse (status_code : Int) (reason_phrase body : Str) : response :=
  { http_version := "HTTP/1.1".toList, status_code := status_code,
    reason_phrase := reason_phrase,
    headers := mapSet [] "Content-Type".toList "application/json".toList, body := body }

/-- The four request actions of `CrudHandler`, the only members that use the
entity store `file_system_`: each gives its response and the list of the
entity-store operations it invoked. -/
structure CrudActions where
  post : request → Str → response × List Str
  get : Str → Str → response × List Str
  put : request → Str → Str → response × List Str
  delete_req : Str → Str → response × List Str

/-- The method `CrudHandler::handle_request`: the response and the list of the
entity-store operations invoked. -/
def CrudHandler.handle_request (actions : CrudActions) (req : request) :
    response × List Str :=
  let apiPrefix := "/api/".toList
  if req.uri.take apiPrefix.length ≠ apiPrefix then
    (CrudHandler.errorResponse 404 "Not Found".toList "Invalid API prefix".toList, [])
  else
    let path := req.uri.drop apiPrefix.length
    let slash_pos := findChar '/' path
    let entity :=
      match slash_pos with
      | none => path
      | some pos => path.take pos
    let id :=
      match slash_pos with
      | none => []
      | some pos => path.drop (pos + 1)
    if entity = [] then
      (CrudHandler.errorResponse 400 "Bad Request".toList "Missing entity type.".toList, [])
    else if req.method = "POST".toList then actions.post req entity
    else if req.method = "GET".toList then actions.get entity id
    else if req.method = "PUT".toList then actions.put req entity id
    else if req.method = "DELETE".toList then actions.delete_req entity id
    else
      (CrudHandler.errorResponse 405 "Method Not Allowed".toList
        "Unsupported operation for given URI.".toList, [])

/-! ## Theorems: stream primitives -/

theorem getlineTokens_unfold (delim : Char) (s : Str) :
    getlineTokens delim s =
      match getline delim s with
      | none => []
      | some (t, rest) => t :: getlineTokens delim rest := by
  induction s with
  | nil => rfl
  | cons c cs ih =>
    by_cases h : c = delim
    · simp [getlineTokens, getline, h]
    · simp only [getlineTokens, getline, h, if_false]
      rw [ih]
      cases hg : getline delim cs with
      | none => simp [getlineTokens]
      | some p => obtain ⟨t, rest⟩ := p; simp

theorem splitOn_getlineTokens (delim : Char) (s : Str) :
    (getlineTokens delim s = [] ∧ s.splitOn delim = [[]]) ∨
    (getlineTokens delim s ≠ [] ∧
      (s.splitOn delim = getlineTokens delim s ∨
        s.splitOn delim = getlineTokens delim s ++ [[]])) := by
  induction s with
  | nil => left; exact ⟨rfl, rfl⟩
  | cons c cs ih =>
    have hs : (c :: cs).splitOn delim =
        if (c == delim) = true then [] :: cs.splitOn delim
        else List.modifyHead (List.cons c) (cs.splitOn delim) := by
      simp only [List.splitOn]; exact List.splitOnP_cons _ c cs
    by_cases h : c = delim
    · right
      have hb : (c == delim) = true := by simp [h]
      rw [hs, if_pos hb]
      simp only [getlineTokens, h, if_true]
      refine ⟨by simp, ?_⟩
      rcases ih with ⟨h1, h2⟩ | ⟨_, h2 | h2⟩
      · right; subst h; rw [h1, h2]; rfl
      · left; subst h; rw [h2]
      · right; subst h; rw [h2]; rfl
    · right
      have hb : ¬ (c == delim) = true := by simp [h]
      rw [hs, if_neg hb]
      simp only [getlineTokens, h, if_false]
      rcases ih with ⟨h1, h2⟩ | ⟨h1, h2⟩
      · rw [h1, h2]; exact ⟨by simp, Or.inl rfl⟩
      · cases hg : getlineTokens delim cs with
        | nil => exact absurd hg h1
        | cons t ts =>
          rw [hg] at h2
          refine ⟨by simp, ?_⟩
          rcases h2 with h2 | h2
          · left; rw [h2]; rfl
          · right; rw [h2]; rfl

theorem segs_eq_getlineTokens (s : Str) :
    segs s = (getlineTokens '/' s).filter (fun t => t ≠ []) := by
  unfold segs
  rcases splitOn_getlineTokens '/' s with ⟨h1, h2⟩ | ⟨_, h2 | h2⟩
  · rw [h1, h2]; rfl
  · rw [h2]
  · rw [h2, List.filter_append]; simp

theorem findChar_take (c : Char) (u : Str) :
    (match findChar c u with
      | some n => u.take n
      | none => u) = u.takeWhile (fun d => d ≠ c) := by
  induction u with
  | nil => rfl
  | cons d ds ih =>
    by_cases h : d = c
    · simp [findChar, h, List.takeWhile]
    · simp only [findChar, h, if_false]
      cases hf : findChar c ds with
      | none => rw [hf] at ih; simpa [List.takeWhile, h] using ih
      | some n => rw [hf] at ih; simpa [List.takeWhile, h] using ih

/-! ## Theorems: routing trie -/

theorem bestMatch_const_none {α : Type} (sg : List Str) :
    bestMatch (fun _ => (none : Option α)) sg = none := by
  induction sg with
  | nil => rfl
  | cons s r ih => simp [bestMatch, ih]

theorem findTokens_eq_bestMatch {α : Type} (toks : List Str) :
    ∀ (t : TrieNode α) (last : Option α),
      TrieNode.findTokens toks t last =
        match bestMatch (fun L => cfgAt L t) (toks.filter (fun x => x ≠ [])) with
        | some e => some e
        | none => last := by
  induction toks with
  | nil => intro t last; cases t; rfl
  | cons tok rest ih =>
    intro t last
    obtain ⟨ch, cfg⟩ := t
    by_cases h : tok = []
    · simp only [TrieNode.findTokens, h, if_true]
      rw [ih]; simp
    · have hf : (tok :: rest).filter (fun x => x ≠ []) = tok :: rest.filter (fun x => x ≠ []) := by
        simp [h]
      rw [hf]
      simp only [TrieNode.findTokens, h, if_false, bestMatch, cfgAt]
      cases hl : TrieNode.childLookup tok ch with
      | none => simp [bestMatch_const_none]
      | some child =>
        simp only []
        rw [ih]
        cases hb : bestMatch (fun L => cfgAt L child) (rest.filter (fun x => x ≠ [])) with
        | none => obtain ⟨c2, g2⟩ := child; cases g2 <;> simp [TrieNode.config]
        | some e => simp

theorem childLookup_childUpdate_same {α : Type} (tok : Str) (f : TrieNode α → TrieNode α)
    (ch : List (Str × TrieNode α)) :
    TrieNode.childLookup tok (TrieNode.childUpdate tok f ch) =
      some (f ((TrieNode.childLookup tok ch).getD TrieNode.empty)) := by
  induction ch with
  | nil => simp [TrieNode.childUpdate, TrieNode.childLookup]
  | cons kn rest ih =>
    obtain ⟨k, n⟩ := kn
    by_cases h : k = tok
    · simp [TrieNode.childUpdate, TrieNode.childLookup, h]
    · simp [TrieNode.childUpdate, TrieNode.childLookup, h, ih]

theorem childLookup_childUpdate_other {α : Type} (tok s : Str) (hs : s ≠ tok)
    (f : TrieNode α → TrieNode α) (ch : List (Str × TrieNode α)) :
    TrieNode.childLookup s (TrieNode.childUpdate tok f ch) = TrieNode.childLookup s ch := by
  induction ch with
  | nil => simp [TrieNode.childUpdate, TrieNode.childLookup, Ne.symm hs]
  | cons kn rest ih =>
    obtain ⟨k, n⟩ := kn
    by_cases h : k = tok
    · have hk : k ≠ s := by rw [h]; exact Ne.symm hs
      simp [TrieNode.childUpdate, TrieNode.childLookup, h, Ne.symm hs]
    · by_cases h2 : k = s
      · subst h2
        simp [TrieNode.childUpdate, TrieNode.childLookup, h]
      · simp [TrieNode.childUpdate, TrieNode.childLookup, h, h2, ih]

theorem cfgAt_empty {α : Type} (L : List Str) : cfgAt L (TrieNode.empty : TrieNode α) = none := by
  cases L <;> simp [cfgAt, TrieNode.empty, TrieNode.config, TrieNode.childLookup]

theorem cfgAt_insertTokens {α : Type} (toks : List Str) (c : Option α) :
    ∀ (t : TrieNode α) (L : List Str),
      cfgAt L (TrieNode.insertTokens toks c t) =
        if L = toks.filter (fun x => x ≠ []) then c else cfgAt L t := by
  induction toks with
  | nil =>
    intro t L
    obtain ⟨ch, cfg⟩ := t
    cases L with
    | nil => simp [TrieNode.insertTokens, cfgAt, TrieNode.config]
    | cons s L2 => simp [TrieNode.insertTokens, cfgAt]
  | cons tok rest ih =>
    intro t L
    obtain ⟨ch, cfg⟩ := t
    by_cases h : tok = []
    · simp only [TrieNode.insertTokens, h, if_true]
      rw [ih]; simp
    · have hf : (tok :: rest).filter (fun x => x ≠ []) = tok :: rest.filter (fun x => x ≠ []) := by
        simp [h]
      rw [hf]
      simp only [TrieNode.insertTokens, h, if_false]
      cases L with
      | nil => simp [cfgAt, TrieNode.config]
      | cons s L2 =>
        by_cases hs : s = tok
        · subst hs
          simp only [cfgAt, childLookup_childUpdate_same]
          rw [ih]
          cases hl : TrieNode.childLookup s ch with
          | none => simp [cfgAt_empty]
          | some child => simp
        · simp only [cfgAt, childLookup_childUpdate_other tok s hs]
          simp [hs]

theorem lastInsertedFor_cons {α : Type} (pe : Str × α) (rest : List (Str × α)) (L : List Str) :
    lastInsertedFor (pe :: rest) L =
      match lastInsertedFor rest L with
      | some e => some e
      | none => if segs pe.1 = L then some pe.2 else none := by
  unfold lastInsertedFor
  rw [List.reverse_cons, List.find?_append]
  cases hr : List.find? (fun pe => decide (segs pe.1 = L)) rest.reverse with
  | some x => simp
  | none =>
    by_cases h : segs pe.1 = L
    · simp [List.find?, h]
    · simp [List.find?, h]

theorem cfgAt_foldl_insert {α : Type} (ins : List (Str × α)) :
    ∀ (t0 : TrieNode α) (L : List Str),
      cfgAt L (ins.foldl (fun t pe => t.insert pe.1 (some pe.2)) t0) =
        match lastInsertedFor ins L with
        | some e => some e
        | none => cfgAt L t0 := by
  induction ins with
  | nil => intro t0 L; rfl
  | cons pe rest ih =>
    intro t0 L
    rw [List.foldl_cons, ih, lastInsertedFor_cons]
    cases hr : lastInsertedFor rest L with
    | some e => rfl
    | none =>
      simp only [TrieNode.insert]
      rw [cfgAt_insertTokens, ← segs_eq_getlineTokens]
      by_cases h : segs pe.1 = L
      · simp [h]
      · simp [h, Ne.symm h]

theorem cfgAt_build {α : Type} (ins : List (Str × α)) (L : List Str) :
    cfgAt L (TrieNode.build ins) = lastInsertedFor ins L := by
  unfold TrieNode.build
  rw [cfgAt_foldl_insert, cfgAt_empty]
  cases lastInsertedFor ins L <;> rfl

theorem find_eq_bestMatch {α : Type} (ins : List (Str × α)) (u : Str) :
    (TrieNode.build ins).find u = bestMatch (lastInsertedFor ins) (segs (path u)) := by
  unfold TrieNode.find TrieNode.stripQuery
  rw [findTokens_eq_bestMatch, findChar_take, ← segs_eq_getlineTokens]
  have : (fun L => cfgAt L (TrieNode.build ins)) = lastInsertedFor ins := by
    funext L; exact cfgAt_build ins L
  rw [this]
  unfold path
  cases bestMatch (lastInsertedFor ins) (segs (List.takeWhile (fun c => decide (c ≠ '?')) u)) <;> rfl

theorem lastInsertedFor_eq_none {α : Type} (ins : List (Str × α)) (L : List Str) :
    lastInsertedFor ins L = none ↔ ∀ q ∈ ins, segs q.1 ≠ L := by
  unfold lastInsertedFor
  simp only [Option.map_eq_none', List.find?_eq_none, List.mem_reverse, decide_eq_true_eq]

theorem lastInsertedFor_eq_some {α : Type} (ins : List (Str × α)) (L : List Str) (e : α) :
    lastInsertedFor ins L = some e ↔
      ∃ pre p post, ins = pre ++ (p, e) :: post ∧ segs p = L ∧ ∀ q ∈ post, segs q.1 ≠ L := by
  induction ins with
  | nil =>
    constructor
    · intro h; cases h
    · rintro ⟨pre, p, post, h1, _⟩
      cases pre <;> cases h1
  | cons pe rest ih =>
    rw [lastInsertedFor_cons]
    constructor
    · intro h
      cases hr : lastInsertedFor rest L with
      | some e2 =>
        rw [hr] at h
        simp only [Option.some.injEq] at h
        subst h
        obtain ⟨pre, p, post, h1, h2, h3⟩ := ih.mp hr
        exact ⟨pe :: pre, p, post, by rw [h1]; rfl, h2, h3⟩
      | none =>
        rw [hr] at h
        by_cases hp : segs pe.1 = L
        · simp only [hp, if_true, Option.some.injEq] at h
          refine ⟨[], pe.1, rest, ?_, hp, (lastInsertedFor_eq_none rest L).mp hr⟩
          rw [← h]; rfl
        · simp [hp] at h
    · rintro ⟨pre, p, post, h1, h2, h3⟩
      cases pre with
      | nil =>
        simp only [List.nil_append, List.cons.injEq] at h1
        obtain ⟨h1a, h1b⟩ := h1
        subst h1a h1b
        rw [(lastInsertedFor_eq_none rest L).mpr h3]
        simp [h2]
      | cons x pre2 =>
        simp only [List.cons_append, List.cons.injEq] at h1
        obtain ⟨_, h1b⟩ := h1
        rw [ih.mpr ⟨pre2, p, post, h1b, h2, h3⟩]

theorem bestMatch_eq_none {α : Type} (sg : List Str) :
    ∀ (M : List Str → Option α),
      bestMatch M sg = none ↔ ∀ L, L ≠ [] → L <+: sg → M L = none := by
  induction sg with
  | nil =>
    intro M
    simp only [bestMatch, true_iff]
    intro L h1 h2
    exact absurd (List.prefix_nil.mp h2) h1
  | cons s r ih =>
    intro M
    simp only [bestMatch]
    constructor
    · intro h L h1 h2
      cases hb : bestMatch (fun L => M (s :: L)) r with
      | some e => rw [hb] at h; simp at h
      | none =>
        rw [hb] at h
        simp only [] at h
        rcases List.prefix_cons_iff.mp h2 with h3 | ⟨t, h3, h4⟩
        · exact absurd h3 h1
        · subst h3
          by_cases ht : t = []
          · subst ht; exact h
          · exact (ih _).mp hb t ht h4
    · intro h
      have h1 : bestMatch (fun L => M (s :: L)) r = none :=
        (ih _).mpr (fun L _ hL2 => h (s :: L) (by simp) (List.cons_prefix_cons.mpr ⟨rfl, hL2⟩))
      rw [h1]
      exact h [s] (by simp) (List.cons_prefix_cons.mpr ⟨rfl, List.nil_prefix⟩)

theorem bestMatch_eq_some {α : Type} (sg : List Str) :
    ∀ (M : List Str → Option α) (e : α),
      bestMatch M sg = some e ↔
        ∃ L, L ≠ [] ∧ L <+: sg ∧ M L = some e ∧
          ∀ L2, L2 <+: sg → L.length < L2.length → M L2 = none := by
  induction sg with
  | nil =>
    intro M e
    constructor
    · intro h; cases h
    · rintro ⟨L, h1, h2, _⟩
      exact absurd (List.prefix_nil.mp h2) h1
  | cons s r ih =>
    intro M e
    simp only [bestMatch]
    constructor
    · intro h
      cases hb : bestMatch (fun L => M (s :: L)) r with
      | some e2 =>
        rw [hb] at h
        simp only [Option.some.injEq] at h
        subst h
        obtain ⟨L, h1, h2, h3, h4⟩ := (ih _ _).mp hb
        refine ⟨s :: L, by simp, List.cons_prefix_cons.mpr ⟨rfl, h2⟩, h3, ?_⟩
        intro L2 hp hl
        rcases List.prefix_cons_iff.mp hp with h5 | ⟨t, h5, h6⟩
        · subst h5; simp at hl
        · subst h5
          exact h4 t h6 (by simpa using hl)
      | none =>
        rw [hb] at h
        simp only [] at h
        refine ⟨[s], by simp, List.cons_prefix_cons.mpr ⟨rfl, List.nil_prefix⟩, h, ?_⟩
        intro L2 hp hl
        rcases List.prefix_cons_iff.mp hp with h5 | ⟨t, h5, h6⟩
        · subst h5; simp at hl
        · subst h5
          have ht : t ≠ [] := by
            intro ht; subst ht; simp at hl
          exact (bestMatch_eq_none r _).mp hb t ht h6
    · rintro ⟨L, h1, h2, h3, h4⟩
      rcases List.prefix_cons_iff.mp h2 with h5 | ⟨t, h5, h6⟩
      · exact absurd h5 h1
      · subst h5
        by_cases ht : t = []
        · subst ht
          have hn : bestMatch (fun L => M (s :: L)) r = none := by
            rw [bestMatch_eq_none]
            intro L2 hL2 hp
            exact h4 (s :: L2) (List.cons_prefix_cons.mpr ⟨rfl, hp⟩)
              (by cases L2 with
                  | nil => exact absurd rfl hL2
                  | cons a b => simp)
          rw [hn]; exact h3
        · have hs : bestMatch (fun L => M (s :: L)) r = some e := by
            rw [ih]
            refine ⟨t, ht, h6, h3, ?_⟩
            intro L2 hp hl
            exact h4 (s :: L2) (List.cons_prefix_cons.mpr ⟨rfl, hp⟩) (by simpa using hl)
          rw [hs]

/-- C1. For every trie built from an empty root by a sequence of
`TrieNode::insert` calls and every request URI `u`, `TrieNode::find(u)` is the
entry most recently inserted for the prefix `p` whose segments are the longest
non-empty segment-wise prefix of the segments of the path of `u` (every inserted
prefix whose segments form a prefix of the request's is at most as long), and
is `nullptr` exactly when no inserted prefix with at least one segment
qualifies.  Matching is by whole segments: with `/static` and `/static-long`
inserted, `find("/static-long/x")` is the `/static-long` entry. -/
theorem find_longest_segment_prefix {α : Type} (ins : List (Str × α)) (u : Str) :
    (∀ e, (TrieNode.build ins).find u = some e ↔
      ∃ pre p post, ins = pre ++ (p, e) :: post ∧
        (∀ q ∈ post, segs q.1 ≠ segs p) ∧
        segs p ≠ [] ∧ segs p <+: segs (path u) ∧
        ∀ q ∈ ins, segs q.1 <+: segs (path u) → (segs q.1).length ≤ (segs p).length) ∧
    ((TrieNode.build ins).find u = none ↔
      ∀ q ∈ ins, segs q.1 ≠ [] → ¬ segs q.1 <+: segs (path u)) ∧
    (TrieNode.build [("/static".toList, 1), ("/static-long".toList, 2)]).find
      "/static-long/x".toList = some 2 := by
  refine ⟨?_, ?_, by decide⟩
  · intro e
    rw [find_eq_bestMatch, bestMatch_eq_some]
    constructor
    · rintro ⟨L, h1, h2, h3, h4⟩
      obtain ⟨pre, p, post, e1, e2, e3⟩ := (lastInsertedFor_eq_some ins L e).mp h3
      subst e2
      refine ⟨pre, p, post, e1, e3, h1, h2, ?_⟩
      intro q hq hp
      by_contra hlt
      have := h4 (segs q.1) hp (by omega)
      exact (lastInsertedFor_eq_none ins _).mp this q hq rfl
    · rintro ⟨pre, p, post, e1, e2, e3, e4, e5⟩
      refine ⟨segs p, e3, e4, (lastInsertedFor_eq_some ins _ e).mpr ⟨pre, p, post, e1, rfl, e2⟩, ?_⟩
      intro L2 hp hl
      rw [lastInsertedFor_eq_none]
      intro q hq hqe
      have := e5 q hq (by rw [hqe]; exact hp)
      rw [hqe] at this
      omega
  · rw [find_eq_bestMatch, bestMatch_eq_none]
    constructor
    · intro h q hq hne hp
      exact (lastInsertedFor_eq_none ins _).mp (h _ hne hp) q hq rfl
    · intro h L hL hp
      rw [lastInsertedFor_eq_none]
      intro q hq hqe
      exact h q hq (by rw [hqe]; exact hL) (by rw [hqe]; exact hp)

/-! ## Theorems: wire codec -/

theorem headerLines_regroup (hs : List (Str × Str)) (s : Str) :
    ['\r', '\n'] ++ headerLines hs ++ s = headerTail hs ++ (['\r', '\n'] ++ s) := by
  induction hs with
  | nil => rfl
  | cons kv rest ih =>
    obtain ⟨k, v⟩ := kv
    simp only [headerLines, headerTail, List.append_assoc]
    rw [← ih]
    simp

theorem findStr_skip (c : Char) (hc : c ≠ '\r') (s : Str) :
    findStr crlfcrlf (c :: s) = (findStr crlfcrlf s).map (· + 1) := by
  simp [findStr, crlfcrlf, List.isPrefixOf, Ne.symm hc]

theorem findStr_skip_word (w : Str) (hw : '\r' ∉ w) (s : Str) :
    findStr crlfcrlf (w ++ s) = (findStr crlfcrlf s).map (· + w.length) := by
  induction w with
  | nil => simp
  | cons c cs ih =>
    have hc : c ≠ '\r' := fun h => hw (by simp [h])
    have hcs : '\r' ∉ cs := fun h => hw (by simp [h])
    rw [List.cons_append, findStr_skip c hc, ih hcs]
    cases findStr crlfcrlf s <;> simp; omega

theorem findStr_skip_crlf (c : Char) (hc : c ≠ '\r') (s : Str) :
    findStr crlfcrlf ('\r' :: '\n' :: c :: s) = (findStr crlfcrlf (c :: s)).map (· + 2) := by
  have h1 : findStr crlfcrlf ('\r' :: '\n' :: c :: s) =
      (findStr crlfcrlf ('\n' :: c :: s)).map (· + 1) := by
    simp [findStr, crlfcrlf, List.isPrefixOf, Ne.symm hc]
  rw [h1, findStr_skip '\n' (by decide)]
  cases findStr crlfcrlf (c :: s) <;> simp

theorem findStr_here (s : Str) : findStr crlfcrlf (crlfcrlf ++ s) = some 0 := by
  simp [findStr, crlfcrlf, List.isPrefixOf]

theorem findStr_line (line : Str) (hne : line ≠ []) (hcr : '\r' ∉ line) (s : Str) :
    findStr crlfcrlf (['\r', '\n'] ++ line ++ s) =
      (findStr crlfcrlf s).map (· + (2 + line.length)) := by
  cases line with
  | nil => exact absurd rfl hne
  | cons c cs =>
    have hc : c ≠ '\r' := fun h => hcr (by simp [h])
    have h1 : ['\r', '\n'] ++ (c :: cs) ++ s = '\r' :: '\n' :: c :: (cs ++ s) := by simp
    have h2 : c :: (cs ++ s) = (c :: cs) ++ s := by simp
    rw [h1, findStr_skip_crlf c hc, h2, findStr_skip_word _ hcr]
    cases findStr crlfcrlf s <;> simp; omega

theorem headerLine_no_cr (k v : Str) (hk : '\r' ∉ k) (hv : '\r' ∉ v) :
    '\r' ∉ k ++ [':', ' '] ++ v := by
  simp only [List.mem_append, List.mem_cons, List.mem_singleton, not_or]
  refine ⟨⟨hk, ?_⟩, hv⟩
  simp [List.not_mem_nil]

theorem headerLine_no_lf (k v : Str) (hk : '\n' ∉ k) (hv : '\n' ∉ v) :
    '\n' ∉ k ++ [':', ' '] ++ v := by
  simp only [List.mem_append, List.mem_cons, List.mem_singleton, not_or]
  refine ⟨⟨hk, ?_⟩, hv⟩
  simp [List.not_mem_nil]

theorem findStr_headerTail (hs : List (Str × Str))
    (hok : ∀ kv ∈ hs, '\r' ∉ kv.1 ∧ '\r' ∉ kv.2) (b : Str) :
    findStr crlfcrlf (headerTail hs ++ (crlfcrlf ++ b)) = some (headerTail hs).length := by
  induction hs with
  | nil => simpa [headerTail] using findStr_here b
  | cons kv rest ih =>
    obtain ⟨k, v⟩ := kv
    have hkv := hok (k, v) (by simp)
    have hrest : ∀ kv ∈ rest, '\r' ∉ kv.1 ∧ '\r' ∉ kv.2 :=
      fun x hx => hok x (by simp [hx])
    have hne : k ++ [':', ' '] ++ v ≠ [] := by simp
    have e : headerTail ((k, v) :: rest) ++ (crlfcrlf ++ b) =
        ['\r', '\n'] ++ (k ++ [':', ' '] ++ v) ++ (headerTail rest ++ (crlfcrlf ++ b)) := by
      simp [headerTail]
    rw [e, findStr_line _ hne (headerLine_no_cr k v hkv.1 hkv.2), ih hrest]
    simp [headerTail]
    omega

theorem findStr_request (line : Str) (hcr : '\r' ∉ line) (hs : List (Str × Str))
    (hok : ∀ kv ∈ hs, '\r' ∉ kv.1 ∧ '\r' ∉ kv.2) (b : Str) :
    findStr crlfcrlf (line ++ headerTail hs ++ (crlfcrlf ++ b)) =
      some (line ++ headerTail hs).length := by
  rw [List.append_assoc, findStr_skip_word line hcr, findStr_headerTail hs hok]
  simp; omega

theorem substr_prefix (h s : Str) : substr (h ++ s) 0 h.length = some h := by
  simp [substr]

theorem substrFrom_suffix (h s : Str) :
    substrFrom (h ++ (crlfcrlf ++ s)) (h.length + 4) = some s := by
  have : h.length + 4 = (h ++ crlfcrlf).length := by simp [crlfcrlf]
  rw [← List.append_assoc, this]
  simp [substrFrom]

theorem getline_word (w : Str) (hw : '\n' ∉ w) (s : Str) :
    getline '\n' (w ++ '\n' :: s) = some (w, s) := by
  induction w with
  | nil => simp [getline]
  | cons c cs ih =>
    have hc : c ≠ '\n' := fun h => hw (by simp [h])
    have hcs : '\n' ∉ cs := fun h => hw (by simp [h])
    simp [getline, hc, ih hcs]

theorem getline_last (w : Str) (hne : w ≠ []) (hw : '\n' ∉ w) :
    getline '\n' w = some (w, []) := by
  induction w with
  | nil => exact absurd rfl hne
  | cons c cs ih =>
    have hc : c ≠ '\n' := fun h => hw (by simp [h])
    have hcs : '\n' ∉ cs := fun h => hw (by simp [h])
    have step : getline '\n' (c :: cs) =
        match getline '\n' cs with
        | none => some ([c], [])
        | some (t, rest) => some (c :: t, rest) := by
      simp [getline, hc]
    rw [step]
    cases cs with
    | nil => rfl
    | cons d ds => rw [ih (by simp) hcs]

theorem getlineTokens_word (w : Str) (hw : '\n' ∉ w) (s : Str) :
    getlineTokens '\n' (w ++ '\n' :: s) = w :: getlineTokens '\n' s := by
  rw [getlineTokens_unfold, getline_word w hw]

theorem getlineTokens_last (w : Str) (hne : w ≠ []) (hw : '\n' ∉ w) :
    getlineTokens '\n' w = [w] := by
  rw [getlineTokens_unfold, getline_last w hne hw]
  rfl

theorem stripCR_append_cr (w : Str) : stripCR (w ++ ['\r']) = w := by
  simp [stripCR]

theorem stripCR_no_cr (w : Str) (h : w.getLast? ≠ some '\r') : stripCR w = w := by
  simp [stripCR, h]

theorem upper_mem (c : Char) (h : c.isUpper = true) : c ∈ upperLetters := by
  have h1 : 65 ≤ c.toNat ∧ c.toNat ≤ 90 := by
    simp [Char.isUpper, Char.toNat] at h ⊢
    obtain ⟨a, b⟩ := h
    exact ⟨a, b⟩
  have h2 : c = Char.ofNat c.toNat := (Char.ofNat_toNat c).symm
  obtain ⟨a, b⟩ := h1
  rw [h2]
  generalize c.toNat = n at a b
  interval_cases n <;> decide

theorem upperLetters_not_space : ∀ c ∈ upperLetters, isSpace c = false := by decide

theorem takeWhile_append_stop {p : Char → Bool} (w : Str) (hw : ∀ c ∈ w, p c = true)
    (d : Char) (hd : p d = false) (s : Str) :
    (w ++ d :: s).takeWhile p = w ∧ (w ++ d :: s).dropWhile p = d :: s := by
  induction w with
  | nil => simp [List.takeWhile, List.dropWhile, hd]
  | cons c cs ih =>
    have hc : p c = true := hw c (by simp)
    have := ih (fun x hx => hw x (by simp [hx]))
    simp [List.takeWhile, List.dropWhile, hc, this]

theorem takeWhile_all {p : Char → Bool} (w : Str) (hw : ∀ c ∈ w, p c = true) :
    w.takeWhile p = w ∧ w.dropWhile p = [] := by
  induction w with
  | nil => simp
  | cons c cs ih =>
    have hc : p c = true := hw c (by simp)
    have := ih (fun x hx => hw x (by simp [hx]))
    simp [List.takeWhile, List.dropWhile, hc, this]

theorem dropWhile_head_stop {p : Char → Bool} (w : Str) (hne : w ≠ [])
    (hw : ∀ c ∈ w, p c = false) (s : Str) : (w ++ s).dropWhile p = w ++ s := by
  cases w with
  | nil => exact absurd rfl hne
  | cons c cs => simp [List.dropWhile, hw c (by simp)]

theorem extractWord_word (w : Str) (hne : w ≠ []) (hw : ∀ c ∈ w, isSpace c = false) (s : Str) :
    extractWord (w ++ ' ' :: s) = some (w, ' ' :: s) := by
  have h1 := dropWhile_head_stop (p := isSpace) w hne hw (' ' :: s)
  have h2 := takeWhile_append_stop (p := fun c => !isSpace c) w (by simpa using hw) ' '
    (by decide) s
  simp only [extractWord, h1, h2.1, h2.2]
  simp [hne]

theorem extractWord_last (w : Str) (hne : w ≠ []) (hw : ∀ c ∈ w, isSpace c = false) :
    extractWord w = some (w, []) := by
  have h1 := dropWhile_head_stop (p := isSpace) w hne hw []
  rw [List.append_nil] at h1
  have h2 := takeWhile_all (p := fun c => !isSpace c) w (by simpa using hw)
  simp only [extractWord, h1, h2.1, h2.2]
  simp [hne]

theorem extractWord_space (s : Str) : extractWord (' ' :: s) = extractWord s := by
  simp [extractWord, isSpace, List.dropWhile]

theorem readRequestLine_words (m u v : Str)
    (hm : m ≠ []) (hms : ∀ c ∈ m, isSpace c = false)
    (hu : u ≠ []) (hus : ∀ c ∈ u, isSpace c = false)
    (hv : v ≠ []) (hvs : ∀ c ∈ v, isSpace c = false) :
    extractWord (m ++ [' '] ++ u ++ [' '] ++ v) = some (m, ' ' :: (u ++ ' ' :: v)) ∧
    extractWord (' ' :: (u ++ ' ' :: v)) = some (u, ' ' :: v) ∧
    extractWord (' ' :: v) = some (v, []) := by
  refine ⟨?_, ?_, ?_⟩
  · have : m ++ [' '] ++ u ++ [' '] ++ v = m ++ ' ' :: (u ++ ' ' :: v) := by simp
    rw [this, extractWord_word m hm hms]
  · rw [extractWord_space, extractWord_word u hu hus]
  · rw [extractWord_space, extractWord_last v hv hvs]

theorem readRequestLine_request (m u v : Str) (hs : List (Str × Str))
    (hm : m ≠ []) (hms : ∀ c ∈ m, isSpace c = false)
    (hu : u ≠ []) (hus : ∀ c ∈ u, isSpace c = false)
    (hv : v ≠ []) (hvs : ∀ c ∈ v, isSpace c = false) :
    readRequestLine (m ++ [' '] ++ u ++ [' '] ++ v ++ headerTail hs) =
      some (m, u, v, headerStream hs) := by
  obtain ⟨w1, w2, w3⟩ := readRequestLine_words m u v hm hms hu hus hv hvs
  have hlf : '\n' ∉ m ++ [' '] ++ u ++ [' '] ++ v := by
    intro h
    simp only [List.mem_append, List.mem_singleton] at h
    rcases h with (((h | h) | h) | h) | h
    · have := hms _ h; simp [isSpace] at this
    · exact absurd h (by decide)
    · have := hus _ h; simp [isSpace] at this
    · exact absurd h (by decide)
    · have := hvs _ h; simp [isSpace] at this
  have hlast : (m ++ [' '] ++ u ++ [' '] ++ v).getLast? ≠ some '\r' := by
    intro h
    have hmem : '\r' ∈ m ++ [' '] ++ u ++ [' '] ++ v := List.mem_of_getLast?_eq_some h
    simp only [List.mem_append, List.mem_singleton] at hmem
    rcases hmem with (((h | h) | h) | h) | h
    · have := hms _ h; simp [isSpace] at this
    · exact absurd h (by decide)
    · have := hus _ h; simp [isSpace] at this
    · exact absurd h (by decide)
    · have := hvs _ h; simp [isSpace] at this
  cases hs with
  | nil =>
    simp only [headerTail, List.append_nil, headerStream, readRequestLine]
    rw [getline_last _ (by simp [hm]) hlf]
    simp only [stripCR_no_cr _ hlast, w1, w2, w3]
  | cons kv rest =>
    obtain ⟨k, x⟩ := kv
    have e : m ++ [' '] ++ u ++ [' '] ++ v ++ headerTail ((k, x) :: rest) =
        (m ++ [' '] ++ u ++ [' '] ++ v ++ ['\r']) ++ '\n' :: headerStream ((k, x) :: rest) := by
      simp [headerTail, headerStream]
    have hlf2 : '\n' ∉ m ++ [' '] ++ u ++ [' '] ++ v ++ ['\r'] := by
      intro h
      rcases List.mem_append.mp h with h | h
      · exact hlf h
      · simp at h
    rw [e]
    simp only [readRequestLine]
    rw [getline_word _ hlf2]
    simp only [stripCR_append_cr, w1, w2, w3]

theorem findChar_key (k : Str) (hk : ':' ∉ k) (s : Str) :
    findChar ':' (k ++ ':' :: s) = some k.length := by
  induction k with
  | nil => simp [findChar]
  | cons c cs ih =>
    have hc : c ≠ ':' := fun h => hk (by simp [h])
    have hcs : ':' ∉ cs := fun h => hk (by simp [h])
    simp [findChar, hc, ih hcs]

theorem parseHeaders_line (k v : Str) (hk : ':' ∉ k)
    (raw_line : Str) (hraw : stripCR raw_line = k ++ [':', ' '] ++ v)
    (rest : List Str) (headers : StdMap) :
    parseHeaders (raw_line :: rest) headers = parseHeaders rest (mapSet headers k v) := by
  have e : k ++ [':', ' '] ++ v = k ++ ':' :: (' ' :: v) := by simp
  have hne : k ++ ':' :: (' ' :: v) ≠ [] := by simp
  have h1 : substr (k ++ ':' :: (' ' :: v)) 0 k.length = some k := substr_prefix k _
  have h2 : substrFrom (k ++ ':' :: (' ' :: v)) (k.length + 1) = some (' ' :: v) := by
    have : k.length + 1 = (k ++ [':']).length := by simp
    have e2 : k ++ ':' :: (' ' :: v) = (k ++ [':']) ++ (' ' :: v) := by simp
    rw [this, e2]
    simp [substrFrom]
  have h3 : substrFrom (' ' :: v) 1 = some v := by simp [substrFrom]
  simp only [parseHeaders, hraw, e, hne, if_false, findChar_key k hk, h1, h2,
    List.head?_cons, if_true, h3]

theorem parseHeaders_headerStream (hs : List (Str × Str))
    (hok : ∀ kv ∈ hs, ':' ∉ kv.1 ∧ '\r' ∉ kv.1 ∧ '\n' ∉ kv.1 ∧ '\r' ∉ kv.2 ∧ '\n' ∉ kv.2) :
    ∀ headers : StdMap,
      parseHeaders (getlineTokens '\n' (headerStream hs)) headers =
        some (hs.foldl (fun m kv => mapSet m kv.1 kv.2) headers) := by
  induction hs with
  | nil => intro headers; rfl
  | cons kv rest ih =>
    intro headers
    obtain ⟨k, v⟩ := kv
    obtain ⟨h1, h2, h3, h4, h5⟩ := hok (k, v) (by simp)
    have hrest : ∀ kv ∈ rest, ':' ∉ kv.1 ∧ '\r' ∉ kv.1 ∧ '\n' ∉ kv.1 ∧ '\r' ∉ kv.2 ∧ '\n' ∉ kv.2 :=
      fun x hx => hok x (by simp [hx])
    have hlf := headerLine_no_lf k v h3 h5
    have hcr := headerLine_no_cr k v h2 h4
    cases rest with
    | nil =>
      have hne : k ++ [':', ' '] ++ v ≠ [] := by simp
      have hlast : (k ++ [':', ' '] ++ v).getLast? ≠ some '\r' :=
        fun h => hcr (List.mem_of_getLast?_eq_some h)
      simp only [headerStream, headerTail, List.append_nil]
      rw [getlineTokens_last _ hne hlf,
        parseHeaders_line k v h1 _ (stripCR_no_cr _ hlast)]
      rfl
    | cons kv2 rest2 =>
      have e : headerStream ((k, v) :: kv2 :: rest2) =
          (k ++ [':', ' '] ++ v ++ ['\r']) ++ '\n' :: headerStream (kv2 :: rest2) := by
        obtain ⟨k2, v2⟩ := kv2
        simp [headerStream, headerTail]
      have hlf2 : '\n' ∉ k ++ [':', ' '] ++ v ++ ['\r'] := by
        intro h
        rcases List.mem_append.mp h with h | h
        · exact hlf h
        · simp at h
      rw [e, getlineTokens_word _ hlf2,
        parseHeaders_line k v h1 _ (stripCR_append_cr _), ih hrest]
      rfl

theorem mapGet_mapSet (m : StdMap) (k v key : Str) :
    mapGet (mapSet m k v) key = if k = key then some v else mapGet m key := by
  induction m with
  | nil => simp [mapSet, mapGet]
  | cons kv rest ih =>
    obtain ⟨k2, v2⟩ := kv
    by_cases h1 : k2 = k
    · subst h1
      by_cases h2 : k2 = key <;> simp [mapSet, mapGet, h2]
    · by_cases h2 : strLt k k2 = true
      · simp [mapSet, mapGet, h1, h2]
      · by_cases h3 : k = key
        · subst h3
          simp [mapSet, mapGet, h1, h2, ih]
        · simp [mapSet, mapGet, h1, h2, ih, h3]

theorem lastBinding_cons (kv : Str × Str) (rest : List (Str × Str)) (key : Str) :
    lastBinding (kv :: rest) key =
      match lastBinding rest key with
      | some v => some v
      | none => if kv.1 = key then some kv.2 else none := by
  unfold lastBinding
  rw [List.reverse_cons, List.find?_append]
  cases hr : List.find? (fun kv => decide (kv.1 = key)) rest.reverse with
  | some x => simp
  | none =>
    by_cases h : kv.1 = key
    · simp [List.find?, h]
    · simp [List.find?, h]

theorem mapGet_foldl_mapSet (hs : List (Str × Str)) (key : Str) :
    ∀ m : StdMap,
      mapGet (hs.foldl (fun m kv => mapSet m kv.1 kv.2) m) key =
        match lastBinding hs key with
        | some v => some v
        | none => mapGet m key := by
  induction hs with
  | nil => intro m; rfl
  | cons kv rest ih =>
    intro m
    rw [List.foldl_cons, ih, lastBinding_cons]
    cases lastBinding rest key with
    | some v => rfl
    | none =>
      simp only [mapGet_mapSet]
      by_cases h : kv.1 = key <;> simp [h]

theorem rawRequest_split (m u v : Str) (hs : List (Str × Str)) (b : Str) :
    rawRequest m u v hs b =
      (m ++ [' '] ++ u ++ [' '] ++ v ++ headerTail hs) ++ (crlfcrlf ++ b) := by
  have h := headerLines_regroup hs (['\r', '\n'] ++ b)
  unfold rawRequest
  calc m ++ [' '] ++ u ++ [' '] ++ v ++ ['\r', '\n'] ++ headerLines hs ++ ['\r', '\n'] ++ b
      = m ++ [' '] ++ u ++ [' '] ++ v ++ (['\r', '\n'] ++ headerLines hs ++ (['\r', '\n'] ++ b)) := by
        simp only [List.append_assoc]
    _ = m ++ [' '] ++ u ++ [' '] ++ v ++ (headerTail hs ++ (['\r', '\n'] ++ (['\r', '\n'] ++ b))) := by
        rw [h]
    _ = (m ++ [' '] ++ u ++ [' '] ++ v ++ headerTail hs) ++ (crlfcrlf ++ b) := by
        simp [crlfcrlf]

theorem parse_request_of_parts (m u v : Str) (hs : List (Str × Str)) (b : Str)
    (hm : m ≠ []) (hmu : ∀ c ∈ m, c.isUpper = true)
    (hu : u.head? = some '/') (hus : ∀ c ∈ u, isSpace c = false)
    (hv : v = "HTTP/1.0".toList ∨ v = "HTTP/1.1".toList)
    (hok : ∀ kv ∈ hs, ':' ∉ kv.1 ∧ '\r' ∉ kv.1 ∧ '\n' ∉ kv.1 ∧ '\r' ∉ kv.2 ∧ '\n' ∉ kv.2) :
    parse_request (rawRequest m u v hs b) =
      some { method := m, uri := u, http_version := v,
             headers := hs.foldl (fun acc kv => mapSet acc kv.1 kv.2) [], body := b } := by
  have hms : ∀ c ∈ m, isSpace c = false :=
    fun c hc => upperLetters_not_space c (upper_mem c (hmu c hc))
  have hune : u ≠ [] := by
    intro h; rw [h] at hu; simp at hu
  have hvne : v ≠ [] := by rcases hv with h | h <;> rw [h] <;> decide
  have hvs : ∀ c ∈ v, isSpace c = false := by rcases hv with h | h <;> rw [h] <;> decide
  have hcr : '\r' ∉ m ++ [' '] ++ u ++ [' '] ++ v := by
    intro h
    simp only [List.mem_append, List.mem_singleton] at h
    rcases h with (((h | h) | h) | h) | h
    · have := hms _ h; simp [isSpace] at this
    · exact absurd h (by decide)
    · have := hus _ h; simp [isSpace] at this
    · exact absurd h (by decide)
    · have := hvs _ h; simp [isSpace] at this
  have hokcr : ∀ kv ∈ hs, '\r' ∉ kv.1 ∧ '\r' ∉ kv.2 :=
    fun kv hkv => ⟨(hok kv hkv).2.1, (hok kv hkv).2.2.2.1⟩
  have hmeth : (m.any fun c => !upperLetters.contains c) = false := by
    rw [List.any_eq_false]
    intro c hc
    simp [upper_mem c (hmu c hc)]
  have huri : (decide (u = []) || decide (u.head? ≠ some '/')) = false := by
    simp [hune, hu]
  have hver1 : (decide (v ≠ "HTTP/1.0".toList) && decide (v ≠ "HTTP/1.1".toList)) = false := by
    rcases hv with h | h <;> rw [h] <;> decide
  have hver2 : (v.any fun c => !versionChars.contains c) = false := by
    rcases hv with h | h <;> rw [h] <;> decide
  rw [rawRequest_split]
  unfold parse_request
  simp only [findStr_request _ hcr hs hokcr, substr_prefix, substrFrom_suffix,
    readRequestLine_request m u v hs hm hms hune hus hvne hvs,
    hmeth, huri, hver1, hver2, parseHeaders_headerStream hs hok]
  simp

/-- C2. For every raw request `M SP U SP V CRLF (K ": " V CRLF)* CRLF B` with
`M` a non-empty string of uppercase ASCII letters, `U` starting with `/` and
free of whitespace, `V` one of `HTTP/1.0` and `HTTP/1.1`, keys free of `:`, CR
and LF and values free of CR and LF, `parse_request` returns method `M`, uri
`U`, version `V`, body `B` and a header map in which every key is bound to the
value of its last occurrence among the header lines (and no other key is
bound). -/
theorem parse_request_well_formed (m u v : Str) (hs : List (Str × Str)) (b : Str)
    (hm : m ≠ []) (hmu : ∀ c ∈ m, c.isUpper = true)
    (hu : u.head? = some '/') (hus : ∀ c ∈ u, isSpace c = false)
    (hv : v = "HTTP/1.0".toList ∨ v = "HTTP/1.1".toList)
    (hok : ∀ kv ∈ hs, ':' ∉ kv.1 ∧ '\r' ∉ kv.1 ∧ '\n' ∉ kv.1 ∧ '\r' ∉ kv.2 ∧ '\n' ∉ kv.2) :
    ∃ r, parse_request (rawRequest m u v hs b) = some r ∧
      r.method = m ∧ r.uri = u ∧ r.http_version = v ∧ r.body = b ∧
      ∀ key, mapGet r.headers key = lastBinding hs key := by
  refine ⟨_, parse_request_of_parts m u v hs b hm hmu hu hus hv hok, rfl, rfl, rfl, rfl, ?_⟩
  intro key
  simp only []
  rw [mapGet_foldl_mapSet]
  cases lastBinding hs key <;> rfl

/-- The request of the codec test, `GET /index.html HTTP/1.1` with the headers
`Host` and `User-Agent` and the body `body content`, is of the form of C2 and
is parsed into its parts. -/
theorem parse_request_well_formed_witness :
    rawRequest "GET".toList "/index.html".toList "HTTP/1.1".toList
        [("Host".toList, "localhost".toList), ("User-Agent".toList, "TestAgent".toList)]
        "body content".toList =
      ("GET /index.html HTTP/1.1\r\nHost: localhost\r\n" ++
        "User-Agent: TestAgent\r\n\r\nbody content").toList ∧
    ∃ r, parse_request (rawRequest "GET".toList "/index.html".toList "HTTP/1.1".toList
        [("Host".toList, "localhost".toList), ("User-Agent".toList, "TestAgent".toList)]
        "body content".toList) = some r ∧
      r.method = "GET".toList ∧ r.uri = "/index.html".toList ∧
      r.http_version = "HTTP/1.1".toList ∧ r.body = "body content".toList ∧
      ∀ key, mapGet r.headers key =
        lastBinding [("Host".toList, "localhost".toList),
          ("User-Agent".toList, "TestAgent".toList)] key :=
  ⟨by decide,
   parse_request_well_formed "GET".toList "/index.html".toList "HTTP/1.1".toList
    [("Host".toList, "localhost".toList), ("User-Agent".toList, "TestAgent".toList)]
    "body content".toList (by decide) (by decide) (by decide) (by decide)
    (Or.inr rfl) (by decide)⟩

theorem findStr_some (pat : Str) (s : Str) :
    ∀ n, findStr pat s = some n → ∃ pre post, s = pre ++ pat ++ post ∧ pre.length = n := by
  induction s with
  | nil =>
    intro n h
    by_cases hp : pat = []
    · simp only [findStr, hp, if_true, Option.some.injEq] at h
      exact ⟨[], [], by simp [hp], h⟩
    · simp [findStr, hp] at h
  | cons c cs ih =>
    intro n h
    by_cases hp : pat.isPrefixOf (c :: cs) = true
    · simp only [findStr, hp, if_true, Option.some.injEq] at h
      obtain ⟨t, ht⟩ := List.isPrefixOf_iff_prefix.mp hp
      exact ⟨[], t, by simp [ht], h⟩
    · simp only [findStr, hp, Bool.false_eq_true, if_false] at h
      cases hf : findStr pat cs with
      | none => rw [hf] at h; simp at h
      | some k =>
        rw [hf] at h
        simp only [Option.map_some', Option.some.injEq] at h
        obtain ⟨pre, post, e, hl⟩ := ih k hf
        exact ⟨c :: pre, post, by simp [e], by simp [hl, h]⟩

theorem findStr_none (pat : Str) (s : Str) (h : findStr pat s = none) : ¬ pat <:+: s := by
  induction s with
  | nil =>
    by_cases hp : pat = []
    · simp [findStr, hp] at h
    · intro hi
      exact hp (List.infix_nil.mp hi)
  | cons c cs ih =>
    by_cases hp : pat.isPrefixOf (c :: cs) = true
    · simp [findStr, hp] at h
    · simp only [findStr, hp, Bool.false_eq_true, if_false, Option.map_eq_none'] at h
      intro hi
      rcases List.infix_cons_iff.mp hi with h1 | h1
      · exact hp (List.isPrefixOf_iff_prefix.mpr h1)
      · exact ih h h1

theorem findChar_lt (c : Char) (s : Str) : ∀ n, findChar c s = some n → n < s.length := by
  induction s with
  | nil => intro n h; simp [findChar] at h
  | cons d ds ih =>
    intro n h
    by_cases hd : d = c
    · simp only [findChar, hd, if_true, Option.some.injEq] at h
      simp [← h]
    · simp only [findChar, hd, if_false] at h
      cases hf : findChar c ds with
      | none => rw [hf] at h; simp at h
      | some k =>
        rw [hf] at h
        simp only [Option.map_some', Option.some.injEq] at h
        have := ih k hf
        simp only [List.length_cons]
        omega

theorem parseHeaders_total (lines : List Str) :
    ∀ headers : StdMap, ∃ result, parseHeaders lines headers = some result := by
  induction lines with
  | nil => intro headers; exact ⟨headers, rfl⟩
  | cons raw_line rest ih =>
    intro headers
    by_cases hl : stripCR raw_line = []
    · exact ⟨headers, by simp [parseHeaders, hl]⟩
    · cases hf : findChar ':' (stripCR raw_line) with
      | none =>
        obtain ⟨r, hr⟩ := ih headers
        exact ⟨r, by simp [parseHeaders, hl, hf, hr]⟩
      | some colon =>
        have hlt := findChar_lt ':' _ colon hf
        have h1 : substr (stripCR raw_line) 0 colon =
            some (((stripCR raw_line).drop 0).take colon) := by simp [substr]
        have h2 : substrFrom (stripCR raw_line) (colon + 1) =
            some ((stripCR raw_line).drop (colon + 1)) := by
          simp only [substrFrom]
          rw [if_pos (by omega)]
        by_cases hh : ((stripCR raw_line).drop (colon + 1)).head? = some ' '
        · have h3 : substrFrom ((stripCR raw_line).drop (colon + 1)) 1 =
              some (((stripCR raw_line).drop (colon + 1)).drop 1) := by
            simp only [substrFrom]
            rw [if_pos]
            cases hd : (stripCR raw_line).drop (colon + 1) with
            | nil => rw [hd] at hh; simp at hh
            | cons a as => simp
          obtain ⟨r, hr⟩ := ih (mapSet headers (((stripCR raw_line).drop 0).take colon)
            (((stripCR raw_line).drop (colon + 1)).drop 1))
          exact ⟨r, by simp only [parseHeaders, hl, if_false, hf, h1, h2, hh, if_true, h3, hr]⟩
        · obtain ⟨r, hr⟩ := ih (mapSet headers (((stripCR raw_line).drop 0).take colon)
            ((stripCR raw_line).drop (colon + 1)))
          exact ⟨r, by simp only [parseHeaders, hl, if_false, hf, h1, h2, hh, hr]⟩

theorem extractWord_ne_nil (s w rest : Str) (h : extractWord s = some (w, rest)) : w ≠ [] := by
  unfold extractWord at h
  simp only [] at h
  split at h
  · cases h
  · rename_i hne
    simp only [Option.some.injEq, Prod.mk.injEq] at h
    rw [← h.1]; exact hne

theorem readRequestLine_method (header_part method uri http_version stream : Str)
    (h : readRequestLine header_part = some (method, uri, http_version, stream))
    (hu : uri ≠ []) : method ≠ [] := by
  unfold readRequestLine at h
  cases hg : getline '\n' header_part with
  | none =>
    rw [hg] at h
    simp only [Option.some.injEq, Prod.mk.injEq] at h
    exact absurd h.2.1.symm hu
  | some p =>
    obtain ⟨line, rest⟩ := p
    rw [hg] at h
    simp only [] at h
    cases h1 : extractWord (stripCR line) with
    | none => rw [h1] at h; cases h
    | some p1 =>
      obtain ⟨w1, l1⟩ := p1
      rw [h1] at h
      simp only [] at h
      cases h2 : extractWord l1 with
      | none => rw [h2] at h; cases h
      | some p2 =>
        obtain ⟨w2, l2⟩ := p2
        rw [h2] at h
        simp only [] at h
        cases h3 : extractWord l2 with
        | none => rw [h3] at h; cases h
        | some p3 =>
          obtain ⟨w3, l3⟩ := p3
          rw [h3] at h
          simp only [Option.some.injEq, Prod.mk.injEq] at h
          rw [← h.1]
          exact extractWord_ne_nil _ _ _ h1

theorem upperLetters_isUpper : ∀ c ∈ upperLetters, c.isUpper = true := by decide

theorem char_toNat_inj (a b : Char) (h : a.toNat = b.toNat) : a = b := by
  have : Char.ofNat a.toNat = Char.ofNat b.toNat := by rw [h]
  simpa [Char.ofNat_toNat] using this

theorem strLt_total (a : Str) : ∀ b : Str, a ≠ b → strLt a b = false → strLt b a = true := by
  induction a with
  | nil =>
    intro b hne h
    cases b with
    | nil => exact absurd rfl hne
    | cons d ds => simp [strLt] at h
  | cons c cs ih =>
    intro b hne h
    cases b with
    | nil => rfl
    | cons d ds =>
      by_cases h1 : c.toNat < d.toNat
      · simp [strLt, h1] at h
      · by_cases h2 : d.toNat < c.toNat
        · simp [strLt, h2]
        · have hcd : c = d := char_toNat_inj c d (by omega)
          subst hcd
          simp only [strLt, h1, if_false] at h ⊢
          exact ih ds (fun e => hne (by rw [e])) h

theorem strLt_trans (a : Str) :
    ∀ b c : Str, strLt a b = true → strLt b c = true → strLt a c = true := by
  induction a with
  | nil =>
    intro b c h1 h2
    cases b with
    | nil => simp [strLt] at h1
    | cons d ds =>
      cases c with
      | nil => simp [strLt] at h2
      | cons e es => rfl
  | cons x xs ih =>
    intro b c h1 h2
    cases b with
    | nil => simp [strLt] at h1
    | cons d ds =>
      cases c with
      | nil => simp [strLt] at h2
      | cons e es =>
        by_cases p1 : x.toNat < d.toNat
        · by_cases p2 : d.toNat < e.toNat
          · have : x.toNat < e.toNat := by omega
            simp [strLt, this]
          · by_cases p3 : e.toNat < d.toNat
            · simp [strLt, p2, p3] at h2
            · have : x.toNat < e.toNat := by omega
              simp [strLt, this]
        · by_cases p1b : d.toNat < x.toNat
          · simp [strLt, p1, p1b] at h1
          · simp only [strLt, p1, p1b, if_false] at h1
            by_cases p2 : d.toNat < e.toNat
            · have : x.toNat < e.toNat := by omega
              simp [strLt, this]
            · by_cases p3 : e.toNat < d.toNat
              · simp [strLt, p2, p3] at h2
              · simp only [strLt, p2, p3, if_false] at h2
                have q1 : ¬ x.toNat < e.toNat := by omega
                have q2 : ¬ e.toNat < x.toNat := by omega
                simp only [strLt, q1, q2, if_false]
                exact ih ds es h1 h2

theorem chain_mapSet (m : StdMap) (k v : Str) :
    ∀ x : Str × Str, List.Chain keyLt x m → strLt x.1 k = true →
      List.Chain keyLt x (mapSet m k v) := by
  induction m with
  | nil =>
    intro x _ hx
    exact List.Chain.cons hx List.Chain.nil
  | cons kv rest ih =>
    intro x hc hx
    obtain ⟨k2, v2⟩ := kv
    cases hc with
    | cons hxk hrest =>
      by_cases h1 : k2 = k
      · subst h1
        simp only [mapSet, if_true]
        refine List.Chain.cons hx ?_
        cases hrest with
        | nil => exact List.Chain.nil
        | cons a b => exact List.Chain.cons a b
      · by_cases h2 : strLt k k2 = true
        · simp only [mapSet, h1, if_false, h2, if_true]
          exact List.Chain.cons hx (List.Chain.cons h2 hrest)
        · simp only [mapSet, h1, if_false, h2]
          have h3 : strLt k2 k = true :=
            strLt_total k k2 (fun e => h1 e.symm) (by simpa using h2)
          exact List.Chain.cons hxk (ih (k2, v2) hrest h3)

theorem chain'_mapSet (m : StdMap) (k v : Str) (h : List.Chain' keyLt m) :
    List.Chain' keyLt (mapSet m k v) := by
  cases m with
  | nil => simp [mapSet]
  | cons kv rest =>
    obtain ⟨k2, v2⟩ := kv
    have hc : List.Chain keyLt (k2, v2) rest := h
    by_cases h1 : k2 = k
    · subst h1
      simp only [mapSet, if_true]
      show List.Chain keyLt (k2, v) rest
      cases hc with
      | nil => exact List.Chain.nil
      | cons a b => exact List.Chain.cons a b
    · by_cases h2 : strLt k k2 = true
      · simp only [mapSet, h1, if_false, h2, if_true]
        exact List.Chain.cons h2 hc
      · simp only [mapSet, h1, if_false, h2]
        have h3 : strLt k2 k = true :=
          strLt_total k k2 (fun e => h1 e.symm) (by simpa using h2)
        exact chain_mapSet rest k v (k2, v2) hc h3

theorem chain'_foldl_mapSet (kvs : List (Str × Str)) :
    ∀ m : StdMap, List.Chain' keyLt m →
      List.Chain' keyLt (kvs.foldl (fun m kv => mapSet m kv.1 kv.2) m) := by
  induction kvs with
  | nil => intro m h; exact h
  | cons kv rest ih =>
    intro m h
    exact ih _ (chain'_mapSet m kv.1 kv.2 h)

theorem pairwise_mapOfAssignments (kvs : List (Str × Str)) :
    List.Pairwise keyLt (mapOfAssignments kvs) := by
  haveI : IsTrans (Str × Str) keyLt := ⟨fun a b c h1 h2 => strLt_trans a.1 b.1 c.1 h1 h2⟩
  exact List.chain'_iff_pairwise.mp (chain'_foldl_mapSet kvs [] List.chain'_nil)

theorem writeHeaders_eq (hs : StdMap) : ∀ out : Str, writeHeaders hs out = out ++ headerLines hs := by
  induction hs with
  | nil => intro out; simp [writeHeaders, headerLines]
  | cons kv rest ih =>
    intro out
    obtain ⟨k, v⟩ := kv
    simp only [writeHeaders, headerLines, ih, List.append_assoc]

/-- C4. For every response `r`, `serialize_response(r)` is the status line
`version SP decimal(status) SP reason CRLF`, then `key ": " value CRLF` for each
header of `r.headers` in the map's order, then `CRLF`, then the body verbatim;
a response without headers has nothing between its status line and the blank
line, so no header is added by the serializer.  The bindings of a map built by
assignments are in strictly ascending key order.  The response of the codec
test (headers assigned in the order `Content-Type`, `Content-Length`) is
serialized with `Content-Length` first. -/
theorem serialize_response_format (r : response) :
    serialize_response r =
      r.http_version ++ [' '] ++ decimal r.status_code ++ [' '] ++ r.reason_phrase ++
        ['\r', '\n'] ++ headerLines r.headers ++ ['\r', '\n'] ++ r.body ∧
    serialize_response { r with headers := [] } =
      r.http_version ++ [' '] ++ decimal r.status_code ++ [' '] ++ r.reason_phrase ++
        ['\r', '\n'] ++ ['\r', '\n'] ++ r.body ∧
    (∀ kvs : List (Str × Str), List.Pairwise keyLt (mapOfAssignments kvs)) ∧
    serialize_response
      { http_version := "HTTP/1.1".toList, status_code := 200, reason_phrase := "OK".toList,
        headers := mapOfAssignments [("Content-Type".toList, "text/html".toList),
          ("Content-Length".toList, "13".toList)],
        body := "<h1>Hello</h1>".toList } =
      ("HTTP/1.1 200 OK\r\nContent-Length: 13\r\nContent-Type: text/html\r\n\r\n" ++
        "<h1>Hello</h1>").toList := by
  have h : serialize_response r =
      r.http_version ++ [' '] ++ decimal r.status_code ++ [' '] ++ r.reason_phrase ++
        ['\r', '\n'] ++ headerLines r.headers ++ ['\r', '\n'] ++ r.body := by
    simp only [serialize_response, writeHeaders_eq]
  refine ⟨h, ?_, pairwise_mapOfAssignments, by decide⟩
  simp [serialize_response, writeHeaders]

/-! ## Theorems: configuration parser -/

open TokenType TokenParserState

theorem ParseTokenFrom_unclosed (q : Char) (state : TokenParserState)
    (hq : (state = TOKEN_STATE_SINGLE_QUOTE ∧ q = '\'') ∨
      (state = TOKEN_STATE_DOUBLE_QUOTE ∧ q = '"')) :
    ∀ (n : Nat) (body : Str), body.length ≤ n → closesQuote q body = false →
      ∀ value : Str, ∃ v, ParseTokenFrom state value body = (TOKEN_TYPE_ERROR, v, []) := by
  intro n
  induction n with
  | zero =>
    intro body hlen _ value
    have : body = [] := List.length_eq_zero.mp (Nat.le_zero.mp hlen)
    subst this
    rcases hq with ⟨hs, _⟩ | ⟨hs, _⟩ <;> subst hs <;> exact ⟨value, by simp [ParseTokenFrom]⟩
  | succ n ih =>
    intro body hlen hc value
    cases body with
    | nil =>
      rcases hq with ⟨hs, _⟩ | ⟨hs, _⟩ <;> subst hs <;> exact ⟨value, by simp [ParseTokenFrom]⟩
    | cons c cs =>
      by_cases hb : c = '\\'
      · subst hb
        cases cs with
        | nil =>
          rcases hq with ⟨hs, _⟩ | ⟨hs, _⟩ <;> subst hs <;>
            exact ⟨value ++ ['\\'] ++ ['\\'], by simp [ParseTokenFrom]⟩
        | cons e rest =>
          have hc2 : closesQuote q rest = false := by
            simpa [closesQuote] using hc
          have hl2 : rest.length ≤ n := by
            simp only [List.length_cons] at hlen; omega
          rcases hq with ⟨hs, hq1⟩ | ⟨hs, hq1⟩
          · subst hs
            obtain ⟨v, hv⟩ := ih rest hl2 hc2 (value ++ ['\\'] ++ ['\\'] ++ [e])
            exact ⟨v, by simp only [ParseTokenFrom, if_true]; exact hv⟩
          · subst hs
            obtain ⟨v, hv⟩ := ih rest hl2 hc2 (value ++ ['\\'] ++ ['\\'] ++ [e])
            exact ⟨v, by simp only [ParseTokenFrom, if_true]; exact hv⟩
      · have hcq : c ≠ q := by
          intro h
          subst h
          cases cs <;> simp [closesQuote, hb] at hc
        have hc2 : closesQuote q cs = false := by
          cases cs with
          | nil => rfl
          | cons e rest => simpa [closesQuote, hb, hcq] using hc
        have hl2 : cs.length ≤ n := by
          simp only [List.length_cons] at hlen; omega
        obtain ⟨v, hv⟩ := ih cs hl2 hc2 (value ++ [c])
        rcases hq with ⟨hs, hq1⟩ | ⟨hs, hq1⟩
        · subst hs; subst hq1
          refine ⟨v, ?_⟩
          cases cs with
          | nil => simp only [ParseTokenFrom, hb, if_false, hcq, false_and]; exact hv
          | cons e rest => simp only [ParseTokenFrom, hb, if_false, hcq, false_and]; exact hv
        · subst hs; subst hq1
          refine ⟨v, ?_⟩
          cases cs with
          | nil => simp only [ParseTokenFrom, hb, if_false, hcq, false_and]; exact hv
          | cons e rest => simp only [ParseTokenFrom, hb, if_false, hcq, false_and]; exact hv

theorem ParseTokenFrom_skip_space (ws : Str) (hws : ∀ c ∈ ws, isConfigSpace c) (rest value : Str) :
    ParseTokenFrom TOKEN_STATE_INITIAL_WHITESPACE value (ws ++ rest) =
      ParseTokenFrom TOKEN_STATE_INITIAL_WHITESPACE value rest := by
  induction ws with
  | nil => rfl
  | cons c cs ih =>
    have hc : isConfigSpace c := hws c (by simp)
    have hcs : ∀ d ∈ cs, isConfigSpace d := fun d hd => hws d (by simp [hd])
    rw [List.cons_append, ← ih hcs]
    unfold isConfigSpace at hc
    rcases hc with h | h | h | h <;> subst h <;> simp [ParseTokenFrom]

theorem ParseToken_unclosed (ws : Str) (q : Char) (body : Str)
    (hws : ∀ c ∈ ws, isConfigSpace c) (hq : q = '\'' ∨ q = '"')
    (hbody : closesQuote q body = false) :
    ∃ v, ParseToken (ws ++ q :: body) = (TOKEN_TYPE_ERROR, v, []) := by
  unfold ParseToken
  rw [ParseTokenFrom_skip_space ws hws]
  rcases hq with h | h
  · subst h
    obtain ⟨v, hv⟩ := ParseTokenFrom_unclosed '\'' TOKEN_STATE_SINGLE_QUOTE (Or.inl ⟨rfl, rfl⟩)
      body.length body (le_refl _) hbody ['\'']
    exact ⟨v, by simp only [ParseTokenFrom]; simpa using hv⟩
  · subst h
    obtain ⟨v, hv⟩ := ParseTokenFrom_unclosed '"' TOKEN_STATE_DOUBLE_QUOTE (Or.inr ⟨rfl, rfl⟩)
      body.length body (le_refl _) hbody ['"']
    exact ⟨v, by simp only [ParseTokenFrom]; simpa using hv⟩

theorem ParseLoop_error (n : Nat) (st : ParserState) (input v rest : Str)
    (h : ParseToken input = (TOKEN_TYPE_ERROR, v, rest)) :
    ParseLoop (n + 1) st input = .returned false st.config := by
  simp [ParseLoop, h]

theorem ParseTokenFrom_length_le :
    ∀ (n : Nat) (input : Str), input.length ≤ n → ∀ (state : TokenParserState) (value : Str),
      (ParseTokenFrom state value input).2.2.length ≤ input.length := by
  intro n
  induction n with
  | zero =>
    intro input hlen state value
    have : input = [] := List.length_eq_zero.mp (Nat.le_zero.mp hlen)
    subst this
    cases state <;> simp [ParseTokenFrom]
  | succ n ih =>
    intro input hlen state value
    cases input with
    | nil => cases state <;> simp [ParseTokenFrom]
    | cons c cs =>
      have hcs : cs.length ≤ n := by simp only [List.length_cons] at hlen; omega
      have step : ∀ (st2 : TokenParserState) (v2 : Str),
          (ParseTokenFrom st2 v2 cs).2.2.length ≤ (c :: cs).length := by
        intro st2 v2
        have := ih cs hcs st2 v2
        simp only [List.length_cons]; omega
      cases state with
      | TOKEN_STATE_INITIAL_WHITESPACE =>
        simp only [ParseTokenFrom]
        split_ifs <;> first | exact step _ _ | simp
      | TOKEN_STATE_SINGLE_QUOTE =>
        cases cs with
        | nil =>
          simp only [ParseTokenFrom]
          split_ifs <;> simp [ParseTokenFrom]
        | cons e rest =>
          have hrest : rest.length ≤ n := by simp only [List.length_cons] at hcs; omega
          simp only [ParseTokenFrom]
          split_ifs
          · have := ih rest hrest TOKEN_STATE_SINGLE_QUOTE (value ++ [c] ++ [c] ++ [e])
            simp only [List.length_cons]; omega
          · simp
          · exact step _ _
      | TOKEN_STATE_DOUBLE_QUOTE =>
        cases cs with
        | nil =>
          simp only [ParseTokenFrom]
          split_ifs <;> simp [ParseTokenFrom]
        | cons e rest =>
          have hrest : rest.length ≤ n := by simp only [List.length_cons] at hcs; omega
          simp only [ParseTokenFrom]
          split_ifs
          · have := ih rest hrest TOKEN_STATE_DOUBLE_QUOTE (value ++ [c] ++ [c] ++ [e])
            simp only [List.length_cons]; omega
          · simp
          · exact step _ _
      | TOKEN_STATE_TOKEN_TYPE_COMMENT =>
        simp only [ParseTokenFrom]
        split_ifs <;> first | exact step _ _ | simp
      | TOKEN_STATE_TOKEN_TYPE_NORMAL =>
        simp only [ParseTokenFrom]
        split_ifs <;> first | exact step _ _ | simp

theorem ParseToken_consumes (input : Str) :
    (ParseToken input).1 ≠ TOKEN_TYPE_EOF → (ParseToken input).1 ≠ TOKEN_TYPE_ERROR →
      (ParseToken input).2.2.length < input.length := by
  unfold ParseToken
  generalize ([] : Str) = value
  induction input generalizing value with
  | nil => intro h; simp [ParseTokenFrom] at h
  | cons c cs ih =>
    have step : ∀ (st2 : TokenParserState) (v2 : Str),
        (ParseTokenFrom st2 v2 cs).2.2.length < (c :: cs).length := by
      intro st2 v2
      have := ParseTokenFrom_length_le cs.length cs (le_refl _) st2 v2
      simp only [List.length_cons]; omega
    simp only [ParseTokenFrom]
    split_ifs
    · intro _ _; simp
    · intro _ _; simp
    · intro _ _; exact step _ _
    · intro _ _; exact step _ _
    · intro _ _; exact step _ _
    · intro _ _; simp
    · intro h1 h2
      have := ih value h1 h2
      simp only [List.length_cons]; omega
    · intro _ _; exact step _ _

theorem ParseLoop_fuel (fuel : Nat) :
    ∀ (st : ParserState) (input : Str), input.length < fuel →
      ParseLoop fuel st input ≠ .fuelExhausted := by
  induction fuel with
  | zero => intro st input h; omega
  | succ fuel ih =>
    intro st input hlen
    have hcons := ParseToken_consumes input
    have next : ∀ st2 : ParserState,
        (ParseToken input).1 ≠ TOKEN_TYPE_EOF → (ParseToken input).1 ≠ TOKEN_TYPE_ERROR →
        ParseLoop fuel st2 (ParseToken input).2.2 ≠ .fuelExhausted := by
      intro st2 h1 h2
      exact ih st2 _ (by have := hcons h1 h2; omega)
    generalize hp : ParseToken input = p at next
    obtain ⟨token_type, token, rest⟩ := p
    simp only [ParseLoop, hp]
    simp only [] at next
    cases token_type <;> simp only [reduceCtorEq, if_false, if_true, false_or, true_or, or_true] <;>
      repeat' split
    all_goals first
      | exact next _ (by simp) (by simp)
      | simp

/-- The iterations granted to the loop in `Parse` are enough: on every input
`Parse` returns or runs into undefined behaviour. -/
theorem Parse_terminates (input : Str) : Parse input ≠ .fuelExhausted :=
  ParseLoop_fuel (input.length + 1) ParserState.initial input (Nat.lt_succ_self _)

/-- An unterminated quoted string as the next token.  When a quote `'` or `"`
comes after whitespace only and the end of the stream is reached before its
closing quote, `ParseToken` returns the error token, the loop of `Parse`
returns false from whatever state it called `ParseToken` in, and `Parse`
returns false on the input that starts with this token. -/
theorem unterminated_quote_rejected (ws : Str) (q : Char) (body : Str)
    (hws : ∀ c ∈ ws, isConfigSpace c) (hq : q = '\'' ∨ q = '"')
    (hbody : closesQuote q body = false) :
    (ParseToken (ws ++ q :: body)).1 = TOKEN_TYPE_ERROR ∧
    (∀ (n : Nat) (st : ParserState),
      (ParseLoop (n + 1) st (ws ++ q :: body)).success = some false) ∧
    (Parse (ws ++ q :: body)).success = some false := by
  obtain ⟨v, hv⟩ := ParseToken_unclosed ws q body hws hq hbody
  refine ⟨by rw [hv], ?_, ?_⟩
  · intro n st
    rw [ParseLoop_error n st _ v [] hv]
    rfl
  · unfold Parse
    rw [ParseLoop_error _ _ _ v [] hv]
    rfl

/-- The configuration `foo 'bar` followed by a line break, read from the point
after the word `foo`: the quote opened before `bar` is never closed. -/
theorem unterminated_quote_rejected_witness :
    (ParseToken " 'bar\n".toList).1 = TOKEN_TYPE_ERROR ∧
    (∀ (n : Nat) (st : ParserState),
      (ParseLoop (n + 1) st " 'bar\n".toList).success = some false) ∧
    (Parse " 'bar\n".toList).success = some false :=
  unterminated_quote_rejected [' '] '\'' "bar\n".toList
    (by intro c hc; simp at hc; subst hc; exact Or.inl rfl) (Or.inl rfl) (by decide)

/-! ## Theorems: configuration interpreter -/

mutual
theorem find_value_in_statement_eq (key : Str) :
    ∀ st : NginxConfigStatement,
      find_value_in_statement st key =
        ((dfsStatement st).find? (isKeyValue key)).map secondToken
  | .mk tokens child => by
    have hc := find_value_in_child_eq key child
    match tokens with
    | [] => simpa [find_value_in_statement, dfsStatement, List.find?, isKeyValue,
        NginxConfigStatement.tokens_] using hc
    | [t0] => simpa [find_value_in_statement, dfsStatement, List.find?, isKeyValue,
        NginxConfigStatement.tokens_] using hc
    | [t0, t1] =>
      by_cases h : t0 = key
      · simp [find_value_in_statement, dfsStatement, List.find?, isKeyValue,
          NginxConfigStatement.tokens_, h, secondToken]
      · simpa [find_value_in_statement, dfsStatement, List.find?, isKeyValue,
          NginxConfigStatement.tokens_, h] using hc
    | t0 :: t1 :: t2 :: more =>
      simpa [find_value_in_statement, dfsStatement, List.find?, isKeyValue,
        NginxConfigStatement.tokens_] using hc
theorem find_value_in_child_eq (key : Str) :
    ∀ child : Option (List NginxConfigStatement),
      find_value_in_child child key =
        ((dfsChild child).find? (isKeyValue key)).map secondToken
  | none => by simp [find_value_in_child, dfsChild]
  | some block => by
    have hb := find_value_for_key_eq key block
    simpa [find_value_in_child, dfsChild] using hb
theorem find_value_for_key_eq (key : Str) :
    ∀ block : List NginxConfigStatement,
      find_value_for_key block key =
        ((dfsBlock block).find? (isKeyValue key)).map secondToken
  | [] => by simp [find_value_for_key, dfsBlock]
  | st :: rest => by
    have hs := find_value_in_statement_eq key st
    have hr := find_value_for_key_eq key rest
    simp only [find_value_for_key, dfsBlock, List.find?_append]
    rw [hs, hr]
    cases List.find? (isKeyValue key) (dfsStatement st) <;> simp
end

theorem digit_not_space (c : Char) (h : c.isDigit = true) : isSpace c = false := by
  cases h2 : isSpace c with
  | false => rfl
  | true =>
    exfalso
    simp only [isSpace, Bool.or_eq_true, decide_eq_true_eq] at h2
    rcases h2 with ((((h2 | h2) | h2) | h2) | h2) | h2 <;> subst h2 <;> exact absurd h (by decide)

theorem digit_not_sign (c : Char) (h : c.isDigit = true) : c ≠ '-' ∧ c ≠ '+' := by
  constructor <;> intro h2 <;> subst h2 <;> exact absurd h (by decide)

theorem stoi_eq_leadingDigits (str : Str) (h : leadingDigits str = []) : stoi str = none := by
  unfold leadingDigits at h
  simp only [stoi, h, if_true]

theorem stoi_digits (ds : Str) (hne : ds ≠ []) (hdig : ∀ c ∈ ds, c.isDigit = true)
    (hmax : digitsValue ds ≤ 2147483647) : stoi ds = some (digitsValue ds : Int) := by
  cases ds with
  | nil => exact absurd rfl hne
  | cons d rest =>
    have hd : d.isDigit = true := hdig d (by simp)
    have h1 : (d :: rest).dropWhile isSpace = d :: rest := by
      simp [List.dropWhile, digit_not_space d hd]
    have h2 : (d :: rest).takeWhile Char.isDigit = d :: rest := (takeWhile_all _ hdig).1
    have h3 := digit_not_sign d hd
    simp only [stoi, h1, List.head?_cons, Option.some.injEq, h3.1, h3.2, or_self, if_false, h2]
    simp only [List.cons_ne_nil, if_false, decide_False, Bool.false_eq_true]
    rw [if_pos]
    constructor <;> omega

theorem toShort_small (n : Nat) (h : n ≤ 32767) : toShort (n : Int) = (n : Int) := by
  unfold toShort
  omega

theorem beginsWithInteger_iff (v : Str) : beginsWithInteger v ↔ leadingDigits v ≠ [] := by
  constructor
  · rintro ⟨ws, sign, d, rest, hv, hws, hsign, hd⟩
    have hdrop : v.dropWhile isSpace = sign ++ d :: rest := by
      rw [hv, List.append_assoc]
      have : ∀ (l : Str), (∀ c ∈ l, isSpace c = true) → ∀ t : Str,
          (t.head?.map isSpace ≠ some true) → (l ++ t).dropWhile isSpace = t := by
        intro l
        induction l with
        | nil =>
          intro _ t ht
          cases t with
          | nil => rfl
          | cons a as =>
            have : isSpace a = false := by
              cases hsp : isSpace a with
              | false => rfl
              | true => simp [hsp] at ht
            simp [List.dropWhile, this]
        | cons a as ih =>
          intro hl t ht
          have ha : isSpace a = true := hl a (by simp)
          simp only [List.cons_append, List.dropWhile, ha]
          exact ih (fun c hc => hl c (by simp [hc])) t ht
      apply this ws hws
      rcases hsign with h | h | h <;> subst h
      · simp [digit_not_space d hd]
      · simp [isSpace]
      · simp [isSpace]
    have h3 := digit_not_sign d hd
    unfold leadingDigits
    simp only [hdrop]
    rcases hsign with h | h | h <;> subst h
    · simp [h3.1, h3.2, List.takeWhile, hd]
    · simp [List.takeWhile, hd]
    · simp [List.takeWhile, hd]
  · intro h
    unfold leadingDigits at h
    simp only [] at h
    have hsplit : v = v.takeWhile isSpace ++ v.dropWhile isSpace :=
      (List.takeWhile_append_dropWhile isSpace v).symm
    have hws : ∀ c ∈ v.takeWhile isSpace, isSpace c = true :=
      fun c hc => List.mem_takeWhile_imp hc
    generalize v.dropWhile isSpace = t at h hsplit
    generalize v.takeWhile isSpace = w at hws hsplit
    have key : ∀ u : Str, u.takeWhile Char.isDigit ≠ [] →
        ∃ d rest, u = d :: rest ∧ d.isDigit = true := by
      intro u hu
      cases u with
      | nil => simp at hu
      | cons d rest =>
        refine ⟨d, rest, rfl, ?_⟩
        cases hd : d.isDigit with
        | true => rfl
        | false => simp [List.takeWhile, hd] at hu
    by_cases hs : t.head? = some '-' ∨ t.head? = some '+'
    · rw [if_pos hs] at h
      obtain ⟨d, rest, hu, hd⟩ := key _ h
      cases t with
      | nil => simp at hs
      | cons a as =>
        simp only [List.drop_succ_cons, List.drop_zero] at hu
        simp only [List.head?_cons, Option.some.injEq] at hs
        refine ⟨w, [a], d, rest, ?_, hws, ?_, hd⟩
        · rw [hsplit, hu]; simp
        · rcases hs with hs | hs <;> simp [hs]
    · rw [if_neg hs] at h
      obtain ⟨d, rest, hu, hd⟩ := key _ h
      exact ⟨w, [], d, rest, by rw [hsplit, hu]; simp, hws, Or.inl rfl, hd⟩

/-- C8, as the code has it.  When the first statement in depth-first order
(statements in source order, a statement before the statements of its child
block) that has exactly two tokens, the first being `listen`, has as its second
token a string of decimal digits of value at most 32767, `find_listen_port`
returns that value, however deeply the statement is nested; statements whose
first token is `listen` and that carry further tokens are passed over. -/
theorem find_listen_port_selected (tree : NginxConfig) (st : NginxConfigStatement) (ds : Str)
    (hsel : selectedStatement tree listenKey = some st)
    (htok : secondToken st = ds)
    (hne : ds ≠ []) (hdig : ∀ c ∈ ds, c.isDigit = true)
    (hmax : digitsValue ds ≤ 32767) :
    find_listen_port tree = .ok (digitsValue ds : Int) := by
  unfold selectedStatement at hsel
  have h1 : find_value_for_key tree listenKey = some ds := by
    rw [find_value_for_key_eq, hsel]; simp [htok]
  simp only [find_listen_port, h1, stoi_digits ds hne hdig (by omega),
    toShort_small _ hmax]

/-- A `listen 8080 default_server;` with three tokens comes first and is passed
over; the port is that of the `listen 80;` nested in the `server` block. -/
theorem find_listen_port_selected_witness :
    find_listen_port
      [.mk ["listen".toList, "8080".toList, "default_server".toList] none,
       .mk ["server".toList] (some [.mk ["listen".toList, "80".toList] none])] = .ok 80 :=
  find_listen_port_selected
    [.mk ["listen".toList, "8080".toList, "default_server".toList] none,
     .mk ["server".toList] (some [.mk ["listen".toList, "80".toList] none])]
    (.mk ["listen".toList, "80".toList] none) "80".toList
    rfl (by decide) (by decide) (by decide) (by decide)

/-- C8 fails as stated: a `listen` statement that carries a further token is
not found at all; a two-token `listen` statement whose value is not a number
hides a later `listen 80;`; and the port 40000 is returned as -25536. -/
theorem find_listen_port_counterexample :
    find_listen_port [.mk ["listen".toList, "80".toList, "default_server".toList] none] =
      .error (.noValidDirective listenKey) ∧
    find_listen_port
      [.mk ["listen".toList, "abc".toList] none, .mk ["listen".toList, "80".toList] none] =
      .error .invalidPortFormat ∧
    find_listen_port [.mk ["listen".toList, "40000".toList] none] = .ok (-25536) := by
  decide

theorem find_value_for_key_none (tree : NginxConfig) (key : Str)
    (h : ∀ st ∈ dfsBlock tree, st.tokens_.head? ≠ some key) :
    find_value_for_key tree key = none := by
  rw [find_value_for_key_eq]
  have : (dfsBlock tree).find? (isKeyValue key) = none := by
    rw [List.find?_eq_none]
    intro st hst hk
    simp only [isKeyValue, Bool.decide_and, Bool.and_eq_true, decide_eq_true_eq] at hk
    exact h st hst hk.2
  rw [this]; rfl

/-- C9, as the code has it.  `find_listen_port` fails with a
`std::runtime_error` for every config tree in which no statement has `listen`
as its first token, and for every config tree whose selected `listen` value
(the second token of the first two-token `listen` statement in depth-first
order) does not begin with a decimal integer, that is with optional whitespace,
an optional sign and at least one digit. -/
theorem find_listen_port_fails (tree : NginxConfig) :
    ((∀ st ∈ dfsBlock tree, st.tokens_.head? ≠ some listenKey) →
      find_listen_port tree = .error (.noValidDirective listenKey)) ∧
    (∀ st, selectedStatement tree listenKey = some st →
      ¬ beginsWithInteger (secondToken st) →
      find_listen_port tree = .error .invalidPortFormat) := by
  constructor
  · intro h
    simp only [find_listen_port, find_value_for_key_none tree listenKey h]
  · intro st hsel hnot
    unfold selectedStatement at hsel
    have h1 : find_value_for_key tree listenKey = some (secondToken st) := by
      rw [find_value_for_key_eq, hsel]; rfl
    have h2 : stoi (secondToken st) = none := by
      apply stoi_eq_leadingDigits
      by_contra hne
      exact hnot ((beginsWithInteger_iff _).mpr hne)
    simp only [find_listen_port, h1, h2]

/-- A tree without any `listen` statement, and the tree `listen abc;`. -/
theorem find_listen_port_fails_witness :
    find_listen_port [.mk ["server".toList] (some [.mk ["root".toList, "/x".toList] none])] =
      .error (.noValidDirective listenKey) ∧
    find_listen_port [.mk ["listen".toList, "abc".toList] none] = .error .invalidPortFormat :=
  ⟨(find_listen_port_fails _).1 (by decide),
   (find_listen_port_fails _).2 (.mk ["listen".toList, "abc".toList] none) rfl
     (fun h => absurd ((beginsWithInteger_iff _).mp h) (by decide))⟩

/-- C9 fails as stated: the value `80abc` is not a decimal integer literal, and
`find_listen_port` returns 80 for it. -/
theorem find_listen_port_prefix_counterexample :
    find_listen_port [.mk ["listen".toList, "80abc".toList] none] = .ok 80 := by
  decide

theorem extract_loop_trailing_slash (pre post : NginxConfig) (st : NginxConfigStatement)
    (uri : Str) (more : List Str)
    (hpre : ∀ t ∈ pre, ∃ r, extract_statement t = .ok r)
    (htok : st.tokens_ = "location".toList :: uri :: more)
    (hslash : uri.getLast? = some '/') :
    ∀ acc, extract_loop (pre ++ st :: post) acc = .error (.trailingSlash uri) := by
  induction pre with
  | nil =>
    intro acc
    have h : extract_statement st = .error (.trailingSlash uri) := by
      simp only [extract_statement, htok, if_true, hslash]
    simp only [List.nil_append, extract_loop, h]
  | cons t rest ih =>
    intro acc
    obtain ⟨r, hr⟩ := hpre t (by simp)
    have ih2 := ih (fun x hx => hpre x (by simp [hx]))
    cases r with
    | none =>
      simp only [List.cons_append, extract_loop, hr]
      exact ih2 acc
    | some c =>
      simp only [List.cons_append, extract_loop, hr]
      exact ih2 (acc ++ [c])

/-- C10. For every root block in which the first `location` statement that
does not pass extraction (every statement before it is passed over or yields
its entry) has a URI, its second token, ending in `/`, the URI `/` included,
`extract_handler_configs` fails with the trailing-slash error and returns no
route list, whatever further tokens and child block the statement has and
whatever follows it. -/
theorem extract_trailing_slash (pre post : NginxConfig) (st : NginxConfigStatement)
    (uri : Str) (more : List Str)
    (hpre : ∀ t ∈ pre, ∃ r, extract_statement t = .ok r)
    (htok : st.tokens_ = "location".toList :: uri :: more)
    (hslash : uri.getLast? = some '/') :
    extract_handler_configs (pre ++ st :: post) = .error (.trailingSlash uri) :=
  extract_loop_trailing_slash pre post st uri more hpre htok hslash []

/-- After `listen 80;` and `location /echo EchoHandler;`, the statement
`location / NoSuchHandler;` has the URI `/`: extraction fails with the
trailing-slash error, not with the unsupported-handler error. -/
theorem extract_trailing_slash_witness :
    extract_handler_configs
      ([.mk ["listen".toList, "80".toList] none,
        .mk ["location".toList, "/echo".toList, "EchoHandler".toList] none] ++
       .mk ["location".toList, "/".toList, "NoSuchHandler".toList] none ::
       [.mk ["location".toList, "/static/".toList, "StaticFileHandler".toList] none]) =
      .error (.trailingSlash "/".toList) :=
  extract_trailing_slash
    [.mk ["listen".toList, "80".toList] none,
     .mk ["location".toList, "/echo".toList, "EchoHandler".toList] none]
    [.mk ["location".toList, "/static/".toList, "StaticFileHandler".toList] none]
    (.mk ["location".toList, "/".toList, "NoSuchHandler".toList] none)
    "/".toList ["NoSuchHandler".toList]
    (by
      intro t ht
      simp only [List.mem_cons, List.mem_singleton, List.not_mem_nil, or_false] at ht
      rcases ht with h | h <;> subst h
      · exact ⟨none, by decide⟩
      · exact ⟨some { uri := "/echo".toList, handler := "EchoHandler".toList }, by decide⟩)
    rfl (by decide)

/-! ## Theorems: session engine and parser, evaluated -/

/-- C5, evaluated on the code.  The request `GET /api HTTP/1.1` reaches a
session whose trie routes `/api` to `CrudHandler` and whose registry holds
`NotFoundHandler` only: `create_handler` returns a null handler and
`handle_read` dereferences it.  The same happens when the registered
constructor returns its failure sentinel (`StaticFileHandler` without
`doc_root`).  No response, with status 500 or any other, is written in either
case. -/
theorem handle_read_null_handler (constructed : RequestHandler) :
    handle_read
      (TrieNode.build [("/api".toList,
        ({ uri := "/api".toList, handler := "CrudHandler".toList } : ConfigStruct))])
      { factory_map_ := [("NotFoundHandler".toList, NotFoundHandler.create)] }
      [] false "GET /api HTTP/1.1\r\nHost: localhost\r\n\r\n".toList =
      .nullHandlerDereferenced ∧
    handle_read
      (TrieNode.build [("/static".toList,
        ({ uri := "/static".toList, handler := "StaticFileHandler".toList,
           args := [("mount_point".toList, "/static".toList)] } : ConfigStruct))])
      { factory_map_ := [("NotFoundHandler".toList, NotFoundHandler.create),
          ("StaticFileHandler".toList, StaticFileHandler.create constructed)] }
      [] false "GET /static/a.txt HTTP/1.1\r\nHost: localhost\r\n\r\n".toList =
      .nullHandlerDereferenced := by
  constructor
  · decide
  · rfl

/-- C6, evaluated on the code.  On `a; } b;` and on `a; } }` the first `}`
pops the root block off `config_stack`; the word `b` then reads `top()` of the
empty stack and the second `}` pops the empty stack: `Parse` does not return
false, its behaviour is undefined.  (On `a; }` alone it returns false.) -/
theorem parse_extra_brace_undefined :
    (Parse "a; \x7d b;".toList).isUndefined = true ∧
    (Parse "a; \x7d b;".toList).success = none ∧
    (Parse "a; \x7d \x7d".toList).isUndefined = true ∧
    (Parse "a; \x7d \x7d".toList).success = none ∧
    (Parse "a; \x7d".toList).success = some false := by
  decide

/-! ## Theorems: tokenizer and interpreter, evaluated -/

/-- C16, evaluated on the code.  For the input `"a\"b";` the quoted-string
token has seven characters, not the six of the input: the backslash is
appended to the value twice. -/
theorem parse_token_doubles_backslash :
    ParseToken ['"', 'a', '\\', '"', 'b', '"', ';'] =
      (TokenType.TOKEN_TYPE_QUOTED_STRING, ['"', 'a', '\\', '\\', '"', 'b', '"'], [';']) := by
  decide

/-- C17, evaluated on the code.  In `"a\\"` the second backslash is escaped by
the first, and the quote after it is not escaped; `ParseToken` does not end the
token there: it reaches the end of the stream and returns the error token.
When more input follows, as in `"a\\" "b";`, the token runs on to the next
quote that is not preceded by a backslash. -/
theorem parse_token_escaped_backslash :
    (ParseToken ['"', 'a', '\\', '\\', '"']).1 = TokenType.TOKEN_TYPE_ERROR ∧
    ParseToken ['"', 'a', '\\', '\\', '"', ' ', '"', 'b', '"', ';'] =
      (TokenType.TOKEN_TYPE_QUOTED_STRING,
        ['"', 'a', '\\', '\\', '\\', '"', ' ', '"'], ['b', '"', ';']) := by
  decide

/-- C18, evaluated on the code.  A carriage return does not end a word: the
input `foo\rbar;` yields the one word `foo\rbar`, and with a CRLF line break
after `server` the word is `server\r`. -/
theorem parse_token_word_with_cr :
    ParseToken "foo\rbar;".toList =
      (TokenType.TOKEN_TYPE_NORMAL, "foo\rbar".toList, ";".toList) ∧
    ParseToken "server\r\n\x7b".toList =
      (TokenType.TOKEN_TYPE_NORMAL, "server\r".toList, "\n\x7b".toList) := by
  decide

/-- C19, evaluated on the code.  For the word `foo` at the very end of the
stream `ParseToken` returns the end-of-stream token, not a word, and `Parse`
returns true on `listen 80;foo`.  With a blank after the word it returns
false. -/
theorem parse_accepts_trailing_word :
    (ParseToken "foo".toList).1 = TokenType.TOKEN_TYPE_EOF ∧
    (Parse "listen 80;foo".toList).success = some true ∧
    (Parse "listen 80;foo ".toList).success = some false := by
  decide

/-- C13, evaluated on the code.  For `location /quiz QuizHandler;` and for
`location /result ResultHandler;`, statements without a child block,
`extract_handler_configs` passes the null `child_block_` to
`find_value_for_key`, which dereferences it: no `std::runtime_error` is raised.
`CreateQuizHandler`, `CrudHandler` and `StaticFileHandler` test the pointer
and raise the error. -/
theorem extract_quiz_without_child_block :
    extract_handler_configs
      [.mk ["location".toList, "/quiz".toList, "QuizHandler".toList] none] =
      .undefinedBehaviour ∧
    extract_handler_configs
      [.mk ["location".toList, "/result".toList, "ResultHandler".toList] none] =
      .undefinedBehaviour ∧
    extract_handler_configs
      [.mk ["location".toList, "/create".toList, "CreateQuizHandler".toList] none] =
      .error .createQuizHandlerNeedsChildBlock ∧
    extract_handler_configs
      [.mk ["location".toList, "/api".toList, "CrudHandler".toList] none] =
      .error .crudHandlerNeedsChildBlock ∧
    extract_handler_configs
      [.mk ["location".toList, "/static".toList, "StaticFileHandler".toList] none] =
      .error .staticFileHandlerMisconfigured := by
  decide

/-- C12, evaluated on the code.  On a configuration with two top-level
`location /echo` statements the startup of `main` does not fail: the server is
constructed on port 8080 with a routing trie in which `/echo` leads to the
entry of the second statement.  The function `create_uri_to_config_map`, which
refuses these two entries, is not called by `main`. -/
theorem main_accepts_duplicate_locations :
    (main_startup ("listen 8080;\nlocation /echo EchoHandler \x7b\n\x7d\n" ++
      "location /echo SleepHandler \x7b\n\x7d\n").toList).exitStatus = none ∧
    (main_startup ("listen 8080;\nlocation /echo EchoHandler \x7b\n\x7d\n" ++
      "location /echo SleepHandler \x7b\n\x7d\n").toList).port = some 8080 ∧
    (main_startup ("listen 8080;\nlocation /echo EchoHandler \x7b\n\x7d\n" ++
      "location /echo SleepHandler \x7b\n\x7d\n").toList).route "/echo".toList =
      some { uri := "/echo".toList, handler := "SleepHandler".toList } ∧
    create_uri_to_config_map
      [{ uri := "/echo".toList, handler := "EchoHandler".toList },
       { uri := "/echo".toList, handler := "SleepHandler".toList }] =
      .error .duplicateLocations := by
  decide

/-! ## Theorems: route table -/

theorem configMapFind_isSome (m : List (Str × ConfigStruct)) (key : Str) :
    (configMapFind m key).isSome = true ↔ key ∈ m.map Prod.fst := by
  induction m with
  | nil => simp [configMapFind]
  | cons kv rest ih =>
    obtain ⟨k, v⟩ := kv
    by_cases h : k = key
    · simp [configMapFind, h]
    · have h2 : ¬ key = k := fun e => h e.symm
      simp [configMapFind, h, h2, ih]

theorem configMapSet_perm (m : List (Str × ConfigStruct)) (key : Str) (value : ConfigStruct)
    (hk : key ∉ m.map Prod.fst) : (configMapSet m key value).Perm ((key, value) :: m) := by
  induction m with
  | nil => simp [configMapSet]
  | cons kv rest ih =>
    obtain ⟨k, v⟩ := kv
    have h1 : ¬ k = key := by
      intro e; apply hk; simp [e]
    have h2 : key ∉ rest.map Prod.fst := by
      intro e; apply hk; simp only [List.map_cons, List.mem_cons]; exact Or.inr e
    by_cases h3 : strLt key k = true
    · simp [configMapSet, h1, h3]
    · simp only [configMapSet, h1, if_false, h3]
      exact ((ih h2).cons (k, v)).trans (List.Perm.swap _ _ _)

theorem configMapFind_of_mem (m : List (Str × ConfigStruct)) (key : Str) (value : ConfigStruct)
    (hn : (m.map Prod.fst).Nodup) (hm : (key, value) ∈ m) :
    configMapFind m key = some value := by
  induction m with
  | nil => simp at hm
  | cons kv rest ih =>
    obtain ⟨k, v⟩ := kv
    simp only [List.map_cons, List.nodup_cons] at hn
    simp only [List.mem_cons, Prod.mk.injEq] at hm
    rcases hm with ⟨e1, e2⟩ | hm
    · simp [configMapFind, e1, e2]
    · have hk : ¬ k = key := by
        intro e
        apply hn.1
        rw [e]
        exact List.mem_map.mpr ⟨(key, value), hm, rfl⟩
      simp only [configMapFind, hk, if_false]
      exact ih hn.2 hm

theorem create_uri_to_config_map_loop_spec (configs : List ConfigStruct) :
    ∀ m : List (Str × ConfigStruct),
      (create_uri_to_config_map_loop configs m = .error .duplicateLocations ↔
        ¬ ((configs.map ConfigStruct.uri).Nodup ∧
          ∀ c ∈ configs, c.uri ∉ m.map Prod.fst)) ∧
      ((configs.map ConfigStruct.uri).Nodup → (∀ c ∈ configs, c.uri ∉ m.map Prod.fst) →
        ∃ result, create_uri_to_config_map_loop configs m = .ok result ∧
          result.Perm (m ++ configs.map (fun c => (c.uri, c)))) := by
  induction configs with
  | nil =>
    intro m
    refine ⟨?_, fun _ _ => ⟨m, rfl, by simp⟩⟩
    simp [create_uri_to_config_map_loop]
  | cons c rest ih =>
    intro m
    by_cases hc : (configMapFind m c.uri).isSome = true
    · have hmem := (configMapFind_isSome m c.uri).mp hc
      constructor
      · simp only [create_uri_to_config_map_loop, hc, if_true, true_iff]
        intro h
        exact h.2 c (by simp) hmem
      · intro _ h
        exact absurd hmem (h c (by simp))
    · have hmem : c.uri ∉ m.map Prod.fst := fun e => hc ((configMapFind_isSome m c.uri).mpr e)
      have hperm := configMapSet_perm m c.uri c hmem
      have hkeys : ∀ x, x ∈ (configMapSet m c.uri c).map Prod.fst ↔ x = c.uri ∨ x ∈ m.map Prod.fst := by
        intro x
        rw [(hperm.map Prod.fst).mem_iff]
        simp
      obtain ⟨ih1, ih2⟩ := ih (configMapSet m c.uri c)
      simp only [create_uri_to_config_map_loop, hc, Bool.false_eq_true, if_false]
      constructor
      · rw [ih1]
        apply not_congr
        constructor
        · rintro ⟨h1, h2⟩
          refine ⟨?_, ?_⟩
          · rw [List.map_cons, List.nodup_cons]
            refine ⟨?_, h1⟩
            intro hx
            obtain ⟨x, hx1, hx2⟩ := List.mem_map.mp hx
            exact h2 x hx1 ((hkeys x.uri).mpr (Or.inl hx2))
          · intro x hx
            rcases List.mem_cons.mp hx with e | hx1
            · rw [e]; exact hmem
            · exact fun hm => h2 x hx1 ((hkeys x.uri).mpr (Or.inr hm))
        · rintro ⟨h1, h2⟩
          rw [List.map_cons, List.nodup_cons] at h1
          refine ⟨h1.2, ?_⟩
          intro x hx hm
          rcases (hkeys x.uri).mp hm with e | hm2
          · exact h1.1 (List.mem_map.mpr ⟨x, hx, e⟩)
          · exact h2 x (List.mem_cons_of_mem _ hx) hm2
      · intro hn hd
        rw [List.map_cons, List.nodup_cons] at hn
        have hd2 : ∀ x ∈ rest, x.uri ∉ (configMapSet m c.uri c).map Prod.fst := by
          intro x hx hm
          rcases (hkeys x.uri).mp hm with e | hm2
          · exact hn.1 (List.mem_map.mpr ⟨x, hx, e⟩)
          · exact hd x (List.mem_cons_of_mem _ hx) hm2
        obtain ⟨result, hr, hp⟩ := ih2 hn.2 hd2
        refine ⟨result, hr, hp.trans ?_⟩
        simp only [List.map_cons]
        exact (hperm.append_right _).trans (by
          simpa using (@List.perm_middle _ (c.uri, c) m
            (rest.map (fun c => (c.uri, c)))).symm)

/-- C11. For every list of route entries, `create_uri_to_config_map` fails with
the duplicate-location error if and only if two entries of the list have the
same uri; when all uris are distinct it returns a map whose bindings are, up to
their order, one binding `uri ↦ entry` per entry of the list, so that looking
up the uri of an entry finds that entry. -/
theorem create_uri_to_config_map_spec (configs : List ConfigStruct) :
    (create_uri_to_config_map configs = .error .duplicateLocations ↔
      ¬ (configs.map ConfigStruct.uri).Nodup) ∧
    ((configs.map ConfigStruct.uri).Nodup →
      ∃ result, create_uri_to_config_map configs = .ok result ∧
        result.Perm (configs.map (fun c => (c.uri, c))) ∧
        ∀ c ∈ configs, configMapFind result c.uri = some c) := by
  obtain ⟨h1, h2⟩ := create_uri_to_config_map_loop_spec configs []
  constructor
  · rw [create_uri_to_config_map, h1]
    simp
  · intro hn
    obtain ⟨result, hr, hp⟩ := h2 hn (by simp)
    simp only [List.nil_append] at hp
    refine ⟨result, hr, hp, ?_⟩
    intro c hc
    apply configMapFind_of_mem
    · rw [(hp.map Prod.fst).nodup_iff]
      simpa [List.map_map, Function.comp] using hn
    · exact hp.mem_iff.mpr (List.mem_map.mpr ⟨c, hc, rfl⟩)

/-- The two entries of the interpreter test give a map with two bindings, and a
list that names `/echo` twice is refused. -/
theorem create_uri_to_config_map_spec_witness :
    (∃ result,
      create_uri_to_config_map
        [{ uri := "/static".toList, handler := "StaticFileHandler".toList },
         { uri := "/echo".toList, handler := "EchoHandler".toList }] = .ok result ∧
      result.Perm
        ([{ uri := "/static".toList, handler := "StaticFileHandler".toList },
          { uri := "/echo".toList, handler := "EchoHandler".toList }].map
            (fun c : ConfigStruct => (c.uri, c))) ∧
      ∀ c ∈ ([{ uri := "/static".toList, handler := "StaticFileHandler".toList },
          { uri := "/echo".toList, handler := "EchoHandler".toList }] : List ConfigStruct),
        configMapFind result c.uri = some c) ∧
    create_uri_to_config_map
      [{ uri := "/echo".toList, handler := "EchoHandler".toList },
       { uri := "/echo".toList, handler := "SleepHandler".toList }] =
      .error .duplicateLocations :=
  ⟨(create_uri_to_config_map_spec _).2 (by decide),
   (create_uri_to_config_map_spec _).1.mpr (by decide)⟩

/-! ## Theorems: request line -/

theorem dropWhile_head_fails (p : Char → Bool) (l : Str) (d : Char) (r : Str)
    (h : l.dropWhile p = d :: r) : p d = false := by
  induction l with
  | nil => simp at h
  | cons a as ih =>
    rw [List.dropWhile_cons] at h
    by_cases hp : p a = true
    · rw [if_pos hp] at h; exact ih h
    · rw [if_neg hp] at h
      simp only [List.cons.injEq] at h
      rw [← h.1]; simpa using hp

theorem splitOnP_isSpace_head (cs : Str) :
    cs.splitOnP isSpace =
      cs.takeWhile (fun c => !isSpace c) ::
        (match cs.dropWhile (fun c => !isSpace c) with
          | [] => []
          | _ :: r => r.splitOnP isSpace) := by
  induction cs with
  | nil => simp [List.splitOnP_nil]
  | cons c cs ih =>
    rw [List.splitOnP_cons]
    by_cases hc : isSpace c = true
    · simp [hc, List.takeWhile_cons, List.dropWhile_cons]
    · have hc2 : isSpace c = false := by simpa using hc
      rw [if_neg hc, ih]
      simp [List.modifyHead, List.takeWhile_cons, List.dropWhile_cons, hc2]

theorem fields_cons_space (c : Char) (cs : Str) (hc : isSpace c = true) :
    fields (c :: cs) = fields cs := by
  simp [fields, List.splitOnP_cons, hc]

theorem fields_of_extractWord (s : Str) :
    match extractWord s with
    | none => fields s = []
    | some (w, rest) => fields s = w :: fields rest := by
  induction s with
  | nil => simp [extractWord, fields, List.splitOnP_nil]
  | cons c cs ih =>
    by_cases hc : isSpace c = true
    · have e : extractWord (c :: cs) = extractWord cs := by
        simp [extractWord, List.dropWhile_cons, hc]
      rw [e, fields_cons_space c cs hc]
      exact ih
    · have hc2 : isSpace c = false := by simpa using hc
      have hw : (c :: cs).takeWhile (fun c => !isSpace c) =
          c :: cs.takeWhile (fun c => !isSpace c) := by
        simp [List.takeWhile_cons, hc2]
      have hd : (c :: cs).dropWhile (fun c => !isSpace c) =
          cs.dropWhile (fun c => !isSpace c) := by
        simp [List.dropWhile_cons, hc2]
      have e : extractWord (c :: cs) =
          some (c :: cs.takeWhile (fun c => !isSpace c),
            cs.dropWhile (fun c => !isSpace c)) := by
        simp [extractWord, List.dropWhile_cons, hc2, List.takeWhile_cons]
      rw [e]
      simp only []
      have hs := splitOnP_isSpace_head (c :: cs)
      rw [hw, hd] at hs
      cases hdw : cs.dropWhile (fun c => !isSpace c) with
      | nil =>
        rw [hdw] at hs
        simp [fields, hs, List.splitOnP_nil]
      | cons d r =>
        rw [hdw] at hs
        have hdsp : isSpace d = true := by
          have := dropWhile_head_fails _ _ _ _ hdw
          simpa using this
        rw [fields_cons_space d r hdsp]
        simp [fields, hs]

theorem splitOnP_append_space (l : Str) (c : Char) (hc : isSpace c = true) :
    (l ++ [c]).splitOnP isSpace = l.splitOnP isSpace ++ [[]] := by
  induction l with
  | nil => simp [List.splitOnP_cons, hc, List.splitOnP_nil]
  | cons a as ih =>
    rw [List.cons_append, List.splitOnP_cons, List.splitOnP_cons, ih]
    by_cases ha : isSpace a = true
    · simp [ha]
    · rw [if_neg ha, if_neg ha]
      cases hsp : as.splitOnP isSpace with
      | nil => exact absurd hsp (List.splitOnP_ne_nil _ _)
      | cons x xs => simp [List.modifyHead]

theorem fields_stripCR (line : Str) : fields (stripCR line) = fields line := by
  unfold stripCR
  by_cases h : line.getLast? = some '\r'
  · rw [if_pos h]
    have e : line.dropLast ++ ['\r'] = line := List.dropLast_append_getLast? '\r' (by simp [h])
    conv_rhs => rw [← e]
    simp [fields, splitOnP_append_space _ '\r' (by decide), List.filter_append]
  · rw [if_neg h]

theorem getline_cons_ne_none (delim c : Char) (cs : Str) : getline delim (c :: cs) ≠ none := by
  by_cases hc : c = delim
  · simp [getline, hc]
  · cases hg : getline delim cs with
    | none => simp [getline, hc, hg]
    | some p => simp [getline, hc, hg]

theorem getline_takeWhile (delim : Char) (s t rest : Str)
    (h : getline delim s = some (t, rest)) : t = s.takeWhile (fun c => c ≠ delim) := by
  induction s generalizing t rest with
  | nil => simp [getline] at h
  | cons c cs ih =>
    by_cases hc : c = delim
    · simp only [getline, hc, if_true, Option.some.injEq, Prod.mk.injEq] at h
      simp [List.takeWhile_cons, hc, ← h.1]
    · simp only [getline, hc, if_false] at h
      cases hg : getline delim cs with
      | none =>
        rw [hg] at h
        simp only [Option.some.injEq, Prod.mk.injEq] at h
        cases cs with
        | nil => simp [List.takeWhile_cons, hc, ← h.1]
        | cons d ds => exact absurd hg (getline_cons_ne_none delim d ds)
      | some p =>
        obtain ⟨t2, r2⟩ := p
        rw [hg] at h
        simp only [Option.some.injEq, Prod.mk.injEq] at h
        have := ih t2 r2 hg
        simp [List.takeWhile_cons, hc, ← h.1, this]

theorem readRequestLine_few_fields (header_part : Str) (hne : header_part ≠ [])
    (hf : (fields (firstLine header_part)).length < 3) :
    readRequestLine header_part = none := by
  unfold readRequestLine
  cases hg : getline '\n' header_part with
  | none =>
    cases header_part with
    | nil => exact absurd rfl hne
    | cons c cs => exact absurd hg (getline_cons_ne_none '\n' c cs)
  | some p =>
    obtain ⟨line, rest⟩ := p
    have hl : line = firstLine header_part := getline_takeWhile '\n' _ _ _ hg
    rw [← hl, ← fields_stripCR] at hf
    simp only []
    have f1 := fields_of_extractWord (stripCR line)
    cases h1 : extractWord (stripCR line) with
    | none => rfl
    | some p1 =>
      obtain ⟨w1, l1⟩ := p1
      rw [h1] at f1
      simp only [] at f1 ⊢
      have f2 := fields_of_extractWord l1
      cases h2 : extractWord l1 with
      | none => rfl
      | some p2 =>
        obtain ⟨w2, l2⟩ := p2
        rw [h2] at f2
        simp only [] at f2 ⊢
        have f3 := fields_of_extractWord l2
        cases h3 : extractWord l2 with
        | none => rfl
        | some p3 =>
          obtain ⟨w3, l3⟩ := p3
          rw [h3] at f3
          simp only [] at f3
          rw [f1, f2, f3] at hf
          simp only [List.length_cons] at hf
          omega

theorem parse_request_few_fields_at (raw : Str) (n : Nat)
    (hfind : findStr crlfcrlf raw = some n)
    (hf : (fields (firstLine (raw.take n))).length < 3) :
    parse_request raw = some {} := by
  obtain ⟨pre, post, e, hl⟩ := findStr_some crlfcrlf raw n hfind
  have hlen : n + 4 ≤ raw.length := by
    rw [e]; simp [crlfcrlf, hl]
  have h1 : substr raw 0 n = some (raw.take n) := by simp [substr]
  have h2 : substrFrom raw (n + 4) = some (raw.drop (n + 4)) := by
    simp only [substrFrom]; rw [if_pos hlen]
  unfold parse_request
  simp only [hfind, h1, h2]
  by_cases hne : raw.take n = []
  · rw [hne]
    simp [readRequestLine, getline]
  · rw [readRequestLine_few_fields _ hne hf]

/-- C15, as the code has it.  For every raw request that contains `\r\n\r\n`
and whose first line (the header part up to its first line feed) has fewer
than three whitespace-separated fields, `parse_request` returns the malformed
sentinel, the empty request.  Fields after the third are not looked at. -/
theorem parse_request_few_fields (raw : Str)
    (hsep : crlfcrlf <:+: raw)
    (hf : (fields (firstLine (headerPart raw))).length < 3) :
    parse_request raw = some {} := by
  cases hfind : findStr crlfcrlf raw with
  | none => exact absurd hsep (findStr_none crlfcrlf raw hfind)
  | some n =>
    apply parse_request_few_fields_at raw n hfind
    simpa [headerPart, hfind] using hf

/-- The request `GET /` with no version has two fields on its first line. -/
theorem parse_request_few_fields_witness :
    parse_request "GET /\r\nHost: localhost\r\n\r\n".toList = some {} :=
  parse_request_few_fields "GET /\r\nHost: localhost\r\n\r\n".toList
    ⟨"GET /\r\nHost: localhost".toList, [], by decide⟩ (by decide)

/-- C15 fails as stated: the first line `GET / HTTP/1.1 extra` has four fields,
and `parse_request` returns the request with method `GET`, uri `/` and version
`HTTP/1.1`, not the sentinel. -/
theorem parse_request_fourth_field_counterexample :
    (fields (firstLine (headerPart "GET / HTTP/1.1 extra\r\n\r\n".toList))).length = 4 ∧
    parse_request "GET / HTTP/1.1 extra\r\n\r\n".toList =
      some { method := "GET".toList, uri := "/".toList, http_version := "HTTP/1.1".toList } := by
  decide

/-! ## Theorems: route extraction -/

theorem find_value_of_directiveValue (child : Option NginxConfig) (key value : Str)
    (h : directiveValue child key value) :
    ∃ block, child = some block ∧ find_value_for_key block key = some value := by
  obtain ⟨block, statement, h1, h2, h3⟩ := h
  refine ⟨block, h1, ?_⟩
  unfold selectedStatement at h2
  rw [find_value_for_key_eq, h2, h3]
  rfl

theorem extract_statement_of_route (st : NginxConfigStatement) (e : ConfigStruct)
    (h : RouteOf st e) : extract_statement st = .ok (some e) := by
  obtain ⟨uri, handler, more, htok, hslash, hu, hh, hargs⟩ := h
  obtain ⟨eu, eh, ea⟩ := e
  simp only [] at hu hh hargs
  subst hu hh
  rcases hargs with ⟨hn, v, hv, ha⟩ | ⟨hn, v, hv, ha⟩ | ⟨hn, v, hv, ha⟩ | ⟨hn, ha⟩
  · obtain ⟨block, hc, hf⟩ := find_value_of_directiveValue _ _ _ hv
    subst hn ha
    simp only [extract_statement, htok, if_true, if_neg hslash, hc, hf]
    rfl
  · obtain ⟨block, hc, hf⟩ := find_value_of_directiveValue _ _ _ hv
    subst hn ha
    simp only [extract_statement, htok, if_true, if_neg hslash, hc, hf]
    rfl
  · obtain ⟨block, hc, hf⟩ := find_value_of_directiveValue _ _ _ hv
    subst ha
    rcases hn with hn | hn | hn <;> subst hn <;>
      simp only [extract_statement, htok, if_true, if_neg hslash, hc, hf] <;> rfl
  · subst ha
    rcases hn with hn | hn | hn <;> subst hn <;>
      simp only [extract_statement, htok, if_true, if_neg hslash] <;> rfl

theorem extract_statement_not_location (st : NginxConfigStatement)
    (h : isLocation st = false) : extract_statement st = .ok none := by
  unfold extract_statement
  unfold isLocation at h
  cases ht : st.tokens_ with
  | nil => rfl
  | cons t0 rest =>
    cases rest with
    | nil => rfl
    | cons t1 more =>
      rw [ht] at h
      have hne : ¬ t0 = "location".toList := by
        intro e; simp [e] at h
      simp only [if_neg hne]

theorem extract_loop_routes (root : NginxConfig) :
    ∀ acc : List ConfigStruct,
      (∀ st ∈ root, isLocation st = true → ∃ e, RouteOf st e) →
      ∃ entries, extract_loop root acc = .ok (acc ++ entries) ∧
        List.Forall₂ RouteOf (root.filter isLocation) entries := by
  induction root with
  | nil =>
    intro acc _
    exact ⟨[], by simp [extract_loop], by simp⟩
  | cons st rest ih =>
    intro acc h
    have hrest : ∀ x ∈ rest, isLocation x = true → ∃ e, RouteOf x e :=
      fun x hx => h x (List.mem_cons_of_mem _ hx)
    cases hl : isLocation st with
    | false =>
      obtain ⟨entries, h1, h2⟩ := ih acc hrest
      refine ⟨entries, ?_, ?_⟩
      · simp only [extract_loop, extract_statement_not_location st hl]
        exact h1
      · simpa [List.filter_cons, hl] using h2
    | true =>
      obtain ⟨e, he⟩ := h st (List.mem_cons_self _ _) hl
      obtain ⟨entries, h1, h2⟩ := ih (acc ++ [e]) hrest
      refine ⟨e :: entries, ?_, ?_⟩
      · simp only [extract_loop, extract_statement_of_route st e he]
        rw [h1]; simp
      · simpa [List.filter_cons, hl] using List.Forall₂.cons he h2

/-- C14. For every root block in which each statement whose first token is
`location` is well formed (at least three tokens, a URI not ending in `/`, a
supported handler name and its required directive), `extract_handler_configs`
returns the route entries of the root-level `location` statements, one per
statement and in source order: uri the second token, handler the third, and
the arguments of the handler.  Other statements, and statements inside child
blocks, contribute no entry. -/
theorem extract_handler_configs_routes (root : NginxConfig)
    (h : ∀ st ∈ root, isLocation st = true → ∃ e, RouteOf st e) :
    ∃ entries, extract_handler_configs root = .ok entries ∧
      List.Forall₂ RouteOf (root.filter isLocation) entries := by
  obtain ⟨entries, h1, h2⟩ := extract_loop_routes root [] h
  exact ⟨entries, by simpa [extract_handler_configs] using h1, h2⟩

/-- The configuration of the interpreter test: `listen 80;`, an `/echo`
location and a `/static` location with `root ./files;` (and, inside the child
block of the latter, a `location` statement that is not a route). -/
theorem extract_handler_configs_routes_witness :
    (∃ entries,
      extract_handler_configs
        [.mk ["listen".toList, "80".toList] none,
         .mk ["location".toList, "/echo".toList, "EchoHandler".toList] (some []),
         .mk ["location".toList, "/static".toList, "StaticFileHandler".toList]
           (some [.mk ["root".toList, "./files".toList] none,
                  .mk ["location".toList, "/inner".toList, "EchoHandler".toList] none])] =
        .ok entries ∧
      List.Forall₂ RouteOf
        (List.filter isLocation
          [.mk ["listen".toList, "80".toList] none,
           .mk ["location".toList, "/echo".toList, "EchoHandler".toList] (some []),
           .mk ["location".toList, "/static".toList, "StaticFileHandler".toList]
             (some [.mk ["root".toList, "./files".toList] none,
                    .mk ["location".toList, "/inner".toList, "EchoHandler".toList] none])])
        entries) ∧
    extract_handler_configs
      [.mk ["listen".toList, "80".toList] none,
       .mk ["location".toList, "/echo".toList, "EchoHandler".toList] (some []),
       .mk ["location".toList, "/static".toList, "StaticFileHandler".toList]
         (some [.mk ["root".toList, "./files".toList] none,
                .mk ["location".toList, "/inner".toList, "EchoHandler".toList] none])] =
      .ok [{ uri := "/echo".toList, handler := "EchoHandler".toList },
           { uri := "/static".toList, handler := "StaticFileHandler".toList,
             args := [("mount_point".toList, "/static".toList),
                      ("doc_root".toList, "./files".toList)] }] :=
  ⟨extract_handler_configs_routes _ (by
      intro st hst hl
      simp only [List.mem_cons, List.mem_singleton, List.not_mem_nil, or_false] at hst
      rcases hst with e | e | e
      · subst e; exact absurd hl (by decide)
      · subst e
        exact ⟨{ uri := "/echo".toList, handler := "EchoHandler".toList },
          "/echo".toList, "EchoHandler".toList, [], rfl, by decide, rfl, rfl,
          Or.inr (Or.inr (Or.inr ⟨Or.inl rfl, rfl⟩))⟩
      · subst e
        exact ⟨{ uri := "/static".toList, handler := "StaticFileHandler".toList,
                 args := [("mount_point".toList, "/static".toList),
                          ("doc_root".toList, "./files".toList)] },
          "/static".toList, "StaticFileHandler".toList, [], rfl, by decide, rfl, rfl,
          Or.inl ⟨rfl, "./files".toList, ⟨_, _, rfl, rfl, rfl⟩, rfl⟩⟩),
   by decide⟩

/-! ## Theorems: grammar of accepted inputs -/

theorem ParseLoop_true_legal (fuel : Nat) :
    ∀ (st : ParserState) (input : Str) (c : NginxConfig),
      ParseLoop fuel st input = .returned true c →
      legalFrom st.last_token_type
        ((tokenTypes fuel input).filter (fun t => t ≠ TOKEN_TYPE_COMMENT)) := by
  induction fuel with
  | zero => intro st input c h; simp [ParseLoop] at h
  | succ fuel ih =>
    intro st input c h
    rw [ParseLoop] at h
    rw [tokenTypes]
    generalize ParseToken input = p at h ⊢
    obtain ⟨ty, tok, rest⟩ := p
    simp only [] at h ⊢
    cases ty
    case TOKEN_TYPE_START => simp at h
    case TOKEN_TYPE_ERROR => simp at h
    case TOKEN_TYPE_EOF =>
      simp only [reduceCtorEq, if_false, false_or, if_true, true_or] at h ⊢
      by_cases h1 : st.open_blocks ≠ 0
      · rw [if_pos h1] at h; simp at h
      · rw [if_neg h1] at h
        by_cases h2 : st.last_token_type ≠ TOKEN_TYPE_STATEMENT_END ∧
            st.last_token_type ≠ TOKEN_TYPE_END_BLOCK
        · rw [if_pos h2] at h; simp at h
        · have h3 : st.last_token_type = TOKEN_TYPE_STATEMENT_END ∨
              st.last_token_type = TOKEN_TYPE_END_BLOCK := by
            by_contra hc
            exact h2 ⟨fun e => hc (Or.inl e), fun e => hc (Or.inr e)⟩
          simp [legalFrom, h3]
    case TOKEN_TYPE_COMMENT =>
      simp only [reduceCtorEq, if_false, if_true, false_or] at h ⊢
      have := ih st rest c h
      simpa using this
    case TOKEN_TYPE_STATEMENT_END =>
      simp only [reduceCtorEq, if_false, false_or, if_true] at h ⊢
      by_cases h1 : st.last_token_type ≠ TOKEN_TYPE_NORMAL ∧
          st.last_token_type ≠ TOKEN_TYPE_QUOTED_STRING
      · rw [if_pos h1] at h; simp at h
      · rw [if_neg h1] at h
        have h3 : st.last_token_type = TOKEN_TYPE_NORMAL ∨
            st.last_token_type = TOKEN_TYPE_QUOTED_STRING := by
          by_contra hc
          exact h1 ⟨fun e => hc (Or.inl e), fun e => hc (Or.inr e)⟩
        have := ih _ rest c h
        simp only [List.filter_cons, ne_eq, reduceCtorEq, not_false_eq_true, decide_True, if_true]
        simp only [legalFrom, reduceCtorEq, if_false, true_or, forall_const]
        exact ⟨h3, this⟩
    case TOKEN_TYPE_START_BLOCK =>
      simp only [reduceCtorEq, if_false, false_or, if_true] at h ⊢
      by_cases h1 : st.last_token_type ≠ TOKEN_TYPE_NORMAL ∧
          st.last_token_type ≠ TOKEN_TYPE_QUOTED_STRING
      · rw [if_pos h1] at h; simp at h
      · rw [if_neg h1] at h
        have h3 : st.last_token_type = TOKEN_TYPE_NORMAL ∨
            st.last_token_type = TOKEN_TYPE_QUOTED_STRING := by
          by_contra hc
          exact h1 ⟨fun e => hc (Or.inl e), fun e => hc (Or.inr e)⟩
        simp only [List.filter_cons, ne_eq, reduceCtorEq, not_false_eq_true, decide_True, if_true]
        simp only [legalFrom, reduceCtorEq, if_false, or_true, forall_const]
        refine ⟨h3, ?_⟩
        cases hs : st.config_stack with
        | nil => rw [hs] at h; simp at h
        | cons top below =>
          rw [hs] at h
          simp only [] at h
          cases hc : setChild top [] with
          | none => rw [hc] at h; simp at h
          | some top2 =>
            rw [hc] at h
            exact ih _ rest c h
    case TOKEN_TYPE_END_BLOCK =>
      simp only [reduceCtorEq, if_false, false_or, if_true] at h ⊢
      by_cases h1 : st.last_token_type ≠ TOKEN_TYPE_STATEMENT_END ∧
          st.last_token_type ≠ TOKEN_TYPE_END_BLOCK ∧
          st.last_token_type ≠ TOKEN_TYPE_COMMENT ∧
          st.last_token_type ≠ TOKEN_TYPE_START_BLOCK
      · rw [if_pos h1] at h; simp at h
      · rw [if_neg h1] at h
        simp only [List.filter_cons, ne_eq, reduceCtorEq, not_false_eq_true, decide_True, if_true]
        simp only [legalFrom, reduceCtorEq, if_false, or_self, false_implies, true_and]
        cases hs : st.config_stack with
        | nil => rw [hs] at h; simp at h
        | cons child below =>
          rw [hs] at h
          cases below with
          | nil => exact ih _ rest c h
          | cons parent below2 =>
            simp only [] at h
            cases hc : setChild parent child with
            | none => rw [hc] at h; simp at h
            | some parent2 =>
              rw [hc] at h
              exact ih _ rest c h
    case TOKEN_TYPE_NORMAL =>
      simp only [reduceCtorEq, if_false, false_or, if_true, true_or] at h ⊢
      simp only [List.filter_cons, ne_eq, reduceCtorEq, not_false_eq_true, decide_True, if_true]
      simp only [legalFrom, reduceCtorEq, if_false, or_self, false_implies, true_and]
      by_cases h1 : st.last_token_type = TOKEN_TYPE_START ∨
          st.last_token_type = TOKEN_TYPE_STATEMENT_END ∨
          st.last_token_type = TOKEN_TYPE_START_BLOCK ∨
          st.last_token_type = TOKEN_TYPE_END_BLOCK ∨
          st.last_token_type = TOKEN_TYPE_NORMAL ∨
          st.last_token_type = TOKEN_TYPE_QUOTED_STRING
      · rw [if_pos h1] at h
        cases hs : st.config_stack with
        | nil => rw [hs] at h; simp at h
        | cons top below =>
          rw [hs] at h
          simp only [] at h
          generalize hpt : pushToken _ tok = pt at h
          cases pt with
          | none => simp at h
          | some top2 => exact ih _ rest c h
      · rw [if_neg h1] at h; simp at h
    case TOKEN_TYPE_QUOTED_STRING =>
      simp only [reduceCtorEq, if_false, false_or, if_true, or_true] at h ⊢
      simp only [List.filter_cons, ne_eq, reduceCtorEq, not_false_eq_true, decide_True, if_true]
      simp only [legalFrom, reduceCtorEq, if_false, or_self, false_implies, true_and]
      by_cases h1 : st.last_token_type = TOKEN_TYPE_START ∨
          st.last_token_type = TOKEN_TYPE_STATEMENT_END ∨
          st.last_token_type = TOKEN_TYPE_START_BLOCK ∨
          st.last_token_type = TOKEN_TYPE_END_BLOCK ∨
          st.last_token_type = TOKEN_TYPE_NORMAL ∨
          st.last_token_type = TOKEN_TYPE_QUOTED_STRING
      · rw [if_pos h1] at h
        cases hs : st.config_stack with
        | nil => rw [hs] at h; simp at h
        | cons top below =>
          rw [hs] at h
          simp only [] at h
          generalize hpt : pushToken _ tok = pt at h
          cases pt with
          | none => simp at h
          | some top2 => exact ih _ rest c h
      · rw [if_neg h1] at h; simp at h

theorem legalFrom_separator (toks : List TokenType) :
    ∀ (prev : TokenType) (pre : List TokenType) (t : TokenType) (post : List TokenType),
      legalFrom prev toks → toks = pre ++ t :: post →
      (t = TOKEN_TYPE_STATEMENT_END ∨ t = TOKEN_TYPE_START_BLOCK) →
      (pre = [] ∧ (prev = TOKEN_TYPE_NORMAL ∨ prev = TOKEN_TYPE_QUOTED_STRING)) ∨
      ∃ pre2 p, pre = pre2 ++ [p] ∧
        (p = TOKEN_TYPE_NORMAL ∨ p = TOKEN_TYPE_QUOTED_STRING) := by
  induction toks with
  | nil =>
    intro prev pre t post _ he _
    cases pre <;> simp at he
  | cons x xs ih =>
    intro prev pre t post hl he ht
    cases pre with
    | nil =>
      simp only [List.nil_append, List.cons.injEq] at he
      obtain ⟨e1, _⟩ := he
      subst e1
      have hne : ¬ x = TOKEN_TYPE_EOF := by
        rcases ht with h | h <;> rw [h] <;> decide
      simp only [legalFrom, if_neg hne] at hl
      exact Or.inl ⟨rfl, hl.1 ht⟩
    | cons y pre2 =>
      simp only [List.cons_append, List.cons.injEq] at he
      obtain ⟨e1, e2⟩ := he
      subst e1
      by_cases hx : x = TOKEN_TYPE_EOF
      · simp only [legalFrom, if_pos hx] at hl
        rw [hl.1] at e2
        cases pre2 <;> simp at e2
      · simp only [legalFrom, if_neg hx] at hl
        rcases ih x pre2 t post hl.2 e2 ht with ⟨h1, h2⟩ | ⟨pre3, p, h1, h2⟩
        · exact Or.inr ⟨[], x, by simp [h1], h2⟩
        · exact Or.inr ⟨x :: pre3, p, by simp [h1], h2⟩

theorem legalFrom_end (toks : List TokenType) :
    ∀ prev : TokenType, legalFrom prev toks →
      (toks = [TOKEN_TYPE_EOF] ∧
        (prev = TOKEN_TYPE_STATEMENT_END ∨ prev = TOKEN_TYPE_END_BLOCK)) ∨
      ∃ pre2 p, toks = pre2 ++ [p, TOKEN_TYPE_EOF] ∧
        (p = TOKEN_TYPE_STATEMENT_END ∨ p = TOKEN_TYPE_END_BLOCK) := by
  induction toks with
  | nil => intro prev hl; simp [legalFrom] at hl
  | cons x xs ih =>
    intro prev hl
    by_cases hx : x = TOKEN_TYPE_EOF
    · simp only [legalFrom, if_pos hx] at hl
      exact Or.inl ⟨by rw [hx, hl.1], hl.2⟩
    · simp only [legalFrom, if_neg hx] at hl
      rcases ih x hl.2 with ⟨h1, h2⟩ | ⟨pre2, p, h1, h2⟩
      · exact Or.inr ⟨[], x, by simp [h1], h2⟩
      · exact Or.inr ⟨x :: pre2, p, by simp [h1], h2⟩

theorem ParseLoop_no_tokens (fuel : Nat) :
    ∀ (st : ParserState) (input : Str), st.last_token_type = TOKEN_TYPE_START →
      (tokenTypes fuel input).filter (fun t => t ≠ TOKEN_TYPE_COMMENT) = [TOKEN_TYPE_EOF] →
      (ParseLoop fuel st input).success = some false := by
  induction fuel with
  | zero => intro st input _ h; simp [tokenTypes] at h
  | succ fuel ih =>
    intro st input hst h
    rw [tokenTypes] at h
    rw [ParseLoop]
    generalize ParseToken input = p at h ⊢
    obtain ⟨ty, tok, rest⟩ := p
    simp only [] at h ⊢
    cases ty
    case TOKEN_TYPE_EOF =>
      simp only [reduceCtorEq, if_false, false_or, if_true, true_or, hst]
      by_cases h1 : st.open_blocks ≠ 0
      · rw [if_pos h1]; rfl
      · rw [if_neg h1]; simp [ParseOutcome.success]
    case TOKEN_TYPE_COMMENT =>
      simp only [reduceCtorEq, if_false, if_true, false_or] at h ⊢
      exact ih st rest hst (by simpa using h)
    all_goals simp at h

/-- The grammar of the token sequence.  For every input on which `Parse`
returns true, in the sequence of the tokens that `ParseToken` returns on the
input (comments left out) every `;` token and every `{` token comes directly
after a word or quoted-string token, and the sequence ends with the
end-of-stream token directly after a `;` or a `}` token.  An input whose token
sequence is the end-of-stream token alone makes `Parse` return false.  A word
that the end of the stream cuts off is no token of this sequence. -/
theorem parse_true_grammar (input : Str) :
    ((Parse input).success = some true →
      (∀ pre t post, significantTokens input = pre ++ t :: post →
        (t = TOKEN_TYPE_STATEMENT_END ∨ t = TOKEN_TYPE_START_BLOCK) →
        ∃ pre2 p, pre = pre2 ++ [p] ∧
          (p = TOKEN_TYPE_NORMAL ∨ p = TOKEN_TYPE_QUOTED_STRING)) ∧
      (∃ pre2 p, significantTokens input = pre2 ++ [p, TOKEN_TYPE_EOF] ∧
        (p = TOKEN_TYPE_STATEMENT_END ∨ p = TOKEN_TYPE_END_BLOCK))) ∧
    (significantTokens input = [TOKEN_TYPE_EOF] → (Parse input).success = some false) := by
  constructor
  · intro h
    have hc : ∃ c, Parse input = .returned true c := by
      cases hp : Parse input with
      | returned b c =>
        rw [hp] at h
        simp only [ParseOutcome.success, Option.some.injEq] at h
        exact ⟨c, by rw [h]⟩
      | undefinedBehaviour => rw [hp] at h; simp [ParseOutcome.success] at h
      | fuelExhausted => rw [hp] at h; simp [ParseOutcome.success] at h
    obtain ⟨c, hc⟩ := hc
    have hl : legalFrom TOKEN_TYPE_START (significantTokens input) :=
      ParseLoop_true_legal _ ParserState.initial input c hc
    constructor
    · intro pre t post he ht
      rcases legalFrom_separator _ _ pre t post hl he ht with ⟨_, h2⟩ | h2
      · rcases h2 with h2 | h2 <;> simp at h2
      · exact h2
    · rcases legalFrom_end _ _ hl with ⟨_, h2⟩ | h2
      · rcases h2 with h2 | h2 <;> simp at h2
      · exact h2
  · intro h
    exact ParseLoop_no_tokens _ ParserState.initial input rfl h

/-- The input `listen 80;` is accepted, and its tokens are word, word, `;`,
end of stream; an input that holds a comment only is rejected. -/
theorem parse_true_grammar_witness :
    ((∀ pre t post, significantTokens "listen 80;\n".toList = pre ++ t :: post →
        (t = TOKEN_TYPE_STATEMENT_END ∨ t = TOKEN_TYPE_START_BLOCK) →
        ∃ pre2 p, pre = pre2 ++ [p] ∧
          (p = TOKEN_TYPE_NORMAL ∨ p = TOKEN_TYPE_QUOTED_STRING)) ∧
      (∃ pre2 p, significantTokens "listen 80;\n".toList = pre2 ++ [p, TOKEN_TYPE_EOF] ∧
        (p = TOKEN_TYPE_STATEMENT_END ∨ p = TOKEN_TYPE_END_BLOCK))) ∧
    significantTokens "listen 80;\n".toList =
      [TOKEN_TYPE_NORMAL, TOKEN_TYPE_NORMAL, TOKEN_TYPE_STATEMENT_END, TOKEN_TYPE_EOF] ∧
    (Parse " # only a comment\n".toList).success = some false :=
  ⟨(parse_true_grammar "listen 80;\n".toList).1 (by decide), by decide,
   (parse_true_grammar " # only a comment\n".toList).2 (by decide)⟩

/-! ## Theorems: configuration errors of route extraction -/

theorem find_value_for_key_unselected (block : NginxConfig) (key : Str)
    (h : selectedStatement block key = none) : find_value_for_key block key = none := by
  unfold selectedStatement at h
  rw [find_value_for_key_eq, h]
  rfl

theorem extract_loop_error (pre post : NginxConfig) (st : NginxConfigStatement)
    (e : ConfigError) (hpre : ∀ t ∈ pre, ∃ r, extract_statement t = .ok r)
    (hst : extract_statement st = .error e) :
    ∀ acc, extract_loop (pre ++ st :: post) acc = .error e := by
  induction pre with
  | nil =>
    intro acc
    simp only [List.nil_append, extract_loop, hst]
  | cons t rest ih =>
    intro acc
    obtain ⟨r, hr⟩ := hpre t (by simp)
    have ih2 := ih (fun x hx => hpre x (by simp [hx]))
    cases r with
    | none =>
      simp only [List.cons_append, extract_loop, hr]
      exact ih2 acc
    | some c =>
      simp only [List.cons_append, extract_loop, hr]
      exact ih2 (acc ++ [c])

/-- The configuration errors that `extract_handler_configs` does raise for a
root-level `location <uri> <handler>` statement whose URI does not end in `/`
and before which every statement passes: an unsupported handler name; a child
block without the required directive, for each of the five handlers that
require one; and a missing child block for `StaticFileHandler`, `CrudHandler`
and `CreateQuizHandler`. -/
theorem extract_configuration_errors (pre post : NginxConfig) (st : NginxConfigStatement)
    (uri handler : Str) (more : List Str)
    (hpre : ∀ t ∈ pre, ∃ r, extract_statement t = .ok r)
    (htok : st.tokens_ = "location".toList :: uri :: handler :: more)
    (hslash : uri.getLast? ≠ some '/') :
    ((handler ∉ ["StaticFileHandler".toList, "EchoHandler".toList, "CrudHandler".toList,
        "HealthHandler".toList, "SleepHandler".toList, "QuizHandler".toList,
        "ResultHandler".toList, "CreateQuizHandler".toList]) →
      extract_handler_configs (pre ++ st :: post) = .error (.handlerNotSupported handler)) ∧
    (∀ block, st.child_block_ = some block →
      (handler = "StaticFileHandler".toList → selectedStatement block "root".toList = none →
        extract_handler_configs (pre ++ st :: post) =
          .error (.noValidDirective "root".toList)) ∧
      (handler = "CrudHandler".toList → selectedStatement block "data_path".toList = none →
        extract_handler_configs (pre ++ st :: post) =
          .error (.noValidDirective "data_path".toList)) ∧
      ((handler = "QuizHandler".toList ∨ handler = "ResultHandler".toList ∨
          handler = "CreateQuizHandler".toList) →
        selectedStatement block "quiz_root".toList = none →
        extract_handler_configs (pre ++ st :: post) =
          .error (.noValidDirective "quiz_root".toList))) ∧
    (st.child_block_ = none →
      (handler = "StaticFileHandler".toList →
        extract_handler_configs (pre ++ st :: post) = .error .staticFileHandlerMisconfigured) ∧
      (handler = "CrudHandler".toList →
        extract_handler_configs (pre ++ st :: post) = .error .crudHandlerNeedsChildBlock) ∧
      (handler = "CreateQuizHandler".toList →
        extract_handler_configs (pre ++ st :: post) =
          .error .createQuizHandlerNeedsChildBlock)) := by
  have lift : ∀ e, extract_statement st = .error e →
      extract_handler_configs (pre ++ st :: post) = .error e :=
    fun e he => extract_loop_error pre post st e hpre he []
  refine ⟨?_, ?_, ?_⟩
  · intro hn
    apply lift
    simp only [List.mem_cons, List.mem_singleton, List.not_mem_nil, or_false, not_or] at hn
    obtain ⟨h1, h2, h3, h4, h5, h6, h7, h8⟩ := hn
    simp only [extract_statement, htok, if_true, if_neg hslash, if_neg h1, if_neg h2,
      if_neg h3, if_neg h4, if_neg h5, if_neg h6, if_neg h7, if_neg h8]
  · intro block hc
    refine ⟨?_, ?_, ?_⟩
    · intro hn hsel
      apply lift
      subst hn
      simp only [extract_statement, htok, if_true, if_neg hslash, hc,
        find_value_for_key_unselected _ _ hsel]
    · intro hn hsel
      apply lift
      subst hn
      simp only [extract_statement, htok, if_true, if_neg hslash, hc,
        find_value_for_key_unselected _ _ hsel]
      rfl
    · intro hn hsel
      apply lift
      rcases hn with hn | hn | hn <;> subst hn <;>
        simp only [extract_statement, htok, if_true, if_neg hslash, hc,
          find_value_for_key_unselected _ _ hsel] <;> rfl
  · intro hc
    refine ⟨?_, ?_, ?_⟩
    · intro hn
      apply lift
      subst hn
      simp only [extract_statement, htok, if_true, if_neg hslash, hc]
    · intro hn
      apply lift
      subst hn
      simp only [extract_statement, htok, if_true, if_neg hslash, hc]
      rfl
    · intro hn
      apply lift
      subst hn
      simp only [extract_statement, htok, if_true, if_neg hslash, hc]
      rfl

/-! ## Theorems: session engine -/

theorem findStr_of_infix (pat s : Str) (h : pat <:+: s) : ∃ n, findStr pat s = some n := by
  cases hf : findStr pat s with
  | none => exact absurd h (findStr_none pat s hf)
  | some n => exact ⟨n, rfl⟩

theorem findStr_of_not_infix (pat s : Str) (h : ¬ pat <:+: s) : findStr pat s = none := by
  cases hf : findStr pat s with
  | none => rfl
  | some n =>
    obtain ⟨pre, post, e, _⟩ := findStr_some pat s n hf
    exact absurd ⟨pre, post, e.symm⟩ h

/-- C25. One call of `session::handle_read` without read error, on the buffer
accumulated so far and the bytes received: when the buffer with the bytes
appended does not contain `\r\n\r\n`, the call keeps the appended buffer and
issues another read.  It neither parses nor dispatches nor writes: the outcome
is the same for every routing trie and every handler registry. -/
theorem handle_read_incomplete ( trie_root_ : TrieNode ConfigStruct)
    (factory_ : RequestHandlerFactory) (request_buffer_ data : Str)
    (h : ¬ crlfcrlf <:+: request_buffer_ ++ data) :
    handle_read trie_root_ factory_ request_buffer_ false data =
      .awaiting (request_buffer_ ++ data) := by
  simp [handle_read, findStr_of_not_infix _ _ h]

/-- A request head received in two pieces, the terminator still missing: the
session keeps the seventeen plus eight bytes and reads on. -/
theorem handle_read_incomplete_witness :
    handle_read TrieNode.empty ⟨[]⟩ "GET / HT".toList false "TP/1.1\r\nHost: a\r\n".toList =
      .awaiting "GET / HTTP/1.1\r\nHost: a\r\n".toList :=
  handle_read_incomplete TrieNode.empty ⟨[]⟩ "GET / HT".toList "TP/1.1\r\nHost: a\r\n".toList
    (by decide)

/-- C26. When the accumulated buffer contains `\r\n\r\n` and `parse_request`
returns a request with an empty method (the malformed sentinel),
`session::handle_read` writes exactly the serialization of the response with
version `HTTP/1.1`, status 400, reason `Bad Request`, body `Bad Request` and the
headers `Connection: close`, `Content-Length: 11`, `Content-Type: text/plain`;
the routing trie and the handler registry are not consulted: the outcome is the
one obtained with an empty trie and an empty registry. -/
theorem handle_read_malformed ( trie_root_ : TrieNode ConfigStruct)
    (factory_ : RequestHandlerFactory) (request_buffer_ data : Str) (req : request)
    (hsep : crlfcrlf <:+: request_buffer_ ++ data)
    (hreq : parse_request (request_buffer_ ++ data) = some req) (hm : req.method = []) :
    handle_read trie_root_ factory_ request_buffer_ false data =
      .wrote (serialize_response
        { http_version := "HTTP/1.1".toList, status_code := 400,
          reason_phrase := "Bad Request".toList,
          headers := [("Connection".toList, "close".toList),
            ("Content-Length".toList, "11".toList),
            ("Content-Type".toList, "text/plain".toList)],
          body := "Bad Request".toList }) ∧
    handle_read trie_root_ factory_ request_buffer_ false data =
      handle_read TrieNode.empty ⟨[]⟩ request_buffer_ false data := by
  obtain ⟨n, hn⟩ := findStr_of_infix _ _ hsep
  have e : handle_read trie_root_ factory_ request_buffer_ false data =
      .wrote (serialize_response badRequestResponse) := by
    simp [handle_read, hn, hreq, hm]
  have e2 : handle_read TrieNode.empty ⟨[]⟩ request_buffer_ false data =
      .wrote (serialize_response badRequestResponse) := by
    simp [handle_read, hn, hreq, hm]
  refine ⟨?_, by rw [e, e2]⟩
  rw [e]
  decide

/-- The request line `get / HTTP/1.1` has a lower-case method: the bytes of the
400 response are written, with an empty trie and an empty registry. -/
theorem handle_read_malformed_witness :
    handle_read TrieNode.empty ⟨[]⟩ "get / HTTP/1.1\r\n".toList false "\r\n".toList =
      .wrote ("HTTP/1.1 400 Bad Request\r\nConnection: close\r\nContent-Length: 11\r\n" ++
        "Content-Type: text/plain\r\n\r\nBad Request").toList :=
  (handle_read_malformed TrieNode.empty ⟨[]⟩ "get / HTTP/1.1\r\n".toList "\r\n".toList {}
    (by decide) (by decide) rfl).1.trans (by decide)

/-- C27. When the accumulated buffer parses to a request with a non-empty
method whose URI has no match in the routing trie, and `NotFoundHandler::create`
is registered under the name `NotFoundHandler`, `session::handle_read` writes
the serialization of the response with status 404, reason `Not Found` and body
`404 Not Found` (version `HTTP/1.1`, headers `Connection: close`,
`Content-Length: 13`, `Content-Type: text/plain`). -/
theorem handle_read_not_found ( trie_root_ : TrieNode ConfigStruct)
    (factory_ : RequestHandlerFactory) (request_buffer_ data : Str) (req : request)
    (hreq : parse_request (request_buffer_ ++ data) = some req) (hm : req.method ≠ [])
    (hfind : TrieNode.find trie_root_ req.uri = none)
    (hreg : RequestHandlerFactory.lookup factory_.factory_map_ "NotFoundHandler".toList =
      some NotFoundHandler.create) :
    handle_read trie_root_ factory_ request_buffer_ false data =
      .wrote (serialize_response
        { http_version := "HTTP/1.1".toList, status_code := 404,
          reason_phrase := "Not Found".toList,
          headers := [("Connection".toList, "close".toList),
            ("Content-Length".toList, "13".toList),
            ("Content-Type".toList, "text/plain".toList)],
          body := "404 Not Found".toList }) := by
  cases hf : findStr crlfcrlf (request_buffer_ ++ data) with
  | none =>
    simp only [parse_request, hf, Option.some.injEq] at hreq
    subst hreq
    exact absurd rfl hm
  | some n =>
    simp only [handle_read, hf, hreq, hm, hfind, RequestHandlerFactory.create_handler, hreg,
      NotFoundHandler.create, NotFoundHandler.handle_request, writeResponse]
    simp only [Bool.false_eq_true, if_false]
    rfl

/-- With only `/echo` routed, the request for `/unknown` is answered by the
not-found handler: the bytes of the 404 response are written. -/
theorem handle_read_not_found_witness :
    handle_read (TrieNode.build [("/echo".toList, { uri := "/echo".toList })])
        ⟨[("NotFoundHandler".toList, NotFoundHandler.create)]⟩
        [] false "GET /unknown HTTP/1.1\r\nHost: localhost\r\n\r\n".toList =
      .wrote ("HTTP/1.1 404 Not Found\r\nConnection: close\r\nContent-Length: 13\r\n" ++
        "Content-Type: text/plain\r\n\r\n404 Not Found").toList :=
  (handle_read_not_found (TrieNode.build [("/echo".toList, { uri := "/echo".toList })])
    ⟨[("NotFoundHandler".toList, NotFoundHandler.create)]⟩
    [] "GET /unknown HTTP/1.1\r\nHost: localhost\r\n\r\n".toList
    { method := "GET".toList, uri := "/unknown".toList, http_version := "HTTP/1.1".toList,
      headers := [("Host".toList, "localhost".toList)], body := [] }
    (by decide) (by decide) (by decide) rfl).trans (by decide)

/-- C28. Whatever `session::handle_read` writes is the serialization of a
response `res` with the header `Connection` set to `close`: the header map of
the written response binds `Connection` to `close` and every other key as
`res` does, and version, status, reason and body are those of `res`.  Here
`res` is the synthesized 400 response, or the response that the handler
returned for the parsed request, the handler being the one the registry
created for the matched route, or for `NotFoundHandler` when no route
matches. -/
theorem handle_read_forces_connection_close ( trie_root_ : TrieNode ConfigStruct)
    (factory_ : RequestHandlerFactory) (request_buffer_ data out : Str) (error : Bool)
    (h : handle_read trie_root_ factory_ request_buffer_ error data = .wrote out) :
    ∃ res : response,
      out = serialize_response
        { res with headers := mapSet res.headers "Connection".toList "close".toList } ∧
      mapGet (mapSet res.headers "Connection".toList "close".toList) "Connection".toList =
        some "close".toList ∧
      (∀ key, key ≠ "Connection".toList →
        mapGet (mapSet res.headers "Connection".toList "close".toList) key =
          mapGet res.headers key) ∧
      (res = { http_version := "HTTP/1.1".toList, status_code := 400,
               reason_phrase := "Bad Request".toList,
               headers := [("Content-Length".toList, "11".toList),
                 ("Content-Type".toList, "text/plain".toList)],
               body := "Bad Request".toList } ∨
        ∃ (req : request) (handler : RequestHandler),
          parse_request (request_buffer_ ++ data) = some req ∧
          handler.handle_request req = .ok (some res) ∧
          ((∃ handler_config, TrieNode.find trie_root_ req.uri = some handler_config ∧
              factory_.create_handler handler_config.handler handler_config.args =
                .ok (some handler)) ∨
            (TrieNode.find trie_root_ req.uri = none ∧
              factory_.create_handler "NotFoundHandler".toList [] = .ok (some handler)))) := by
  have hget : ∀ m : StdMap,
      mapGet (mapSet m "Connection".toList "close".toList) "Connection".toList =
        some "close".toList ∧
      (∀ key, key ≠ "Connection".toList →
        mapGet (mapSet m "Connection".toList "close".toList) key = mapGet m key) := by
    intro m
    refine ⟨by rw [mapGet_mapSet]; simp, ?_⟩
    intro key hk
    rw [mapGet_mapSet, if_neg (fun e => hk e.symm)]
  have hw : ∀ (r : Option response), writeResponse r = .wrote out →
      ∃ res, r = some res ∧ out = serialize_response
        { res with headers := mapSet res.headers "Connection".toList "close".toList } := by
    intro r hr
    cases r with
    | none => simp [writeResponse] at hr
    | some res =>
      simp only [writeResponse, ReadOutcome.wrote.injEq] at hr
      exact ⟨res, rfl, hr.symm⟩
  unfold handle_read at h
  cases error with
  | true => simp at h
  | false =>
    simp only [Bool.false_eq_true, if_false] at h
    cases hf : findStr crlfcrlf (request_buffer_ ++ data) with
    | none => rw [hf] at h; simp at h
    | some n =>
      rw [hf] at h
      simp only [] at h
      cases hp : parse_request (request_buffer_ ++ data) with
      | none => rw [hp] at h; simp at h
      | some req =>
        rw [hp] at h
        simp only [] at h
        by_cases hm : req.method = []
        · rw [if_pos hm] at h
          simp only [ReadOutcome.wrote.injEq] at h
          refine ⟨_, ?_, (hget _).1, (hget _).2, Or.inl rfl⟩
          rw [← h]
          rfl
        · rw [if_neg hm] at h
          cases hfind : TrieNode.find trie_root_ req.uri with
          | some handler_config =>
            rw [hfind] at h
            simp only [] at h
            cases hc : factory_.create_handler handler_config.handler handler_config.args with
            | error e => rw [hc] at h; simp [writeResponse] at h
            | ok oh =>
              rw [hc] at h
              cases oh with
              | none => simp at h
              | some handler =>
                simp only [] at h
                cases hh : handler.handle_request req with
                | error e => rw [hh] at h; simp [writeResponse] at h
                | ok r =>
                  rw [hh] at h
                  obtain ⟨res, e1, e2⟩ := hw r h
                  subst e1
                  exact ⟨res, e2, (hget _).1, (hget _).2,
                    Or.inr ⟨req, handler, rfl, hh, Or.inl ⟨handler_config, hfind, hc⟩⟩⟩
          | none =>
            rw [hfind] at h
            simp only [] at h
            cases hc : factory_.create_handler "NotFoundHandler".toList [] with
            | error e => rw [hc] at h; simp at h
            | ok oh =>
              rw [hc] at h
              cases oh with
              | none => simp at h
              | some handler =>
                simp only [] at h
                cases hh : handler.handle_request req with
                | error e => rw [hh] at h; simp at h
                | ok r =>
                  rw [hh] at h
                  obtain ⟨res, e1, e2⟩ := hw r h
                  subst e1
                  exact ⟨res, e2, (hget _).1, (hget _).2,
                    Or.inr ⟨req, handler, rfl, hh, Or.inr ⟨hfind, rfl⟩⟩⟩

/-- A handler that answers with `Connection: keep-alive`: the bytes written
carry `Connection: close`. -/
theorem handle_read_forces_connection_close_witness :
    ∃ res : response,
      "HTTP/1.1 200 OK\r\nConnection: close\r\nContent-Type: text/plain\r\n\r\nhi".toList =
        serialize_response
          { res with headers := mapSet res.headers "Connection".toList "close".toList } :=
  (handle_read_forces_connection_close
    (TrieNode.build [("/echo".toList, { uri := "/echo".toList, handler := "EchoHandler".toList })])
    ⟨[("EchoHandler".toList, fun _ => .ok (some ⟨fun _ => .ok (some
        { http_version := "HTTP/1.1".toList, status_code := 200, reason_phrase := "OK".toList,
          headers := [("Connection".toList, "keep-alive".toList),
            ("Content-Type".toList, "text/plain".toList)],
          body := "hi".toList })⟩))]⟩
    [] "GET /echo HTTP/1.1\r\n\r\n".toList
    "HTTP/1.1 200 OK\r\nConnection: close\r\nContent-Type: text/plain\r\n\r\nhi".toList
    false (by decide)).imp fun _ h => h.1

/-! ## Theorems: trie round trip and root entry -/

theorem stripQuery_no_query (q : Str) (hq : '?' ∉ q) : TrieNode.stripQuery q = q := by
  unfold TrieNode.stripQuery
  rw [findChar_take]
  apply List.takeWhile_eq_self_iff.mpr
  intro c hc
  have : c ≠ '?' := fun e => hq (e ▸ hc)
  simpa using this

theorem find_eq_bestMatch_cfgAt {α : Type} (t : TrieNode α) (u : Str) :
    t.find u = bestMatch (fun L => cfgAt L t) (segs (TrieNode.stripQuery u)) := by
  unfold TrieNode.find
  rw [findTokens_eq_bestMatch, ← segs_eq_getlineTokens]
  cases bestMatch (fun L => cfgAt L t) (segs (TrieNode.stripQuery u)) <;> rfl

theorem bestMatch_congr {α : Type} (sg : List Str) :
    ∀ (M N : List Str → Option α), (∀ L, L ≠ [] → M L = N L) →
      bestMatch M sg = bestMatch N sg := by
  induction sg with
  | nil => intro M N _; rfl
  | cons s r ih =>
    intro M N h
    simp only [bestMatch]
    rw [ih (fun L => M (s :: L)) (fun L => N (s :: L)) (fun L _ => h (s :: L) (by simp)),
      h [s] (by simp)]

/-- C29. Insert then find is a round trip: for every trie `t`, every prefix
`p` with at least one non-empty segment and without `?`, and every entry `e`,
`find(p)` on the trie obtained from `t` by `insert(p, e)` returns `e`; so does
`find(q)` for every `q` without `?` that has the segments of `p`, such as `p`
written with an extra leading, doubled or trailing `/`. -/
theorem insert_find_round_trip {α : Type} (t : TrieNode α) (p q : Str) (e : α)
    (hseg : segs p ≠ []) (hp : '?' ∉ p) (hq : '?' ∉ q) (hpq : segs q = segs p) :
    (t.insert p (some e)).find p = some e ∧ (t.insert p (some e)).find q = some e := by
  have key : ∀ r : Str, '?' ∉ r → segs r = segs p → (t.insert p (some e)).find r = some e := by
    intro r hr hrp
    rw [find_eq_bestMatch_cfgAt, stripQuery_no_query r hr, hrp, bestMatch_eq_some]
    refine ⟨segs p, hseg, List.prefix_refl _, ?_, ?_⟩
    · unfold TrieNode.insert
      rw [cfgAt_insertTokens, ← segs_eq_getlineTokens, if_pos rfl]
    · intro L2 hL2 hlt
      have := hL2.length_le
      omega
  exact ⟨key p hp rfl, key q hq hpq⟩

/-- The prefix `/api/v1` inserted into a trie that holds `/api` and `/api/v1/x`
is found under `/api/v1` and under `//api///v1/`. -/
theorem insert_find_round_trip_witness :
    ((TrieNode.build [("/api".toList, 1), ("/api/v1/x".toList, 2)]).insert
        "/api/v1".toList (some 7)).find "/api/v1".toList = some 7 ∧
    ((TrieNode.build [("/api".toList, 1), ("/api/v1/x".toList, 2)]).insert
        "/api/v1".toList (some 7)).find "//api///v1/".toList = some 7 :=
  insert_find_round_trip (TrieNode.build [("/api".toList, 1), ("/api/v1/x".toList, 2)])
    "/api/v1".toList "//api///v1/".toList 7 (by decide) (by decide) (by decide) (by decide)

/-- C30. An entry inserted with a prefix that has no segment (such as `/` or
the empty string) is stored in the root node, and `TrieNode::find` never
reports it: `find` only remembers entries of the nodes it descends into, so on
the trie after the insert it returns, for every request URI, what it returns
on the trie before the insert. -/
theorem insert_root_never_found {α : Type} (t : TrieNode α) (p : Str) (e : Option α)
    (hseg : segs p = []) :
    (t.insert p e).config = e ∧
    ∀ u : Str, (t.insert p e).find u = t.find u := by
  have hc : ∀ L, cfgAt L (t.insert p e) = if L = [] then e else cfgAt L t := by
    intro L
    unfold TrieNode.insert
    rw [cfgAt_insertTokens, ← segs_eq_getlineTokens, hseg]
  constructor
  · have := hc []
    simpa [cfgAt] using this
  · intro u
    rw [find_eq_bestMatch_cfgAt, find_eq_bestMatch_cfgAt]
    apply bestMatch_congr
    intro L hL
    show cfgAt L (t.insert p e) = cfgAt L t
    rw [hc L, if_neg hL]

/-- The entry 9 inserted with the prefix `/` sits in the root node, yet
`/other/x` finds nothing and `/static/x` finds the `/static` entry. -/
theorem insert_root_never_found_witness :
    ((TrieNode.build [("/static".toList, 1)]).insert "/".toList (some 9)).config = some 9 ∧
    ((TrieNode.build [("/static".toList, 1)]).insert "/".toList (some 9)).find
      "/other/x".toList = none ∧
    ((TrieNode.build [("/static".toList, 1)]).insert "/".toList (some 9)).find
      "/static/x".toList = some 1 :=
  ⟨(insert_root_never_found (TrieNode.build [("/static".toList, 1)]) "/".toList (some 9)
      (by decide)).1,
    ((insert_root_never_found (TrieNode.build [("/static".toList, 1)]) "/".toList (some 9)
      (by decide)).2 "/other/x".toList).trans (by decide),
    ((insert_root_never_found (TrieNode.build [("/static".toList, 1)]) "/".toList (some 9)
      (by decide)).2 "/static/x".toList).trans (by decide)⟩

/-- The root node holds the entry 9, inserted with `/` or with the empty
prefix, and `find` returns `nullptr` for `/x` and for `/`, which match no
longer inserted prefix. -/
theorem find_root_entry_counterexample :
    ((TrieNode.empty : TrieNode Nat).insert "/".toList (some 9)).config = some 9 ∧
    ((TrieNode.empty : TrieNode Nat).insert "/".toList (some 9)).find "/x".toList = none ∧
    ((TrieNode.empty : TrieNode Nat).insert "/".toList (some 9)).find "/".toList = none ∧
    ((TrieNode.empty : TrieNode Nat).insert [] (some 9)).find "/x".toList = none := by
  decide

/-- C22. The input `"foo"bar;`, in which the closing quote is directly
followed by the letter `b`, makes `Parse` return true with the single
statement of the two tokens `"foo"` and `bar`: `ParseToken` returns the
quoted string at the closing quote and leaves `bar;` unread.  Likewise for
`'a'b c;`. -/
theorem parse_accepts_text_after_quote :
    Parse "\"foo\"bar;".toList =
      .returned true [.mk ["\"foo\"".toList, "bar".toList] none] ∧
    (ParseToken "\"foo\"bar;".toList).1 = TOKEN_TYPE_QUOTED_STRING ∧
    (ParseToken "\"foo\"bar;".toList).2.2 = "bar;".toList ∧
    (Parse "'a'b c;".toList).success = some true := by
  refine ⟨rfl, by decide, by decide, by decide⟩

theorem ParseLoop_succ (fuel : Nat) (st : ParserState) (input : Str) :
    ParseLoop (fuel + 1) st input =
      match ParseStep st input with
      | .next st2 rest => ParseLoop fuel st2 rest
      | .done outcome => outcome := by
  generalize hp : ParseToken input = p
  obtain ⟨token_type, token, rest⟩ := p
  simp only [ParseLoop, ParseStep, hp]
  cases token_type <;> simp only [reduceCtorEq, if_false, if_true, false_or, true_or, or_true] <;>
    repeat' split
  all_goals first
    | rfl
    | simp_all

theorem ParseLoop_mono (fuel : Nat) :
    ∀ (st : ParserState) (input : Str), ParseLoop fuel st input ≠ .fuelExhausted →
      ∀ extra, ParseLoop (fuel + extra) st input = ParseLoop fuel st input := by
  induction fuel with
  | zero => intro st input h; exact absurd rfl h
  | succ fuel ih =>
    intro st input h extra
    have e : fuel + 1 + extra = (fuel + extra) + 1 := by omega
    rw [e, ParseLoop_succ, ParseLoop_succ]
    rw [ParseLoop_succ] at h
    cases hs : ParseStep st input with
    | done o => rfl
    | next st2 rest =>
      rw [hs] at h
      exact ih st2 rest h extra

theorem Parse_of_fuel (input : Str) (fuel : Nat) (b : Bool) (config : NginxConfig)
    (h : ParseLoop fuel ParserState.initial input = .returned b config) :
    Parse input = .returned b config := by
  unfold Parse
  rcases Nat.le_total fuel (input.length + 1) with hle | hle
  · obtain ⟨k, hk⟩ := Nat.exists_eq_add_of_le hle
    rw [hk, ParseLoop_mono fuel _ _ (by rw [h]; simp) k, h]
  · obtain ⟨k, hk⟩ := Nat.exists_eq_add_of_le hle
    rw [hk, ParseLoop_mono _ _ _ (Parse_terminates input) k] at h
    exact h

/-! ## Theorems: parsing the canonical text of a tree -/

theorem ParseTokenFrom_normal_word (w : Str)
    (hw : ∀ c ∈ w, c ≠ ' ' ∧ c ≠ '\t' ∧ c ≠ '\n' ∧ c ≠ ';' ∧ c ≠ '{' ∧ c ≠ '}')
    (d : Char) (hd : d = ' ' ∨ d = ';') (r : Str) :
    ∀ value : Str, ParseTokenFrom TOKEN_STATE_TOKEN_TYPE_NORMAL value (w ++ d :: r) =
      (TOKEN_TYPE_NORMAL, value ++ w, d :: r) := by
  induction w with
  | nil =>
    intro value
    rcases hd with hd | hd <;> subst hd <;> simp [ParseTokenFrom]
  | cons c cs ih =>
    intro value
    have hc := hw c (List.mem_cons_self _ _)
    have := ih (fun x hx => hw x (List.mem_cons_of_mem _ hx)) (value ++ [c])
    simp only [List.cons_append, ParseTokenFrom]
    rw [if_neg (by simp [hc.1, hc.2.1, hc.2.2.1, hc.2.2.2.1, hc.2.2.2.2.1, hc.2.2.2.2.2])]
    exact this.trans (by simp)

theorem plainWord_iff (w : Str) :
    plainWord w = true ↔
      w ≠ [] ∧
      (∀ c ∈ w, c ≠ ' ' ∧ c ≠ '\t' ∧ c ≠ '\r' ∧ c ≠ '\n' ∧ c ≠ '{' ∧ c ≠ '}' ∧ c ≠ ';') ∧
      w.head? ≠ some '#' ∧ w.head? ≠ some '\'' ∧ w.head? ≠ some '"' := by
  simp [plainWord, and_assoc]

theorem ParseToken_plainWord (w : Str) (hw : plainWord w = true)
    (d : Char) (hd : d = ' ' ∨ d = ';') (r : Str) :
    ParseToken (w ++ d :: r) = (TOKEN_TYPE_NORMAL, w, d :: r) := by
  obtain ⟨hne, hall, h1, h2, h3⟩ := (plainWord_iff w).mp hw
  cases w with
  | nil => exact absurd rfl hne
  | cons c cs =>
    have hc := hall c (List.mem_cons_self _ _)
    simp only [List.head?_cons, ne_eq, Option.some.injEq] at h1 h2 h3
    simp only [ParseToken, List.cons_append, ParseTokenFrom]
    rw [if_neg hc.2.2.2.2.1, if_neg hc.2.2.2.2.2.1, if_neg h1, if_neg h3, if_neg h2,
      if_neg hc.2.2.2.2.2.2,
      if_neg (by simp [hc.1, hc.2.1, hc.2.2.1, hc.2.2.2.1])]
    exact (ParseTokenFrom_normal_word cs
      (fun x hx => by
        have := hall x (List.mem_cons_of_mem _ hx)
        exact ⟨this.1, this.2.1, this.2.2.2.1, this.2.2.2.2.2.2, this.2.2.2.2.1,
          this.2.2.2.2.2.1⟩) d hd r ([] ++ [c])).trans (by simp)

theorem ParseToken_skip_space (r : Str) : ParseToken (' ' :: r) = ParseToken r := by
  simp [ParseToken, ParseTokenFrom]

theorem ParseToken_skip_newline (r : Str) : ParseToken ('\n' :: r) = ParseToken r := by
  simp [ParseToken, ParseTokenFrom]

theorem ParseStep_skip_space (st : ParserState) (r : Str) :
    ParseStep st (' ' :: r) = ParseStep st r := by
  simp only [ParseStep, ParseToken_skip_space]

theorem ParseStep_skip_newline (st : ParserState) (r : Str) :
    ParseStep st ('\n' :: r) = ParseStep st r := by
  simp only [ParseStep, ParseToken_skip_newline]

theorem ParseLoop_skip_space (fuel : Nat) (st : ParserState) (r : Str) :
    ParseLoop fuel st (' ' :: r) = ParseLoop fuel st r := by
  cases fuel with
  | zero => rfl
  | succ fuel => rw [ParseLoop_succ, ParseLoop_succ, ParseStep_skip_space]

theorem ParseLoop_skip_newline (fuel : Nat) (st : ParserState) (r : Str) :
    ParseLoop fuel st ('\n' :: r) = ParseLoop fuel st r := by
  cases fuel with
  | zero => rfl
  | succ fuel => rw [ParseLoop_succ, ParseLoop_succ, ParseStep_skip_newline]

theorem pushToken_append (top : NginxConfig) (tokens : List Str)
    (child : Option NginxConfig) (token : Str) :
    pushToken (top ++ [.mk tokens child]) token = some (top ++ [.mk (tokens ++ [token]) child]) := by
  induction top with
  | nil => rfl
  | cons s rest ih =>
    cases rest with
    | nil => simp [pushToken]
    | cons s2 rest2 =>
      simp only [List.cons_append] at ih ⊢
      simp only [pushToken, ih]
      rfl

theorem setChild_append (top : NginxConfig) (tokens : List Str)
    (child : Option NginxConfig) (block : NginxConfig) :
    setChild (top ++ [.mk tokens child]) block = some (top ++ [.mk tokens (some block)]) := by
  induction top with
  | nil => rfl
  | cons s rest ih =>
    cases rest with
    | nil => simp [setChild]
    | cons s2 rest2 =>
      simp only [List.cons_append] at ih ⊢
      simp only [setChild, ih]
      rfl

theorem ParseStep_word_first (input token rest : Str)
    (h : ParseToken input = (TOKEN_TYPE_NORMAL, token, rest))
    (top : NginxConfig) (below : List NginxConfig) (rb : Option NginxConfig)
    (last : TokenType) (ob : Int)
    (hl : last = TOKEN_TYPE_START ∨ last = TOKEN_TYPE_STATEMENT_END ∨
      last = TOKEN_TYPE_START_BLOCK ∨ last = TOKEN_TYPE_END_BLOCK) :
    ParseStep ⟨top :: below, rb, last, ob⟩ input =
      .next ⟨(top ++ [.mk [token] none]) :: below, rb, TOKEN_TYPE_NORMAL, ob⟩ rest := by
  have e := pushToken_append top [] none token
  rcases hl with hl | hl | hl | hl <;> subst hl <;> simp [ParseStep, h, e]

theorem ParseStep_word_more (input token rest : Str)
    (h : ParseToken input = (TOKEN_TYPE_NORMAL, token, rest))
    (top : NginxConfig) (tokens : List Str) (child : Option NginxConfig)
    (below : List NginxConfig) (rb : Option NginxConfig) (ob : Int) :
    ParseStep ⟨(top ++ [.mk tokens child]) :: below, rb, TOKEN_TYPE_NORMAL, ob⟩ input =
      .next ⟨(top ++ [.mk (tokens ++ [token]) child]) :: below, rb, TOKEN_TYPE_NORMAL, ob⟩
        rest := by
  simp [ParseStep, h, pushToken_append]

theorem ParseStep_statement_end (r : Str) (stack : List NginxConfig)
    (rb : Option NginxConfig) (ob : Int) :
    ParseStep ⟨stack, rb, TOKEN_TYPE_NORMAL, ob⟩ (';' :: r) =
      .next ⟨stack, rb, TOKEN_TYPE_STATEMENT_END, ob⟩ r := by
  simp [ParseStep, ParseToken, ParseTokenFrom]

theorem ParseStep_start_block (r : Str) (top : NginxConfig) (tokens : List Str)
    (child : Option NginxConfig) (below : List NginxConfig)
    (rb : Option NginxConfig) (ob : Int) :
    ParseStep ⟨(top ++ [.mk tokens child]) :: below, rb, TOKEN_TYPE_NORMAL, ob⟩ ('{' :: r) =
      .next ⟨[] :: (top ++ [.mk tokens (some [])]) :: below, rb, TOKEN_TYPE_START_BLOCK,
        ob + 1⟩ r := by
  simp [ParseStep, ParseToken, ParseTokenFrom, setChild_append]

theorem ParseStep_end_block (r : Str) (block top : NginxConfig) (tokens : List Str)
    (child : Option NginxConfig) (below : List NginxConfig)
    (rb : Option NginxConfig) (last : TokenType) (ob : Int)
    (hl : last = TOKEN_TYPE_STATEMENT_END ∨ last = TOKEN_TYPE_END_BLOCK ∨
      last = TOKEN_TYPE_START_BLOCK) :
    ParseStep ⟨block :: (top ++ [.mk tokens child]) :: below, rb, last, ob⟩ ('}' :: r) =
      .next ⟨(top ++ [.mk tokens (some block)]) :: below, rb, TOKEN_TYPE_END_BLOCK,
        ob - 1⟩ r := by
  rcases hl with hl | hl | hl <;> subst hl <;>
    simp [ParseStep, ParseToken, ParseTokenFrom, setChild_append]

theorem ParseStep_eof (root : NginxConfig) (last : TokenType)
    (hl : last = TOKEN_TYPE_STATEMENT_END ∨ last = TOKEN_TYPE_END_BLOCK) :
    ParseStep ⟨[root], none, last, 0⟩ [] = .done (.returned true root) := by
  rcases hl with hl | hl <;> subst hl <;>
    simp [ParseStep, ParseToken, ParseTokenFrom, ParserState.config, closeBlocks, closeInto]

theorem renderTokens_cons (ts : List Str) :
    ∀ t : Str, renderTokens (t :: ts) = t ++ (ts.map (fun t => ' ' :: t)).flatten := by
  induction ts with
  | nil => intro t; simp [renderTokens]
  | cons t2 ts ih => intro t; simp [renderTokens, ih t2]

theorem more_tokens_text (ts : List Str) (d : Char) (hd : d = ' ' ∨ d = ';') (r : Str) :
    ∃ d2 r2, (d2 = ' ' ∨ d2 = ';') ∧ (ts.map (fun t => ' ' :: t)).flatten ++ d :: r = d2 :: r2 := by
  cases ts with
  | nil => exact ⟨d, r, hd, rfl⟩
  | cons t ts =>
    exact ⟨' ', t ++ ((ts.map (fun t => ' ' :: t)).flatten ++ d :: r), Or.inl rfl, by simp⟩

theorem ParseLoop_more_tokens (ts : List Str) (hts : ∀ t ∈ ts, plainWord t = true)
    (d : Char) (hd : d = ' ' ∨ d = ';') (r : Str) (top : NginxConfig)
    (child : Option NginxConfig) (below : List NginxConfig) (rb : Option NginxConfig)
    (ob : Int) :
    ∀ (tokens : List Str) (fuel : Nat),
      ParseLoop (fuel + ts.length)
          ⟨(top ++ [.mk tokens child]) :: below, rb, TOKEN_TYPE_NORMAL, ob⟩
          ((ts.map (fun t => ' ' :: t)).flatten ++ d :: r) =
        ParseLoop fuel ⟨(top ++ [.mk (tokens ++ ts) child]) :: below, rb, TOKEN_TYPE_NORMAL, ob⟩
          (d :: r) := by
  induction ts with
  | nil => intro tokens fuel; simp
  | cons t ts ih =>
    intro tokens fuel
    obtain ⟨d2, r2, hd2, e2⟩ := more_tokens_text ts d hd r
    have e : ((t :: ts).map (fun t => ' ' :: t)).flatten ++ d :: r = ' ' :: (t ++ d2 :: r2) := by
      rw [← e2]; simp
    have hf : fuel + (t :: ts).length = (fuel + ts.length) + 1 := by
      simp only [List.length_cons]; omega
    rw [e, hf, ParseLoop_skip_space, ParseLoop_succ,
      ParseStep_word_more _ t (d2 :: r2)
        (ParseToken_plainWord t (hts t (List.mem_cons_self _ _)) d2 hd2 r2)]
    simp only []
    rw [← e2, ih (fun x hx => hts x (List.mem_cons_of_mem _ hx)) (tokens ++ [t]) fuel]
    simp

theorem ParseLoop_tokens (t : Str) (ts : List Str) (hts : ∀ x ∈ t :: ts, plainWord x = true)
    (d : Char) (hd : d = ' ' ∨ d = ';') (r : Str) (top : NginxConfig)
    (below : List NginxConfig) (rb : Option NginxConfig) (last : TokenType) (ob : Int)
    (hl : last = TOKEN_TYPE_START ∨ last = TOKEN_TYPE_STATEMENT_END ∨
      last = TOKEN_TYPE_START_BLOCK ∨ last = TOKEN_TYPE_END_BLOCK) (fuel : Nat) :
    ParseLoop (fuel + (t :: ts).length) ⟨top :: below, rb, last, ob⟩
        (renderTokens (t :: ts) ++ d :: r) =
      ParseLoop fuel ⟨(top ++ [.mk (t :: ts) none]) :: below, rb, TOKEN_TYPE_NORMAL, ob⟩
        (d :: r) := by
  obtain ⟨d2, r2, hd2, e2⟩ := more_tokens_text ts d hd r
  have hf : fuel + (t :: ts).length = (fuel + ts.length) + 1 := by
    simp only [List.length_cons]; omega
  rw [renderTokens_cons, List.append_assoc, e2, hf, ParseLoop_succ,
    ParseStep_word_first _ t (d2 :: r2)
      (ParseToken_plainWord t (hts t (List.mem_cons_self _ _)) d2 hd2 r2) top below rb last ob hl]
  simp only []
  rw [← e2, ParseLoop_more_tokens ts (fun x hx => hts x (List.mem_cons_of_mem _ hx)) d hd r]
  simp

theorem renderChild_head (child : Option NginxConfig) (r : Str) :
    ∃ d r2, (d = ' ' ∨ d = ';') ∧ renderChild child ++ r = d :: r2 := by
  cases child with
  | none => exact ⟨';', '\n' :: r, Or.inr rfl, by simp [renderChild]⟩
  | some block =>
    exact ⟨' ', '{' :: '\n' :: (renderBlock block ++ '}' :: '\n' :: r), Or.inl rfl,
      by simp [renderChild]⟩

mutual
theorem ParseLoop_renderStatement :
    ∀ (s : NginxConfigStatement), plainStatement s = true →
      ∀ (top : NginxConfig) (below : List NginxConfig) (rb : Option NginxConfig)
        (last : TokenType) (ob : Int) (r : Str),
        (last = TOKEN_TYPE_START ∨ last = TOKEN_TYPE_STATEMENT_END ∨
          last = TOKEN_TYPE_START_BLOCK ∨ last = TOKEN_TYPE_END_BLOCK) →
        ∃ k l, (l = TOKEN_TYPE_STATEMENT_END ∨ l = TOKEN_TYPE_END_BLOCK) ∧
          ∀ fuel, ParseLoop (fuel + k) ⟨top :: below, rb, last, ob⟩ (renderStatement s ++ r) =
            ParseLoop fuel ⟨(top ++ [s]) :: below, rb, l, ob⟩ r
  | .mk tokens child => by
    intro h top below rb last ob r hl
    simp only [plainStatement, Bool.and_eq_true, decide_eq_true_eq, List.all_eq_true] at h
    obtain ⟨⟨hne, hts⟩, hc⟩ := h
    cases tokens with
    | nil => exact absurd rfl hne
    | cons t ts =>
      obtain ⟨k, l, hl2, hk⟩ := ParseLoop_renderChild child hc top (t :: ts) below rb ob r
      obtain ⟨d, r2, hd, e⟩ := renderChild_head child r
      refine ⟨k + (t :: ts).length, l, hl2, ?_⟩
      intro fuel
      have hf : fuel + (k + (t :: ts).length) = (fuel + k) + (t :: ts).length := by omega
      rw [renderStatement, List.append_assoc, e, hf,
        ParseLoop_tokens t ts hts d hd r2 top below rb last ob hl (fuel + k), ← e]
      exact hk fuel
theorem ParseLoop_renderChild :
    ∀ (child : Option (List NginxConfigStatement)), plainChild child = true →
      ∀ (top : NginxConfig) (tokens : List Str) (below : List NginxConfig)
        (rb : Option NginxConfig) (ob : Int) (r : Str),
        ∃ k l, (l = TOKEN_TYPE_STATEMENT_END ∨ l = TOKEN_TYPE_END_BLOCK) ∧
          ∀ fuel, ParseLoop (fuel + k)
              ⟨(top ++ [.mk tokens none]) :: below, rb, TOKEN_TYPE_NORMAL, ob⟩
              (renderChild child ++ r) =
            ParseLoop fuel ⟨(top ++ [.mk tokens child]) :: below, rb, l, ob⟩ r
  | none => by
    intro _ top tokens below rb ob r
    refine ⟨1, TOKEN_TYPE_STATEMENT_END, Or.inl rfl, ?_⟩
    intro fuel
    simp only [renderChild, List.cons_append, List.nil_append]
    rw [ParseLoop_succ, ParseStep_statement_end]
    simp only []
    rw [ParseLoop_skip_newline]
  | some block => by
    intro h top tokens below rb ob r
    simp only [plainChild] at h
    obtain ⟨k, l, hl, _, hk⟩ := ParseLoop_renderBlock block h []
      ((top ++ [.mk tokens (some [])]) :: below) rb TOKEN_TYPE_START_BLOCK (ob + 1)
      ('}' :: '\n' :: r) (Or.inr (Or.inr (Or.inl rfl)))
    refine ⟨1 + k + 1, TOKEN_TYPE_END_BLOCK, Or.inr rfl, ?_⟩
    intro fuel
    have hf : fuel + (1 + k + 1) = (fuel + 1 + k) + 1 := by omega
    simp only [renderChild, List.cons_append, List.nil_append, List.append_assoc]
    rw [hf, ParseLoop_skip_space, ParseLoop_succ, ParseStep_start_block]
    simp only []
    rw [ParseLoop_skip_newline, hk (fuel + 1), ParseLoop_succ,
      ParseStep_end_block _ _ _ _ _ _ _ _ _
        (by rcases hl with hl | hl | hl
            · exact Or.inr (Or.inr hl)
            · exact Or.inl hl
            · exact Or.inr (Or.inl hl))]
    simp only [List.nil_append]
    rw [ParseLoop_skip_newline, Int.add_sub_cancel]
theorem ParseLoop_renderBlock :
    ∀ (block : List NginxConfigStatement), plainBlock block = true →
      ∀ (top : NginxConfig) (below : List NginxConfig) (rb : Option NginxConfig)
        (last : TokenType) (ob : Int) (r : Str),
        (last = TOKEN_TYPE_START ∨ last = TOKEN_TYPE_STATEMENT_END ∨
          last = TOKEN_TYPE_START_BLOCK ∨ last = TOKEN_TYPE_END_BLOCK) →
        ∃ k l, (l = last ∨ l = TOKEN_TYPE_STATEMENT_END ∨ l = TOKEN_TYPE_END_BLOCK) ∧
          (block ≠ [] → l = TOKEN_TYPE_STATEMENT_END ∨ l = TOKEN_TYPE_END_BLOCK) ∧
          ∀ fuel, ParseLoop (fuel + k) ⟨top :: below, rb, last, ob⟩ (renderBlock block ++ r) =
            ParseLoop fuel ⟨(top ++ block) :: below, rb, l, ob⟩ r
  | [] => by
    intro _ top below rb last ob r _
    exact ⟨0, last, Or.inl rfl, fun h => absurd rfl h, fun fuel => by simp [renderBlock]⟩
  | s :: rest => by
    intro h top below rb last ob r hl
    simp only [plainBlock, Bool.and_eq_true] at h
    obtain ⟨k1, l1, hl1, hk1⟩ := ParseLoop_renderStatement s h.1 top below rb last ob
      (renderBlock rest ++ r) hl
    obtain ⟨k2, l2, hl2, _, hk2⟩ := ParseLoop_renderBlock rest h.2 (top ++ [s]) below rb l1 ob r
      (by rcases hl1 with e | e
          · exact Or.inr (Or.inl e)
          · exact Or.inr (Or.inr (Or.inr e)))
    have hl3 : l2 = TOKEN_TYPE_STATEMENT_END ∨ l2 = TOKEN_TYPE_END_BLOCK := by
      rcases hl2 with e | e | e
      · rw [e]; exact hl1
      · exact Or.inl e
      · exact Or.inr e
    refine ⟨k2 + k1, l2, Or.inr hl3, fun _ => hl3, ?_⟩
    intro fuel
    have hf : fuel + (k2 + k1) = (fuel + k2) + k1 := by omega
    rw [renderBlock, List.append_assoc, hf, hk1 (fuel + k2), hk2 fuel]
    simp
end

/-- C23. `Parse` inverts canonical printing: for every tree with a non-empty
root block in which every statement, at every depth, has at least one token
and every token is a plain word, `Parse` on the canonical text of the tree
returns true and leaves exactly that tree.  The inputs `listen 80;` and
`stream { server { listen 80; } }` are parsed to the expected trees. -/
theorem parse_inverts_rendering (config : NginxConfig) (hne : config ≠ [])
    (hplain : plainBlock config = true) :
    Parse (renderBlock config) = .returned true config ∧
    Parse "listen 80;".toList = .returned true [.mk ["listen".toList, "80".toList] none] ∧
    Parse "stream \x7b server \x7b listen 80; \x7d \x7d".toList =
      .returned true [.mk ["stream".toList] (some [.mk ["server".toList]
        (some [.mk ["listen".toList, "80".toList] none])])] := by
  refine ⟨?_, rfl, rfl⟩
  obtain ⟨k, l, _, hl, hk⟩ := ParseLoop_renderBlock config hplain [] [] none TOKEN_TYPE_START 0 []
    (Or.inl rfl)
  apply Parse_of_fuel _ (1 + k)
  have := hk 1
  simp only [List.append_nil, List.nil_append] at this
  show ParseLoop (1 + k) ⟨[[]], none, TOKEN_TYPE_START, 0⟩ (renderBlock config) = _
  rw [this, ParseLoop_succ, ParseStep_eof config l (hl hne)]

/-- The canonical text of the tree of `stream { server { listen 80; } }`, and
the tree `Parse` leaves on it. -/
theorem parse_inverts_rendering_witness :
    renderBlock [.mk ["stream".toList] (some [.mk ["server".toList]
        (some [.mk ["listen".toList, "80".toList] none])])] =
      "stream \x7b\nserver \x7b\nlisten 80;\n\x7d\n\x7d\n".toList ∧
    Parse (renderBlock [.mk ["stream".toList] (some [.mk ["server".toList]
        (some [.mk ["listen".toList, "80".toList] none])])]) =
      .returned true [.mk ["stream".toList] (some [.mk ["server".toList]
        (some [.mk ["listen".toList, "80".toList] none])])] :=
  ⟨by decide,
    (parse_inverts_rendering [.mk ["stream".toList] (some [.mk ["server".toList]
        (some [.mk ["listen".toList, "80".toList] none])])]
      (List.cons_ne_nil _ _) (by decide)).1⟩

theorem ParseStep_next_cases (st st2 : ParserState) (input rest : Str)
    (h : ParseStep st input = .next st2 rest) :
    rest = (ParseToken input).2.2 ∧
    (((ParseToken input).1 = TOKEN_TYPE_COMMENT ∧ st2 = st) ∨
    (isWordToken (ParseToken input).1 ∧ ¬ isWordToken st.last_token_type ∧
      st.last_token_type ≠ TOKEN_TYPE_COMMENT ∧
      ∃ top below, st.config_stack = top :: below ∧
        st2 = { st with config_stack := (top ++ [.mk [(ParseToken input).2.1] none]) :: below,
                        last_token_type := (ParseToken input).1 }) ∨
    (isWordToken (ParseToken input).1 ∧ isWordToken st.last_token_type ∧
      ∃ top below top2, st.config_stack = top :: below ∧
        pushToken top (ParseToken input).2.1 = some top2 ∧
        st2 = { st with config_stack := top2 :: below,
                        last_token_type := (ParseToken input).1 }) ∨
    ((ParseToken input).1 = TOKEN_TYPE_STATEMENT_END ∧ isWordToken st.last_token_type ∧
      st2 = { st with last_token_type := TOKEN_TYPE_STATEMENT_END }) ∨
    ((ParseToken input).1 = TOKEN_TYPE_START_BLOCK ∧ isWordToken st.last_token_type ∧
      ∃ top below top2, st.config_stack = top :: below ∧ setChild top [] = some top2 ∧
        st2 = { st with config_stack := [] :: top2 :: below,
                        last_token_type := TOKEN_TYPE_START_BLOCK,
                        open_blocks := st.open_blocks + 1 }) ∨
    ((ParseToken input).1 = TOKEN_TYPE_END_BLOCK ∧
      (st.last_token_type = TOKEN_TYPE_STATEMENT_END ∨
        st.last_token_type = TOKEN_TYPE_END_BLOCK ∨
        st.last_token_type = TOKEN_TYPE_COMMENT ∨
        st.last_token_type = TOKEN_TYPE_START_BLOCK) ∧
      ((∃ root, st.config_stack = [root] ∧
          st2 = { config_stack := [], root_block := some root,
                  last_token_type := TOKEN_TYPE_END_BLOCK,
                  open_blocks := st.open_blocks - 1 }) ∨
        (∃ child parent below parent2, st.config_stack = child :: parent :: below ∧
          setChild parent child = some parent2 ∧
          st2 = { st with config_stack := parent2 :: below,
                          last_token_type := TOKEN_TYPE_END_BLOCK,
                          open_blocks := st.open_blocks - 1 })))) := by
  obtain ⟨stack, rb, last, ob⟩ := st
  unfold ParseStep at h
  generalize ParseToken input = p at h ⊢
  obtain ⟨ty, tok, rest0⟩ := p
  simp only [] at h ⊢
  cases ty <;> simp only [reduceCtorEq, if_false, if_true, false_or, true_or, or_true] at h
  case TOKEN_TYPE_EOF =>
    split at h
    · simp at h
    · split at h <;> simp at h
  case TOKEN_TYPE_COMMENT =>
    simp only [LoopStep.next.injEq] at h
    exact ⟨h.2.symm, Or.inl ⟨rfl, h.1.symm⟩⟩
  case TOKEN_TYPE_STATEMENT_END =>
    split at h
    · simp at h
    · rename_i hl
      simp only [LoopStep.next.injEq] at h
      refine ⟨h.2.symm, Or.inr (Or.inr (Or.inr (Or.inl ⟨rfl, ?_, h.1.symm⟩)))⟩
      simp only [isWordToken]
      by_contra hc
      exact hl ⟨fun e => hc (Or.inl e), fun e => hc (Or.inr e)⟩
  case TOKEN_TYPE_NORMAL =>
    cases stack with
    | nil => cases last <;> simp at h
    | cons top below =>
      cases last <;> simp only [reduceCtorEq, if_false, if_true, false_or, true_or, or_true,
        ne_eq, not_true_eq_false, not_false_eq_true, and_self, and_false, false_and,
        pushToken_append] at h
      case TOKEN_TYPE_NORMAL =>
        cases hp : pushToken top tok with
        | none => rw [hp] at h; simp at h
        | some top2 =>
          rw [hp] at h
          simp only [LoopStep.next.injEq] at h
          exact ⟨h.2.symm, Or.inr (Or.inr (Or.inl ⟨by simp [isWordToken], by simp [isWordToken],
            top, below, top2, rfl, hp, h.1.symm⟩))⟩
      case TOKEN_TYPE_QUOTED_STRING =>
        cases hp : pushToken top tok with
        | none => rw [hp] at h; simp at h
        | some top2 =>
          rw [hp] at h
          simp only [LoopStep.next.injEq] at h
          exact ⟨h.2.symm, Or.inr (Or.inr (Or.inl ⟨by simp [isWordToken], by simp [isWordToken],
            top, below, top2, rfl, hp, h.1.symm⟩))⟩
      all_goals
        simp only [LoopStep.next.injEq, List.nil_append] at h
        exact ⟨h.2.symm, Or.inr (Or.inl ⟨by simp [isWordToken], by simp [isWordToken],
          by simp, top, below, rfl, h.1.symm⟩)⟩
  case TOKEN_TYPE_QUOTED_STRING =>
    cases stack with
    | nil => cases last <;> simp at h
    | cons top below =>
      cases last <;> simp only [reduceCtorEq, if_false, if_true, false_or, true_or, or_true,
        ne_eq, not_true_eq_false, not_false_eq_true, and_self, and_false, false_and,
        pushToken_append] at h
      case TOKEN_TYPE_NORMAL =>
        cases hp : pushToken top tok with
        | none => rw [hp] at h; simp at h
        | some top2 =>
          rw [hp] at h
          simp only [LoopStep.next.injEq] at h
          exact ⟨h.2.symm, Or.inr (Or.inr (Or.inl ⟨by simp [isWordToken], by simp [isWordToken],
            top, below, top2, rfl, hp, h.1.symm⟩))⟩
      case TOKEN_TYPE_QUOTED_STRING =>
        cases hp : pushToken top tok with
        | none => rw [hp] at h; simp at h
        | some top2 =>
          rw [hp] at h
          simp only [LoopStep.next.injEq] at h
          exact ⟨h.2.symm, Or.inr (Or.inr (Or.inl ⟨by simp [isWordToken], by simp [isWordToken],
            top, below, top2, rfl, hp, h.1.symm⟩))⟩
      all_goals
        simp only [LoopStep.next.injEq, List.nil_append] at h
        exact ⟨h.2.symm, Or.inr (Or.inl ⟨by simp [isWordToken], by simp [isWordToken],
          by simp, top, below, rfl, h.1.symm⟩)⟩
  case TOKEN_TYPE_START_BLOCK =>
    split at h
    · simp at h
    · rename_i hl
      have hw : isWordToken last := by
        simp only [isWordToken]
        by_contra hc
        exact hl ⟨fun e => hc (Or.inl e), fun e => hc (Or.inr e)⟩
      cases stack with
      | nil => simp at h
      | cons top below =>
        simp only [] at h
        cases hp : setChild top [] with
        | none => rw [hp] at h; simp at h
        | some top2 =>
          rw [hp] at h
          simp only [LoopStep.next.injEq] at h
          exact ⟨h.2.symm, Or.inr (Or.inr (Or.inr (Or.inr (Or.inl
            ⟨rfl, hw, top, below, top2, rfl, hp, h.1.symm⟩))))⟩
  case TOKEN_TYPE_END_BLOCK =>
    split at h
    · simp at h
    · rename_i hl
      have hw : last = TOKEN_TYPE_STATEMENT_END ∨ last = TOKEN_TYPE_END_BLOCK ∨
          last = TOKEN_TYPE_COMMENT ∨ last = TOKEN_TYPE_START_BLOCK := by
        by_contra hc
        exact hl ⟨fun e => hc (Or.inl e), fun e => hc (Or.inr (Or.inl e)),
          fun e => hc (Or.inr (Or.inr (Or.inl e))), fun e => hc (Or.inr (Or.inr (Or.inr e)))⟩
      match stack, h with
      | [], h => simp at h
      | [root], h =>
        simp only [LoopStep.next.injEq] at h
        exact ⟨h.2.symm, Or.inr (Or.inr (Or.inr (Or.inr (Or.inr
          ⟨rfl, hw, Or.inl ⟨root, rfl, h.1.symm⟩⟩))))⟩
      | child :: parent :: below, h =>
        simp only [] at h
        cases hp : setChild parent child with
        | none => rw [hp] at h; simp at h
        | some parent2 =>
          rw [hp] at h
          simp only [LoopStep.next.injEq] at h
          exact ⟨h.2.symm, Or.inr (Or.inr (Or.inr (Or.inr (Or.inr
            ⟨rfl, hw, Or.inr ⟨child, parent, below, parent2, rfl, hp, h.1.symm⟩⟩))))⟩

theorem ParseStep_done_cases (st : ParserState) (input : Str) (b : Bool) (config : NginxConfig)
    (h : ParseStep st input = .done (.returned b config)) :
    config = st.config ∧ (b = true → (ParseToken input).1 = TOKEN_TYPE_EOF) := by
  unfold ParseStep at h
  generalize ParseToken input = p at h ⊢
  obtain ⟨ty, tok, rest0⟩ := p
  simp only [] at h ⊢
  cases ty <;> simp only [reduceCtorEq, if_false, if_true, false_or, true_or, or_true] at h <;>
    repeat' split at h
  all_goals first
    | (simp only [LoopStep.done.injEq, ParseOutcome.returned.injEq] at h
       exact ⟨h.2.symm, fun e => by simp_all⟩)
    | simp at h

theorem ParseStep_next_token (st st2 : ParserState) (input rest : Str)
    (h : ParseStep st input = .next st2 rest) :
    rest = (ParseToken input).2.2 ∧
    (ParseToken input).1 ≠ TOKEN_TYPE_EOF ∧ (ParseToken input).1 ≠ TOKEN_TYPE_ERROR ∧
    (((ParseToken input).1 = TOKEN_TYPE_COMMENT ∧ st2 = st) ∨
      ((ParseToken input).1 ≠ TOKEN_TYPE_COMMENT ∧
        st2.last_token_type = (ParseToken input).1 ∧
        ((ParseToken input).1 = TOKEN_TYPE_END_BLOCK →
          st.last_token_type = TOKEN_TYPE_STATEMENT_END ∨
          st.last_token_type = TOKEN_TYPE_END_BLOCK ∨
          st.last_token_type = TOKEN_TYPE_COMMENT ∨
          st.last_token_type = TOKEN_TYPE_START_BLOCK))) := by
  obtain ⟨hr, hc⟩ := ParseStep_next_cases st st2 input rest h
  refine ⟨hr, ?_⟩
  generalize (ParseToken input).1 = ty at hc ⊢
  generalize (ParseToken input).2.1 = tok at hc ⊢
  simp only [isWordToken] at hc
  rcases hc with ⟨e, e2⟩ | ⟨e, _, _, top, below, _, e2⟩ | ⟨e, _, top, below, top2, _, _, e2⟩ |
    ⟨e, _, e2⟩ | ⟨e, _, top, below, top2, _, _, e2⟩ |
    ⟨e, hl, ⟨root, _, e2⟩ | ⟨child, parent, below, parent2, _, _, e2⟩⟩
  · subst e; subst e2; simp
  · rcases e with e | e <;> subst e <;> subst e2 <;> simp
  · rcases e with e | e <;> subst e <;> subst e2 <;> simp
  · subst e; subst e2; simp
  · subst e; subst e2; simp
  · subst e; subst e2; simp [hl]
  · subst e; subst e2; simp [hl]

theorem ParseTokenFrom_comment (comment : Str) (hc : ∀ c ∈ comment, c ≠ '\n' ∧ c ≠ '\r')
    (rest : Str) :
    ∀ value : Str, ParseTokenFrom TOKEN_STATE_TOKEN_TYPE_COMMENT value (comment ++ '\n' :: rest) =
      (TOKEN_TYPE_COMMENT, value ++ comment, rest) := by
  induction comment with
  | nil => intro value; simp [ParseTokenFrom]
  | cons c cs ih =>
    intro value
    have h := hc c (List.mem_cons_self _ _)
    have := ih (fun x hx => hc x (List.mem_cons_of_mem _ hx)) (value ++ [c])
    simp only [List.cons_append, ParseTokenFrom]
    rw [if_neg (by simp [h.1, h.2])]
    exact this.trans (by simp)

theorem ParseStep_comment (st : ParserState) (comment : Str)
    (hc : ∀ c ∈ comment, c ≠ '\n' ∧ c ≠ '\r') (rest : Str) :
    ParseStep st ('#' :: comment ++ '\n' :: rest) = .next st rest := by
  have : ParseToken ('#' :: comment ++ '\n' :: rest) =
      (TOKEN_TYPE_COMMENT, '#' :: comment, rest) := by
    simp only [ParseToken, List.cons_append, ParseTokenFrom]
    simp only [Char.reduceEq, if_false, if_true]
    exact (ParseTokenFrom_comment comment hc rest ['#']).trans (by simp)
  unfold ParseStep
  rw [this]
  simp

/-! ## Theorems: the statements of the tree during the parse -/

theorem dfsBlock_append (a b : NginxConfig) : dfsBlock (a ++ b) = dfsBlock a ++ dfsBlock b := by
  induction a with
  | nil => simp [dfsBlock]
  | cons s rest ih => simp [dfsBlock, ih]

theorem tokenLists_append (a b : NginxConfig) :
    tokenLists (a ++ b) = tokenLists a ++ tokenLists b := by
  simp [tokenLists, dfsBlock_append]

theorem tokenLists_nil : tokenLists [] = [] := by
  simp [tokenLists, dfsBlock]

theorem tokenLists_leaf (tokens : List Str) : tokenLists [.mk tokens none] = [tokens] := by
  simp [tokenLists, dfsBlock, dfsStatement, dfsChild, NginxConfigStatement.tokens_]

theorem tokenLists_node (tokens : List Str) (block : NginxConfig) :
    tokenLists [.mk tokens (some block)] = tokens :: tokenLists block := by
  simp [tokenLists, dfsBlock, dfsStatement, dfsChild, NginxConfigStatement.tokens_]

theorem tokenLists_last (init : NginxConfig) (tokens : List Str) (child : Option NginxConfig) :
    ∃ more, tokenLists (init ++ [.mk tokens child]) = tokenLists init ++ tokens :: more := by
  cases child with
  | none => exact ⟨[], by rw [tokenLists_append, tokenLists_leaf]⟩
  | some block => exact ⟨tokenLists block, by rw [tokenLists_append, tokenLists_node]⟩

theorem block_eq_init_last (block : NginxConfig) (h : block ≠ []) :
    ∃ init tokens child, block = init ++ [.mk tokens child] := by
  rcases List.eq_nil_or_concat block with e | ⟨init, last, e⟩
  · exact absurd e h
  · obtain ⟨tokens, child⟩ := last
    exact ⟨init, tokens, child, by rw [e, List.concat_eq_append]⟩

theorem closeInto_cons (child parent : NginxConfig) (below : List NginxConfig)
    (init : NginxConfig) (tokens : List Str) (c : Option NginxConfig)
    (h : parent = init ++ [.mk tokens c]) :
    closeInto child (parent :: below) = closeInto (init ++ [.mk tokens (some child)]) below := by
  rw [closeInto, h, setChild_append]

theorem closeInto_tokenLists (below : List NginxConfig) :
    (∀ block ∈ below, block ≠ []) → (∀ block ∈ below, [] ∉ tokenLists block) →
    ∃ lists : List (List Str), [] ∉ lists ∧
      ∀ top, tokenLists (closeInto top below) = lists ++ tokenLists top := by
  induction below with
  | nil =>
    intro _ _
    exact ⟨[], by simp, fun top => by simp [closeInto]⟩
  | cons parent below ih =>
    intro h1 h2
    obtain ⟨lists, hl, ht⟩ := ih (fun b hb => h1 b (List.mem_cons_of_mem _ hb))
      (fun b hb => h2 b (List.mem_cons_of_mem _ hb))
    obtain ⟨init, tokens, c, e⟩ := block_eq_init_last parent (h1 parent (List.mem_cons_self _ _))
    have hp := h2 parent (List.mem_cons_self _ _)
    obtain ⟨more, hm⟩ := tokenLists_last init tokens c
    rw [e, hm] at hp
    refine ⟨lists ++ (tokenLists init ++ [tokens]), ?_, ?_⟩
    · intro hmem
      rcases List.mem_append.mp hmem with hmem | hmem
      · exact hl hmem
      · apply hp
        rcases List.mem_append.mp hmem with hmem | hmem
        · exact List.mem_append_left _ hmem
        · exact List.mem_append_right _ (by
            simp only [List.mem_singleton] at hmem
            rw [hmem]; exact List.mem_cons_self _ _)
    · intro top
      rw [closeInto_cons top parent below init tokens c e, ht, tokenLists_append,
        tokenLists_node]
      simp

theorem LoopInvariant_config (st : ParserState) (h : LoopInvariant st) :
    [] ∉ tokenLists st.config := by
  rcases h with ⟨hr, top, below, hs, h1, _, h3⟩ | ⟨_, _, root, hr, h3⟩
  · obtain ⟨lists, hl, ht⟩ := closeInto_tokenLists below h1
      (fun b hb => h3 b (List.mem_cons_of_mem _ hb))
    simp only [ParserState.config, hr, hs, closeBlocks]
    rw [ht]
    intro hmem
    rcases List.mem_append.mp hmem with hmem | hmem
    · exact hl hmem
    · exact h3 top (List.mem_cons_self _ _) hmem
  · simp only [ParserState.config, hr]
    exact h3

theorem LoopInvariant_initial : LoopInvariant ParserState.initial := by
  refine Or.inl ⟨rfl, [], [], rfl, by simp, ?_, ?_⟩
  · intro h
    simp [isWordToken, ParserState.initial] at h
  · intro b hb
    simp only [List.mem_singleton] at hb
    rw [hb, tokenLists_nil]
    simp

theorem config_of_stack (top : NginxConfig) (below : List NginxConfig) (last : TokenType)
    (ob : Int) :
    (⟨top :: below, none, last, ob⟩ : ParserState).config = closeInto top below := by
  simp [ParserState.config, closeBlocks]

theorem LoopInvariant_step (st st2 : ParserState) (input rest : Str)
    (hinv : LoopInvariant st) (h : ParseStep st input = .next st2 rest) :
    LoopInvariant st2 ∧ TokensExtend st st2 := by
  obtain ⟨_, hc⟩ := ParseStep_next_cases st st2 input rest h
  generalize (ParseToken input).1 = ty at hc
  generalize (ParseToken input).2.1 = tok at hc
  obtain ⟨stack, rb, last, ob⟩ := st
  simp only [] at hc
  rcases hc with ⟨_, e2⟩ | ⟨hty, hlast, _, top, below, hs, e2⟩ |
    ⟨hty, hlast, top, below, top2, hs, hp, e2⟩ |
    ⟨_, hlast, e2⟩ | ⟨_, hlast, top, below, top2, hs, hp, e2⟩ |
    ⟨_, _, ⟨root, hs, e2⟩ | ⟨child, parent, below, parent2, hs, hp, e2⟩⟩
  · -- a comment
    subst e2
    exact ⟨hinv, Or.inl ⟨rfl, Or.inl rfl⟩⟩
  · -- the first word of a statement
    subst hs; subst e2
    rcases hinv with ⟨hr, top', below', hs', h1, _, h3⟩ | ⟨hs', _⟩
    · simp only [List.cons.injEq] at hs' hr
      obtain ⟨rfl, rfl⟩ := hs'
      subst hr
      obtain ⟨lists, _, ht⟩ := closeInto_tokenLists below h1
        (fun b hb => h3 b (List.mem_cons_of_mem _ hb))
      have htop : tokenLists (top ++ [.mk [tok] none]) = tokenLists top ++ [[tok]] := by
        rw [tokenLists_append, tokenLists_leaf]
      constructor
      · refine Or.inl ⟨rfl, _, _, rfl, h1, fun _ => ⟨top, [tok], rfl⟩, ?_⟩
        intro b hb
        rcases List.mem_cons.mp hb with e | hb
        · rw [e, htop]
          intro hmem
          rcases List.mem_append.mp hmem with hmem | hmem
          · exact h3 top (List.mem_cons_self _ _) hmem
          · simp at hmem
        · exact h3 b (List.mem_cons_of_mem _ hb)
      · refine Or.inr (Or.inl ⟨hty, hlast, tok, ?_⟩)
        rw [config_of_stack, config_of_stack, ht, ht, htop, List.append_assoc]
    · simp at hs'
  · -- a further word of a statement
    subst hs; subst e2
    rcases hinv with ⟨hr, top', below', hs', h1, h2, h3⟩ | ⟨hs', _⟩
    · simp only [List.cons.injEq] at hs' hr
      obtain ⟨rfl, rfl⟩ := hs'
      subst hr
      obtain ⟨init, tokens, e⟩ := h2 hlast
      subst e
      rw [pushToken_append] at hp
      simp only [Option.some.injEq] at hp
      subst hp
      obtain ⟨lists, _, ht⟩ := closeInto_tokenLists below h1
        (fun b hb => h3 b (List.mem_cons_of_mem _ hb))
      have h3top := h3 _ (List.mem_cons_self _ _)
      rw [tokenLists_append, tokenLists_leaf] at h3top
      constructor
      · refine Or.inl ⟨rfl, _, _, rfl, h1, fun _ => ⟨init, tokens ++ [tok], rfl⟩, ?_⟩
        intro b hb
        rcases List.mem_cons.mp hb with e | hb
        · rw [e, tokenLists_append, tokenLists_leaf]
          intro hmem
          rcases List.mem_append.mp hmem with hmem | hmem
          · exact h3top (List.mem_append_left _ hmem)
          · simp at hmem
        · exact h3 b (List.mem_cons_of_mem _ hb)
      · refine Or.inr (Or.inr ⟨hty, hlast, lists ++ tokenLists init, tokens, tok, ?_, ?_⟩)
        · rw [config_of_stack, ht, tokenLists_append, tokenLists_leaf, List.append_assoc]
        · rw [config_of_stack, ht, tokenLists_append, tokenLists_leaf, List.append_assoc]
    · simp at hs'
  · -- a semicolon
    subst e2
    constructor
    · rcases hinv with ⟨hr, top, below, hs, h1, _, h3⟩ | ⟨_, hnw, _⟩
      · exact Or.inl ⟨hr, top, below, hs, h1, fun hw => by simp [isWordToken] at hw, h3⟩
      · exact absurd hlast hnw
    · exact Or.inl ⟨rfl, Or.inr (by simp [isWordToken])⟩
  · -- an opening brace
    subst hs; subst e2
    rcases hinv with ⟨hr, top', below', hs', h1, h2, h3⟩ | ⟨hs', _⟩
    · simp only [List.cons.injEq] at hs' hr
      obtain ⟨rfl, rfl⟩ := hs'
      subst hr
      obtain ⟨init, tokens, e⟩ := h2 hlast
      subst e
      rw [setChild_append] at hp
      simp only [Option.some.injEq] at hp
      subst hp
      obtain ⟨lists, _, ht⟩ := closeInto_tokenLists below h1
        (fun b hb => h3 b (List.mem_cons_of_mem _ hb))
      have h3top := h3 _ (List.mem_cons_self _ _)
      have e1 : tokenLists (init ++ [.mk tokens (some [])]) =
          tokenLists (init ++ [.mk tokens none]) := by
        rw [tokenLists_append, tokenLists_append, tokenLists_leaf, tokenLists_node,
          tokenLists_nil]
      constructor
      · refine Or.inl ⟨rfl, [], _, rfl, ?_, fun hw => by simp [isWordToken] at hw, ?_⟩
        · intro b hb
          rcases List.mem_cons.mp hb with e | hb
          · rw [e]; simp
          · exact h1 b hb
        · intro b hb
          rcases List.mem_cons.mp hb with e | hb
          · rw [e, tokenLists_nil]; simp
          · rcases List.mem_cons.mp hb with e | hb
            · rw [e, e1]; exact h3top
            · exact h3 b (List.mem_cons_of_mem _ hb)
      · refine Or.inl ⟨?_, Or.inr (by simp [isWordToken])⟩
        rw [config_of_stack, config_of_stack,
          closeInto_cons [] _ below init tokens (some []) rfl, ht, ht, e1]
    · simp at hs'
  · -- the closing brace of the root block
    subst hs; subst e2
    rcases hinv with ⟨hr, top', below', hs', h1, h2, h3⟩ | ⟨hs', _⟩
    · simp only [List.cons.injEq] at hs' hr
      obtain ⟨rfl, rfl⟩ := hs'
      subst hr
      constructor
      · exact Or.inr ⟨rfl, by simp [isWordToken], root, rfl, h3 root (List.mem_cons_self _ _)⟩
      · refine Or.inl ⟨?_, Or.inr (by simp [isWordToken])⟩
        simp [ParserState.config, closeBlocks, closeInto]
    · simp at hs'
  · -- the closing brace of a child block
    subst hs; subst e2
    rcases hinv with ⟨hr, top', below', hs', h1, h2, h3⟩ | ⟨hs', _⟩
    · simp only [List.cons.injEq] at hs' hr
      obtain ⟨rfl, rfl⟩ := hs'
      subst hr
      obtain ⟨init, tokens, c, e⟩ := block_eq_init_last parent (h1 parent (List.mem_cons_self _ _))
      subst e
      rw [setChild_append] at hp
      simp only [Option.some.injEq] at hp
      subst hp
      have h3child := h3 child (List.mem_cons_self _ _)
      have h3parent := h3 _ (List.mem_cons_of_mem _ (List.mem_cons_self _ _))
      obtain ⟨more, hm⟩ := tokenLists_last init tokens c
      rw [hm] at h3parent
      constructor
      · refine Or.inl ⟨rfl, _, below, rfl, fun b hb => h1 b (List.mem_cons_of_mem _ hb),
          fun hw => by simp [isWordToken] at hw, ?_⟩
        intro b hb
        rcases List.mem_cons.mp hb with e | hb
        · rw [e, tokenLists_append, tokenLists_node]
          intro hmem
          rcases List.mem_append.mp hmem with hmem | hmem
          · exact h3parent (List.mem_append_left _ hmem)
          · rcases List.mem_cons.mp hmem with hmem | hmem
            · exact h3parent (List.mem_append_right _ (by rw [hmem]; exact List.mem_cons_self _ _))
            · exact h3child hmem
        · exact h3 b (List.mem_cons_of_mem _ (List.mem_cons_of_mem _ hb))
      · refine Or.inl ⟨?_, Or.inr (by simp [isWordToken])⟩
        rw [config_of_stack, config_of_stack, closeInto_cons child _ below init tokens c rfl]
    · simp at hs'

theorem ParseStates_head (fuel : Nat) (st : ParserState) (input : Str) :
    ParseStates fuel st input = [] ∨ ∃ tail, ParseStates fuel st input = st :: tail := by
  cases fuel with
  | zero => exact Or.inl rfl
  | succ fuel => exact Or.inr ⟨_, rfl⟩

theorem ParseStates_invariant (fuel : Nat) :
    ∀ (st : ParserState) (input : Str), LoopInvariant st →
      (∀ s ∈ ParseStates fuel st input, LoopInvariant s) ∧
      List.Chain' TokensExtend (ParseStates fuel st input) := by
  induction fuel with
  | zero => intro st input _; simp [ParseStates]
  | succ fuel ih =>
    intro st input hinv
    simp only [ParseStates]
    cases hs : ParseStep st input with
    | done o => simp [hinv]
    | next st2 rest =>
      simp only []
      obtain ⟨hinv2, hext⟩ := LoopInvariant_step st st2 input rest hinv hs
      obtain ⟨h1, h2⟩ := ih st2 rest hinv2
      constructor
      · intro s hmem
        rcases List.mem_cons.mp hmem with e | hmem
        · rw [e]; exact hinv
        · exact h1 s hmem
      · rcases ParseStates_head fuel st2 rest with e | ⟨tail, e⟩
        · rw [e]; simp
        · rw [e] at h2 ⊢
          exact List.Chain'.cons hext h2

theorem ParseLoop_returned_invariant (fuel : Nat) :
    ∀ (st : ParserState) (input : Str) (b : Bool) (config : NginxConfig), LoopInvariant st →
      ParseLoop fuel st input = .returned b config → [] ∉ tokenLists config := by
  induction fuel with
  | zero => intro st input b config _ h; simp [ParseLoop] at h
  | succ fuel ih =>
    intro st input b config hinv h
    rw [ParseLoop_succ] at h
    cases hs : ParseStep st input with
    | done o =>
      rw [hs] at h
      simp only [] at h
      subst h
      rw [(ParseStep_done_cases st input b config hs).1]
      exact LoopInvariant_config st hinv
    | next st2 rest =>
      rw [hs] at h
      exact ih st2 rest b config (LoopInvariant_step st st2 input rest hinv hs).1 h

/-- C24. In the state in which the loop of `Parse` starts any of its
iterations, and in the tree `Parse` leaves when it returns true or false,
every statement of every block has at least one token.  From one iteration to
the next the token lists of the statements of the tree, in depth-first order,
change only at the end: a word read after a token that is not a word adds a
new list of that one token, a word read directly after a word adds the token
to the last list, and no other token changes any list; so once a statement
has been followed by `;` or `{` its token list stays as it is. -/
theorem parse_statements_never_empty (input : Str) :
    (∀ st ∈ ParseStates (input.length + 1) ParserState.initial input,
      ∀ statement ∈ dfsBlock st.config, statement.tokens_ ≠ []) ∧
    (∀ (b : Bool) (config : NginxConfig), Parse input = .returned b config →
      ∀ statement ∈ dfsBlock config, statement.tokens_ ≠ []) ∧
    List.Chain' TokensExtend (ParseStates (input.length + 1) ParserState.initial input) := by
  have key : ∀ config : NginxConfig, [] ∉ tokenLists config →
      ∀ statement ∈ dfsBlock config, statement.tokens_ ≠ [] := by
    intro config h statement hmem e
    exact h (by rw [← e]; exact List.mem_map_of_mem _ hmem)
  obtain ⟨h1, h2⟩ := ParseStates_invariant (input.length + 1) ParserState.initial input
    LoopInvariant_initial
  refine ⟨?_, ?_, h2⟩
  · intro st hst
    exact key _ (LoopInvariant_config st (h1 st hst))
  · intro b config h
    exact key _ (ParseLoop_returned_invariant _ _ _ b config LoopInvariant_initial h)

/-- The run of `Parse` on `a b; c { d; }`: the tree it leaves, and the token
lists of the tree at the start of each of the nine iterations. -/
theorem parse_statements_never_empty_witness :
    Parse "a b; c \x7b d; \x7d".toList =
      .returned true [.mk ["a".toList, "b".toList] none,
        .mk ["c".toList] (some [.mk ["d".toList] none])] ∧
    (∀ statement ∈ dfsBlock [.mk ["a".toList, "b".toList] none,
        .mk ["c".toList] (some [.mk ["d".toList] none])], statement.tokens_ ≠ []) ∧
    (ParseStates 14 ParserState.initial "a b; c \x7b d; \x7d".toList).map
        (fun st => tokenLists st.config) =
      [[], [["a".toList]], [["a".toList, "b".toList]], [["a".toList, "b".toList]],
        [["a".toList, "b".toList], ["c".toList]], [["a".toList, "b".toList], ["c".toList]],
        [["a".toList, "b".toList], ["c".toList], ["d".toList]],
        [["a".toList, "b".toList], ["c".toList], ["d".toList]],
        [["a".toList, "b".toList], ["c".toList], ["d".toList]]] ∧
    List.Chain' TokensExtend (ParseStates 14 ParserState.initial "a b; c \x7b d; \x7d".toList) :=
  ⟨rfl, (parse_statements_never_empty "a b; c \x7b d; \x7d".toList).2.1 true _ rfl, by decide,
    (parse_statements_never_empty "a b; c \x7b d; \x7d".toList).2.2⟩

/-! ## Theorems: the listen port as a `short` -/

theorem toShort_large (n : Nat) (h1 : 32768 ≤ n) (h2 : n ≤ 65535) :
    toShort (n : Int) = (n : Int) - 65536 := by
  unfold toShort
  omega

/-- C31, as amended.  When the `listen` statement that the depth-first search
selects has as second token a non-empty string of decimal digits of value
`n ≤ 65535`, `find_listen_port` returns `n` for `n ≤ 32767` and `n - 65536`
for `32768 ≤ n ≤ 65535`: the value of `std::stoi` converted to the 16-bit
signed `short` that the function returns. -/
theorem find_listen_port_short (tree : NginxConfig) (st : NginxConfigStatement) (ds : Str)
    (hsel : selectedStatement tree listenKey = some st)
    (htok : secondToken st = ds)
    (hne : ds ≠ []) (hdig : ∀ c ∈ ds, c.isDigit = true)
    (hmax : digitsValue ds ≤ 65535) :
    (digitsValue ds ≤ 32767 → find_listen_port tree = .ok (digitsValue ds : Int)) ∧
    (32768 ≤ digitsValue ds →
      find_listen_port tree = .ok ((digitsValue ds : Int) - 65536)) := by
  unfold selectedStatement at hsel
  have h1 : find_value_for_key tree listenKey = some ds := by
    rw [find_value_for_key_eq, hsel]; simp [htok]
  constructor
  · intro h
    simp only [find_listen_port, h1, stoi_digits ds hne hdig (by omega), toShort_small _ h]
  · intro h
    simp only [find_listen_port, h1, stoi_digits ds hne hdig (by omega), toShort_large _ h hmax]

/-- The port 8080 at the root is returned as 8080; the port 65535 in a nested
block is returned as -1. -/
theorem find_listen_port_short_witness :
    find_listen_port [.mk ["listen".toList, "8080".toList] none] = .ok 8080 ∧
    find_listen_port [.mk ["server".toList] (some [.mk ["listen".toList, "65535".toList] none])] =
      .ok (-1) :=
  ⟨(find_listen_port_short [.mk ["listen".toList, "8080".toList] none]
      (.mk ["listen".toList, "8080".toList] none) "8080".toList rfl rfl (by decide) (by decide)
      (by decide)).1 (by decide),
    (find_listen_port_short
      [.mk ["server".toList] (some [.mk ["listen".toList, "65535".toList] none])]
      (.mk ["listen".toList, "65535".toList] none) "65535".toList rfl rfl (by decide) (by decide)
      (by decide)).2 (by decide)⟩

/-- For `listen 40000;` the function returns -25536, not 40000, and the
startup of the server goes on with that value as its port. -/
theorem find_listen_port_high_counterexample :
    find_listen_port [.mk ["listen".toList, "40000".toList] none] = .ok (-25536) ∧
    (main_startup "listen 40000;\n".toList).port = some (-25536) := by
  decide

/-! ## Theorems: a `location` statement of two tokens -/

/-- C32.  A root statement `location /x;` has two tokens.  The test of
`extract_handler_configs` is `tokens_.size() >= 2`, so the statement is taken
for a route statement and `tokens_[2]` is read, an index equal to the token
count: the read is out of bounds, for the statement alone and for the tree
that `Parse` builds from the text `listen 80;` / `location /x;`. -/
theorem extract_location_two_tokens :
    extract_statement (.mk ["location".toList, "/x".toList] none) = .undefinedBehaviour ∧
    extract_handler_configs [.mk ["listen".toList, "80".toList] none,
      .mk ["location".toList, "/x".toList] none] = .undefinedBehaviour ∧
    Parse "listen 80;\nlocation /x;\n".toList =
      .returned true [.mk ["listen".toList, "80".toList] none,
        .mk ["location".toList, "/x".toList] none] := by
  refine ⟨rfl, rfl, rfl⟩

/-! ## Theorems: the block stack and the length of the run -/

/-- C38.  The inputs `a; } b;` and `a; } }`: the `}` at depth zero is accepted
and pops the root block, so the stack is empty (and `open_blocks` is -1) when
the next token is processed; the word `b` then reads the top of the empty
stack and the second `}` pops it, which is undefined behaviour. -/
theorem parse_pops_root_block :
    (ParseStates 8 ParserState.initial "a; \x7d b;".toList).map
        (fun st => st.config_stack.length) = [1, 1, 1, 0] ∧
    (ParseStates 8 ParserState.initial "a; \x7d b;".toList).map
        (fun st => st.open_blocks) = [0, 0, 0, -1] ∧
    (ParseStates 8 ParserState.initial "a; \x7d \x7d".toList).map
        (fun st => st.config_stack.length) = [1, 1, 1, 0] ∧
    (Parse "a; \x7d b;".toList).isUndefined = true ∧
    (Parse "a; \x7d \x7d".toList).isUndefined = true := by
  decide

theorem ParseStates_length (fuel : Nat) :
    ∀ (st : ParserState) (input : Str), (ParseStates fuel st input).length ≤ input.length + 1 := by
  induction fuel with
  | zero => intro st input; simp [ParseStates]
  | succ fuel ih =>
    intro st input
    simp only [ParseStates, List.length_cons]
    cases hs : ParseStep st input with
    | done o => simp
    | next st2 rest =>
      simp only []
      obtain ⟨hr, h1, h2, _⟩ := ParseStep_next_token st st2 input rest hs
      have := ParseToken_consumes input h1 h2
      have := ih st2 rest
      rw [hr] at this ⊢
      omega

/-- The bound on the loop of `Parse`.  A `ParseToken` call that returns a token
other than end-of-stream and error leaves strictly fewer characters than it
was given; from every state the loop runs at most `input.length + 1` times;
`input.length + 1` iterations, and every larger number, give the outcome of
`Parse`; and unless the run reads or pops the empty block stack that outcome
is a return of true or false with a tree. -/
theorem parse_terminates_within_length (input : Str) :
    ((ParseToken input).1 ≠ TOKEN_TYPE_EOF → (ParseToken input).1 ≠ TOKEN_TYPE_ERROR →
      (ParseToken input).2.2.length < input.length) ∧
    (∀ (fuel : Nat) (st : ParserState), (ParseStates fuel st input).length ≤ input.length + 1) ∧
    Parse input ≠ .fuelExhausted ∧
    (∀ extra : Nat, ParseLoop (input.length + 1 + extra) ParserState.initial input = Parse input) ∧
    ((Parse input).isUndefined = false → ∃ b config, Parse input = .returned b config) := by
  refine ⟨ParseToken_consumes input, fun fuel st => ParseStates_length fuel st input,
    Parse_terminates input, fun extra => ParseLoop_mono _ _ _ (Parse_terminates input) extra, ?_⟩
  intro h
  have ht := Parse_terminates input
  cases hp : Parse input with
  | returned b c => exact ⟨b, c, rfl⟩
  | undefinedBehaviour => rw [hp] at h; simp [ParseOutcome.isUndefined] at h
  | fuelExhausted => exact absurd hp ht

/-- The text `listen 80;`: its first token leaves fewer characters, and `Parse`
returns. -/
theorem parse_terminates_within_length_witness :
    (ParseToken "listen 80;".toList).2.2.length < "listen 80;".toList.length ∧
    ∃ b config, Parse "listen 80;".toList = .returned b config :=
  ⟨(parse_terminates_within_length "listen 80;".toList).1 (by decide) (by decide),
    (parse_terminates_within_length "listen 80;".toList).2.2.2.2 (by decide)⟩

/-! ## Theorems: what an insert and a lookup leave unchanged -/

theorem bestMatch_congr_prefix {α : Type} (sg : List Str) :
    ∀ (M N : List Str → Option α), (∀ L, L ≠ [] → L <+: sg → M L = N L) →
      bestMatch M sg = bestMatch N sg := by
  induction sg with
  | nil => intro M N _; rfl
  | cons s r ih =>
    intro M N h
    simp only [bestMatch]
    rw [ih (fun L => M (s :: L)) (fun L => N (s :: L))
        (fun L hL hp => h (s :: L) (by simp) (by simpa using hp)),
      h [s] (by simp) (by simp)]

theorem stripQuery_eq_path (u : Str) : TrieNode.stripQuery u = path u := by
  unfold TrieNode.stripQuery path
  exact findChar_take '?' u

theorem childUpdate_same {α : Type} (token : Str) (child : TrieNode α) :
    ∀ ch : List (Str × TrieNode α), TrieNode.childLookup token ch = some child →
      TrieNode.childUpdate token (fun _ => child) ch = ch := by
  intro ch
  induction ch with
  | nil => intro h; simp [TrieNode.childLookup] at h
  | cons kn rest ih =>
    obtain ⟨k, n⟩ := kn
    intro h
    by_cases hk : k = token
    · simp only [TrieNode.childLookup, hk, if_true, Option.some.injEq] at h
      simp [TrieNode.childUpdate, hk, h]
    · simp only [TrieNode.childLookup, hk, if_false] at h
      simp [TrieNode.childUpdate, hk, ih h]

theorem findTokensVisit_spec {α : Type} (toks : List Str) :
    ∀ (t : TrieNode α) (last : Option α),
      TrieNode.findTokensVisit toks t last = (TrieNode.findTokens toks t last, t) := by
  induction toks with
  | nil => intro t last; cases t; rfl
  | cons tok rest ih =>
    intro t last
    obtain ⟨ch, cfg⟩ := t
    by_cases h : tok = []
    · simp only [TrieNode.findTokensVisit, TrieNode.findTokens, h, if_true]
      exact ih _ _
    · simp only [TrieNode.findTokensVisit, TrieNode.findTokens, h, if_false]
      cases hl : TrieNode.childLookup tok ch with
      | none => rfl
      | some child =>
        simp only [ih, childUpdate_same tok child ch hl]

/-- C40.  Inserting a prefix leaves unrelated lookups unchanged: when the
non-empty segments of `p` are not a prefix of the non-empty segments of the
path of `u` (`u` cut at its first `?`), `find u` after `insert p e` is
`find u` before.  And `find` leaves the trie as it was: it adds no node and
changes no stored entry. -/
theorem insert_leaves_unrelated_lookups {α : Type} (t : TrieNode α) (p : Str) (e : Option α)
    (u : Str) (h : ¬ segs p <+: segs (path u)) :
    (t.insert p e).find u = t.find u ∧
    (∀ (node : TrieNode α) (uri : Str), node.findVisit uri = (node.find uri, node)) := by
  constructor
  · rw [find_eq_bestMatch_cfgAt, find_eq_bestMatch_cfgAt, stripQuery_eq_path]
    apply bestMatch_congr_prefix
    intro L _ hp
    show cfgAt L (t.insert p e) = cfgAt L t
    unfold TrieNode.insert
    rw [cfgAt_insertTokens, ← segs_eq_getlineTokens, if_neg]
    intro hL
    exact h (hL ▸ hp)
  · intro node uri
    exact findTokensVisit_spec _ node none

/-- After inserting `/static/img` the lookup of `/static/css/a.css?v=1` still
finds the entry of `/static`, while `/static/img` finds the new entry. -/
theorem insert_leaves_unrelated_lookups_witness :
    ((TrieNode.build [("/static".toList, 1), ("/api".toList, 2)]).insert
        "/static/img".toList (some 3)).find "/static/css/a.css?v=1".toList = some 1 ∧
    ((TrieNode.build [("/static".toList, 1), ("/api".toList, 2)]).insert
        "/static/img".toList (some 3)).find "/static/img".toList = some 3 :=
  ⟨((insert_leaves_unrelated_lookups (TrieNode.build [("/static".toList, 1), ("/api".toList, 2)])
      "/static/img".toList (some 3) "/static/css/a.css?v=1".toList (by decide)).1).trans
      (by decide), by decide⟩

/-! ## Theorems: the validation of the CRUD handler -/

/-- C37.  The validation of `CrudHandler::handle_request`, in this order, each
case without an entity-store operation: a URI that does not start with
`/api/` gives 404 `Not Found`; otherwise an empty entity segment (nothing
between `/api/` and the next `/` or the end) gives 400 `Bad Request`;
otherwise a method other than POST, GET, PUT and DELETE gives 405
`Method Not Allowed`. -/
theorem crud_handle_request_validation (actions : CrudActions) (req : request) :
    (¬ "/api/".toList <+: req.uri →
      CrudHandler.handle_request actions req =
        ({ http_version := "HTTP/1.1".toList, status_code := 404,
           reason_phrase := "Not Found".toList,
           headers := [("Content-Type".toList, "application/json".toList)],
           body := "Invalid API prefix".toList }, [])) ∧
    ("/api/".toList <+: req.uri → (req.uri.drop 5).takeWhile (fun c => c ≠ '/') = [] →
      CrudHandler.handle_request actions req =
        ({ http_version := "HTTP/1.1".toList, status_code := 400,
           reason_phrase := "Bad Request".toList,
           headers := [("Content-Type".toList, "application/json".toList)],
           body := "Missing entity type.".toList }, [])) ∧
    ("/api/".toList <+: req.uri → (req.uri.drop 5).takeWhile (fun c => c ≠ '/') ≠ [] →
      req.method ≠ "POST".toList → req.method ≠ "GET".toList →
      req.method ≠ "PUT".toList → req.method ≠ "DELETE".toList →
      CrudHandler.handle_request actions req =
        ({ http_version := "HTTP/1.1".toList, status_code := 405,
           reason_phrase := "Method Not Allowed".toList,
           headers := [("Content-Type".toList, "application/json".toList)],
           body := "Unsupported operation for given URI.".toList }, [])) := by
  have hpre : "/api/".toList <+: req.uri ↔ req.uri.take 5 = "/api/".toList := by
    constructor
    · rintro ⟨t, ht⟩
      rw [← ht]; simp
    · intro h
      exact ⟨req.uri.drop 5, by rw [← h, List.take_append_drop]⟩
  have hlen : "/api/".toList.length = 5 := rfl
  refine ⟨?_, ?_, ?_⟩
  · intro h
    have : req.uri.take 5 ≠ "/api/".toList := fun e => h (hpre.mpr e)
    simp only [CrudHandler.handle_request, hlen, ne_eq, this, not_false_eq_true, if_true]
    rfl
  · intro h hempty
    have := hpre.mp h
    have key := findChar_take '/' (req.uri.drop 5)
    simp only [CrudHandler.handle_request, hlen, ne_eq, this, not_true_eq_false, if_false]
    cases hf : findChar '/' (req.uri.drop 5) with
    | none =>
      rw [hf] at key
      simp only [] at key ⊢
      rw [if_pos (key.trans hempty)]
      rfl
    | some pos =>
      rw [hf] at key
      simp only [] at key ⊢
      rw [if_pos (key.trans hempty)]
      rfl
  · intro h hne h1 h2 h3 h4
    have := hpre.mp h
    have key := findChar_take '/' (req.uri.drop 5)
    simp only [CrudHandler.handle_request, hlen, ne_eq, this, not_true_eq_false, if_false,
      h1, h2, h3, h4]
    cases hf : findChar '/' (req.uri.drop 5) with
    | none =>
      rw [hf] at key
      simp only [] at key ⊢
      rw [if_neg (fun e => hne (key.symm.trans e))]
      rfl
    | some pos =>
      rw [hf] at key
      simp only [] at key ⊢
      rw [if_neg (fun e => hne (key.symm.trans e))]
      rfl

/-- The three requests of the handler's tests: a wrong first segment, no
entity, and the method `PATCH`. -/
theorem crud_handle_request_validation_witness :
    (CrudHandler.handle_request ⟨fun _ _ => ({}, ["create".toList]), fun _ _ => ({}, ["read".toList]),
        fun _ _ _ => ({}, ["write".toList]), fun _ _ => ({}, ["delete".toList])⟩
      { method := "GET".toList, uri := "/invalidprefix/Shoes/1".toList }).1.status_code = 404 ∧
    (CrudHandler.handle_request ⟨fun _ _ => ({}, ["create".toList]), fun _ _ => ({}, ["read".toList]),
        fun _ _ _ => ({}, ["write".toList]), fun _ _ => ({}, ["delete".toList])⟩
      { method := "GET".toList, uri := "/api/".toList }) =
      ({ http_version := "HTTP/1.1".toList, status_code := 400,
         reason_phrase := "Bad Request".toList,
         headers := [("Content-Type".toList, "application/json".toList)],
         body := "Missing entity type.".toList }, []) ∧
    (CrudHandler.handle_request ⟨fun _ _ => ({}, ["create".toList]), fun _ _ => ({}, ["read".toList]),
        fun _ _ _ => ({}, ["write".toList]), fun _ _ => ({}, ["delete".toList])⟩
      { method := "PATCH".toList, uri := "/api/Shoes/1".toList }).2 = [] :=
  ⟨by rw [(crud_handle_request_validation _ _).1 (by decide)],
    (crud_handle_request_validation _ _).2.1 (by decide) (by decide),
    by rw [(crud_handle_request_validation _ _).2.2 (by decide) (by decide) (by decide)
      (by decide) (by decide) (by decide)]⟩

/-! ## Theorems: the static file handler, evaluated -/

/-- C35.  The request URI `/static//etc/passwd` on a handler mounted at `/static`
with document root `/var/www/static`: the remainder `/etc/passwd` has the
elements `/`, `etc`, `passwd`, none of which is `..`, the loop joins them to
the absolute path `/etc/passwd`, and `doc_root / safe` with an absolute `safe`
is `safe`; the handler answers 200 with the contents of `/etc/passwd`, a file
outside the document root.  A remainder with a `..` element gives 404 without
a read, and a plain remainder is read beneath the document root. -/
theorem static_file_absolute_remainder :
    pathElements "/etc/passwd".toList = ["/".toList, "etc".toList, "passwd".toList] ∧
    StaticFileHandler.safePath (pathElements "/etc/passwd".toList) [] =
      some "/etc/passwd".toList ∧
    pathAppend "/var/www/static".toList "/etc/passwd".toList = "/etc/passwd".toList ∧
    StaticFileHandler.handle_request "/static".toList "/var/www/static".toList
        (fun p => if p = "/etc/passwd".toList then some "root:x:0:0".toList else none)
        { method := "GET".toList, uri := "/static//etc/passwd".toList,
          http_version := "HTTP/1.1".toList } =
      ({ http_version := "HTTP/1.1".toList, status_code := 200, reason_phrase := "OK".toList,
         headers := [("Content-Length".toList, "10".toList),
           ("Content-Type".toList, "application/octet-stream".toList)],
         body := "root:x:0:0".toList }, some "/etc/passwd".toList) ∧
    StaticFileHandler.handle_request "/static".toList "/var/www/static".toList
        (fun p => if p = "/var/www/secret.txt".toList then some "s".toList else none)
        { method := "GET".toList, uri := "/static/../secret.txt".toList,
          http_version := "HTTP/1.1".toList } =
      ({ http_version := "HTTP/1.1".toList, status_code := 404,
         reason_phrase := "Not Found".toList, body := "404 Not Found".toList }, none) ∧
    StaticFileHandler.handle_request "/static".toList "/var/www/static".toList
        (fun p => if p = "/var/www/static/css/style.css".toList then some "a".toList else none)
        { method := "GET".toList, uri := "/static/css/style.css".toList,
          http_version := "HTTP/1.1".toList } =
      ({ http_version := "HTTP/1.1".toList, status_code := 200, reason_phrase := "OK".toList,
         headers := [("Content-Length".toList, "1".toList),
           ("Content-Type".toList, "text/css".toList)],
         body := "a".toList }, some "/var/www/static/css/style.css".toList) := by
  decide

/-! ## Theorems: the quiz result -/

theorem strLt_irrefl (a : Str) : strLt a a = false := by
  induction a with
  | nil => rfl
  | cons c cs ih => simp [strLt, ih]

theorem strLt_asymm (a b : Str) (h : strLt a b = true) : strLt b a = false := by
  by_contra hc
  have hba : strLt b a = true := by simpa using hc
  have := strLt_trans a b a h hba
  rw [strLt_irrefl] at this
  exact absurd this (by simp)

theorem countAnswers_eq (params : List (Str × Str)) :
    ∀ counts : List (Str × Nat),
      params.foldl (fun counts kv =>
        if isAnswerField kv.1 then countsIncrement counts kv.2 else counts) counts =
      (answerValues params).foldl countsIncrement counts := by
  induction params with
  | nil => intro counts; rfl
  | cons kv rest ih =>
    intro counts
    by_cases h : isAnswerField kv.1 = true
    · simp only [List.foldl_cons, h, if_true, answerValues, List.filter_cons, List.map_cons]
      exact ih _
    · simp only [List.foldl_cons, h, if_false, answerValues, List.filter_cons]
      exact ih _

theorem countsIncrement_eq (k : Str) (n : Nat) (rest : List (Str × Nat)) (val : Str) :
    (k = val → countsIncrement ((k, n) :: rest) val = (k, n + 1) :: rest) ∧
    (k ≠ val → strLt val k = true →
      countsIncrement ((k, n) :: rest) val = (val, 1) :: (k, n) :: rest) ∧
    (k ≠ val → strLt val k = false →
      countsIncrement ((k, n) :: rest) val = (k, n) :: countsIncrement rest val) := by
  refine ⟨?_, ?_, ?_⟩
  · intro h; simp [countsIncrement, h]
  · intro h1 h2; simp [countsIncrement, h1, h2]
  · intro h1 h2; simp [countsIncrement, h1, h2]

theorem countsIncrement_keys (counts : List (Str × Nat)) (val : Str) :
    ∀ x m, (x, m) ∈ countsIncrement counts val → x = val ∨ ∃ m2, (x, m2) ∈ counts := by
  induction counts with
  | nil =>
    intro x m h
    simp only [countsIncrement, List.mem_singleton, Prod.mk.injEq] at h
    exact Or.inl h.1
  | cons kn rest ih =>
    obtain ⟨k, n⟩ := kn
    intro x m h
    by_cases hk : k = val
    · rw [(countsIncrement_eq k n rest val).1 hk] at h
      rcases List.mem_cons.mp h with e | h
      · simp only [Prod.mk.injEq] at e
        exact Or.inl (e.1.trans hk)
      · exact Or.inr ⟨m, List.mem_cons_of_mem _ h⟩
    · by_cases hlt : strLt val k = true
      · rw [(countsIncrement_eq k n rest val).2.1 hk hlt] at h
        rcases List.mem_cons.mp h with e | h
        · simp only [Prod.mk.injEq] at e
          exact Or.inl e.1
        · exact Or.inr ⟨m, h⟩
      · rw [(countsIncrement_eq k n rest val).2.2 hk (by simpa using hlt)] at h
        rcases List.mem_cons.mp h with e | h
        · exact Or.inr ⟨m, by rw [e]; exact List.mem_cons_self _ _⟩
        · rcases ih x m h with e | ⟨m2, h2⟩
          · exact Or.inl e
          · exact Or.inr ⟨m2, List.mem_cons_of_mem _ h2⟩

theorem countsIncrement_sorted (counts : List (Str × Nat)) (val : Str)
    (hs : counts.Pairwise (fun a b => strLt a.1 b.1 = true)) :
    (countsIncrement counts val).Pairwise (fun a b => strLt a.1 b.1 = true) := by
  induction counts with
  | nil => simp [countsIncrement]
  | cons kn rest ih =>
    obtain ⟨k, n⟩ := kn
    rw [List.pairwise_cons] at hs
    obtain ⟨h1, h2⟩ := hs
    by_cases hk : k = val
    · rw [(countsIncrement_eq k n rest val).1 hk, List.pairwise_cons]
      exact ⟨fun b hb => h1 b hb, h2⟩
    · by_cases hlt : strLt val k = true
      · rw [(countsIncrement_eq k n rest val).2.1 hk hlt, List.pairwise_cons, List.pairwise_cons]
        refine ⟨?_, h1, h2⟩
        intro b hb
        rcases List.mem_cons.mp hb with e | hb
        · rw [e]; exact hlt
        · exact strLt_trans val k b.1 hlt (h1 b hb)
      · have hlt2 : strLt val k = false := by simpa using hlt
        rw [(countsIncrement_eq k n rest val).2.2 hk hlt2, List.pairwise_cons]
        refine ⟨?_, ih h2⟩
        intro b hb
        obtain ⟨x, m⟩ := b
        rcases countsIncrement_keys rest val x m hb with e | ⟨m2, hm2⟩
        · show strLt k x = true
          rw [e]
          exact strLt_total val k (fun e2 => hk e2.symm) hlt2
        · exact h1 (x, m2) hm2

theorem sorted_key_unique (counts : List (Str × Nat))
    (hs : counts.Pairwise (fun a b => strLt a.1 b.1 = true)) :
    ∀ x m1 m2, (x, m1) ∈ counts → (x, m2) ∈ counts → m1 = m2 := by
  induction counts with
  | nil => intro x m1 m2 h; simp at h
  | cons kn rest ih =>
    rw [List.pairwise_cons] at hs
    obtain ⟨h1, h2⟩ := hs
    intro x m1 m2 ha hb
    rcases List.mem_cons.mp ha with ea | ha <;> rcases List.mem_cons.mp hb with eb | hb
    · rw [← ea] at eb
      simp only [Prod.mk.injEq] at eb
      exact eb.2.symm
    · have := h1 (x, m2) hb
      rw [← ea] at this
      simp only [strLt_irrefl] at this
      exact absurd this (by simp)
    · have := h1 (x, m1) ha
      rw [← eb] at this
      simp only [strLt_irrefl] at this
      exact absurd this (by simp)
    · exact ih h2 x m1 m2 ha hb

theorem countsIncrement_mem (counts : List (Str × Nat)) (val : Str)
    (hs : counts.Pairwise (fun a b => strLt a.1 b.1 = true)) :
    ∀ x m, (x, m) ∈ countsIncrement counts val ↔
      (x ≠ val ∧ (x, m) ∈ counts) ∨
      (x = val ∧ ((∃ n, (val, n) ∈ counts ∧ m = n + 1) ∨
        ((∀ n, (val, n) ∉ counts) ∧ m = 1))) := by
  induction counts with
  | nil =>
    intro x m
    simp only [countsIncrement, List.mem_singleton, Prod.mk.injEq, List.not_mem_nil, and_false,
      false_or, exists_false, not_false_eq_true, implies_true, true_and, false_and]
  | cons kn rest ih =>
    obtain ⟨k, n⟩ := kn
    rw [List.pairwise_cons] at hs
    obtain ⟨h1, h2⟩ := hs
    have hnot : ∀ n2, (k, n2) ∉ rest := by
      intro n2 hmem
      have := h1 _ hmem
      simp only [strLt_irrefl] at this
      exact absurd this (by simp)
    intro x m
    by_cases hk : k = val
    · rw [(countsIncrement_eq k n rest val).1 hk]
      subst hk
      constructor
      · intro h
        rcases List.mem_cons.mp h with e | h
        · simp only [Prod.mk.injEq] at e
          exact Or.inr ⟨e.1, Or.inl ⟨n, List.mem_cons_self _ _, e.2⟩⟩
        · refine Or.inl ⟨?_, List.mem_cons_of_mem _ h⟩
          intro e
          exact hnot m (e ▸ h)
      · rintro (⟨hx, h⟩ | ⟨hx, ⟨n2, h, hm⟩ | ⟨hno, _⟩⟩)
        · rcases List.mem_cons.mp h with e | h
          · simp only [Prod.mk.injEq] at e
            exact absurd e.1 hx
          · exact List.mem_cons_of_mem _ h
        · rcases List.mem_cons.mp h with e | h
          · simp only [Prod.mk.injEq] at e
            rw [hx, hm, e.2]
            exact List.mem_cons_self _ _
          · exact absurd h (hnot n2)
        · exact absurd (List.mem_cons_self _ _) (hno n)
    · by_cases hlt : strLt val k = true
      · have hnoval : ∀ n2, (val, n2) ∉ (k, n) :: rest := by
          intro n2 hmem
          rcases List.mem_cons.mp hmem with e | hmem
          · simp only [Prod.mk.injEq] at e
            exact hk e.1.symm
          · have := strLt_asymm val k hlt
            rw [h1 _ hmem] at this
            exact absurd this (by simp)
        rw [(countsIncrement_eq k n rest val).2.1 hk hlt]
        constructor
        · intro h
          rcases List.mem_cons.mp h with e | h
          · simp only [Prod.mk.injEq] at e
            exact Or.inr ⟨e.1, Or.inr ⟨hnoval, e.2⟩⟩
          · refine Or.inl ⟨?_, h⟩
            intro e
            exact hnoval m (e ▸ h)
        · rintro (⟨_, h⟩ | ⟨hx, ⟨n2, h, _⟩ | ⟨_, hm⟩⟩)
          · exact List.mem_cons_of_mem _ h
          · exact absurd h (hnoval n2)
          · rw [hx, hm]; exact List.mem_cons_self _ _
      · rw [(countsIncrement_eq k n rest val).2.2 hk (by simpa using hlt), List.mem_cons,
          ih h2 x m]
        constructor
        · rintro (e | ⟨hx, h⟩ | ⟨hx, ⟨n2, h, hm⟩ | ⟨hno, hm⟩⟩)
          · simp only [Prod.mk.injEq] at e
            exact Or.inl ⟨by rw [e.1]; exact hk, by rw [e.1, e.2]; exact List.mem_cons_self _ _⟩
          · exact Or.inl ⟨hx, List.mem_cons_of_mem _ h⟩
          · exact Or.inr ⟨hx, Or.inl ⟨n2, List.mem_cons_of_mem _ h, hm⟩⟩
          · refine Or.inr ⟨hx, Or.inr ⟨?_, hm⟩⟩
            intro n2 hmem
            rcases List.mem_cons.mp hmem with e | hmem
            · simp only [Prod.mk.injEq] at e
              exact hk e.1.symm
            · exact hno n2 hmem
        · rintro (⟨hx, h⟩ | ⟨hx, ⟨n2, h, hm⟩ | ⟨hno, hm⟩⟩)
          · rcases List.mem_cons.mp h with e | h
            · exact Or.inl e
            · exact Or.inr (Or.inl ⟨hx, h⟩)
          · rcases List.mem_cons.mp h with e | h
            · simp only [Prod.mk.injEq] at e
              exact absurd e.1.symm hk
            · exact Or.inr (Or.inr ⟨hx, Or.inl ⟨n2, h, hm⟩⟩)
          · exact Or.inr (Or.inr ⟨hx, Or.inr
              ⟨fun n2 hmem => hno n2 (List.mem_cons_of_mem _ hmem), hm⟩⟩)

theorem counts_step (counts : List (Str × Nat)) (answers : List Str) (val : Str)
    (hs : counts.Pairwise (fun a b => strLt a.1 b.1 = true))
    (hc : ∀ x m, (x, m) ∈ counts ↔ (0 < m ∧ m = answers.count x)) :
    ∀ x m, (x, m) ∈ countsIncrement counts val ↔ (0 < m ∧ m = (answers ++ [val]).count x) := by
  intro x m
  rw [countsIncrement_mem counts val hs x m, List.count_append, List.count_singleton]
  constructor
  · rintro (⟨hx, h⟩ | ⟨hx, ⟨n, h, hm⟩ | ⟨hno, hm⟩⟩)
    · have := (hc x m).mp h
      have hb : (val == x) = false := by simpa using fun e => hx e.symm
      simp only [hb, Bool.false_eq_true, if_false, Nat.add_zero]
      exact this
    · have := (hc val n).mp h
      subst hx
      simp only [beq_self_eq_true, if_true]
      omega
    · subst hx
      simp only [beq_self_eq_true, if_true]
      have h0 : answers.count x = 0 := by
        by_contra hne
        exact hno _ ((hc x _).mpr ⟨Nat.pos_of_ne_zero hne, rfl⟩)
      omega
  · rintro ⟨hpos, hm⟩
    by_cases hx : x = val
    · subst hx
      simp only [beq_self_eq_true, if_true] at hm
      refine Or.inr ⟨rfl, ?_⟩
      by_cases h0 : answers.count x = 0
      · refine Or.inr ⟨?_, by omega⟩
        intro n hmem
        have := (hc x n).mp hmem
        omega
      · exact Or.inl ⟨answers.count x, (hc x _).mpr ⟨Nat.pos_of_ne_zero h0, rfl⟩, hm⟩
    · have hb : (val == x) = false := by simpa using fun e => hx e.symm
      simp only [hb, Bool.false_eq_true, if_false, Nat.add_zero] at hm
      exact Or.inl ⟨hx, (hc x m).mpr ⟨hpos, hm⟩⟩

theorem counts_foldl (more : List Str) :
    ∀ (counts : List (Str × Nat)) (answers : List Str),
      counts.Pairwise (fun a b => strLt a.1 b.1 = true) →
      (∀ x m, (x, m) ∈ counts ↔ (0 < m ∧ m = answers.count x)) →
      (more.foldl countsIncrement counts).Pairwise (fun a b => strLt a.1 b.1 = true) ∧
      ∀ x m, (x, m) ∈ more.foldl countsIncrement counts ↔
        (0 < m ∧ m = (answers ++ more).count x) := by
  induction more with
  | nil => intro counts answers hs hc; simpa using ⟨hs, hc⟩
  | cons v rest ih =>
    intro counts answers hs hc
    have := ih (countsIncrement counts v) (answers ++ [v]) (countsIncrement_sorted counts v hs)
      (counts_step counts answers v hs hc)
    simpa using this

theorem countAnswers_spec (params : List (Str × Str)) :
    (countAnswers params).Pairwise (fun a b => strLt a.1 b.1 = true) ∧
    ∀ x m, (x, m) ∈ countAnswers params ↔ (0 < m ∧ m = (answerValues params).count x) := by
  unfold countAnswers
  rw [countAnswers_eq]
  have := counts_foldl (answerValues params) [] [] List.Pairwise.nil
    (by intro x m; simp; omega)
  simpa using this

theorem foldl_max_ge (l : List Nat) : ∀ m, m ≤ List.foldl max m l := by
  induction l with
  | nil => intro m; exact le_refl _
  | cons a rest ih =>
    intro m
    exact le_trans (le_max_left m a) (ih (max m a))

theorem foldl_max_le (l : List Nat) : ∀ m, ∀ x ∈ l, x ≤ List.foldl max m l := by
  induction l with
  | nil => intro m x h; simp at h
  | cons a rest ih =>
    intro m x h
    rcases List.mem_cons.mp h with e | h
    · rw [e]
      exact le_trans (le_max_right m a) (foldl_max_ge rest (max m a))
    · exact ih (max m a) x h

theorem foldl_max_mem (l : List Nat) : ∀ m, List.foldl max m l = m ∨ List.foldl max m l ∈ l := by
  induction l with
  | nil => intro m; exact Or.inl rfl
  | cons a rest ih =>
    intro m
    show List.foldl max (max m a) rest = m ∨ List.foldl max (max m a) rest ∈ a :: rest
    rcases ih (max m a) with e | h
    · rw [e]
      rcases le_total m a with hle | hle
      · right
        rw [max_eq_right hle]
        exact List.mem_cons_self _ _
      · left
        exact max_eq_left hle
    · exact Or.inr (List.mem_cons_of_mem _ h)

theorem topValues_spec (counts : List (Str × Nat)) :
    ∀ (max_count : Nat) (top : List Str),
      topValues counts max_count top =
        if List.foldl max max_count (counts.map Prod.snd) = max_count then
          top ++ (counts.filter (fun kn => kn.2 = max_count)).map Prod.fst
        else
          (counts.filter
            (fun kn => kn.2 = List.foldl max max_count (counts.map Prod.snd))).map Prod.fst := by
  induction counts with
  | nil => intro m top; simp [topValues]
  | cons kn rest ih =>
    obtain ⟨v, n⟩ := kn
    intro m top
    simp only [topValues, List.map_cons, List.foldl_cons]
    have hge := foldl_max_ge (rest.map Prod.snd)
    rcases Nat.lt_trichotomy m n with hlt | heq | hgt
    · simp only [if_pos hlt, ih n [v], max_eq_right (le_of_lt hlt)]
      have h1 := hge n
      generalize List.foldl max n (rest.map Prod.snd) = M at h1 ⊢
      rw [if_neg (show ¬ M = m by omega)]
      by_cases hM : M = n
      · subst hM
        simp [List.filter_cons]
      · rw [if_neg hM]
        have : ¬ n = M := fun e => hM e.symm
        simp [List.filter_cons, this]
    · subst heq
      simp only [if_neg (lt_irrefl _), if_pos rfl, ih m (top ++ [v]), max_self]
      generalize List.foldl max m (rest.map Prod.snd) = M
      by_cases hM : M = m
      · subst hM
        simp [List.filter_cons]
      · rw [if_neg hM, if_neg hM]
        have : ¬ m = M := fun e => hM e.symm
        simp [List.filter_cons, this]
    · simp only [if_neg (show ¬ n > m by omega), if_neg (show ¬ n = m by omega), ih m top,
        max_eq_left (le_of_lt hgt)]
      have h1 := hge m
      generalize List.foldl max m (rest.map Prod.snd) = M at h1 ⊢
      by_cases hM : M = m
      · subst hM
        have : ¬ n = M := by omega
        simp [List.filter_cons, this]
      · rw [if_neg hM, if_neg hM]
        have : ¬ n = M := by omega
        simp [List.filter_cons, this]

theorem calculate_result_of_answers (params : List (Str × Str))
    (hne : answerValues params ≠ []) :
    calculate_result params ∈ answerValues params ∧
    (∀ v, (answerValues params).count v ≤
      (answerValues params).count (calculate_result params)) ∧
    (∀ v, v ≠ calculate_result params →
      (answerValues params).count v = (answerValues params).count (calculate_result params) →
      strLt (calculate_result params) v = true) := by
  obtain ⟨hs, hc⟩ := countAnswers_spec params
  generalize hA : answerValues params = A at hne hc ⊢
  generalize hcdef : countAnswers params = c at hs hc
  obtain ⟨a, ha⟩ := List.exists_mem_of_ne_nil A hne
  have hca : (a, A.count a) ∈ c := (hc _ _).mpr ⟨List.count_pos_iff.mpr ha, rfl⟩
  have hapos : 0 < A.count a := List.count_pos_iff.mpr ha
  have hMge : A.count a ≤ List.foldl max 0 (c.map Prod.snd) :=
    foldl_max_le _ 0 _ (List.mem_map_of_mem Prod.snd hca)
  have hMmem : List.foldl max 0 (c.map Prod.snd) ∈ c.map Prod.snd := by
    rcases foldl_max_mem (c.map Prod.snd) 0 with e | h
    · omega
    · exact h
  have hle : ∀ x ∈ c.map Prod.snd, x ≤ List.foldl max 0 (c.map Prod.snd) :=
    foldl_max_le _ 0
  have htop := topValues_spec c 0 []
  generalize List.foldl max 0 (c.map Prod.snd) = M at hMge hMmem hle htop
  rw [if_neg (by omega)] at htop
  obtain ⟨⟨x, mx⟩, hx, hxe⟩ := List.mem_map.mp hMmem
  simp only [] at hxe
  subst hxe
  have hFs : (c.filter (fun kn => kn.2 = mx)).Pairwise (fun a b => strLt a.1 b.1 = true) :=
    List.Pairwise.sublist (List.filter_sublist _) hs
  have hxF : (x, mx) ∈ c.filter (fun kn => kn.2 = mx) := by
    simp [List.mem_filter, hx]
  cases hF : c.filter (fun kn => kn.2 = mx) with
  | nil => rw [hF] at hxF; simp at hxF
  | cons kn0 F =>
    have hr : calculate_result params = kn0.1 := by
      simp only [calculate_result, hcdef, htop, hF, List.map_cons]
    rw [hr]
    have hkn0 : kn0 ∈ c.filter (fun kn => kn.2 = mx) := by rw [hF]; exact List.mem_cons_self _ _
    obtain ⟨hk1, hk2⟩ := List.mem_filter.mp hkn0
    simp only [decide_eq_true_eq] at hk2
    obtain ⟨r, mr⟩ := kn0
    simp only [] at hk2 ⊢
    subst hk2
    obtain ⟨hrpos, hrc⟩ := (hc r mr).mp hk1
    refine ⟨List.count_pos_iff.mp (by omega), ?_, ?_⟩
    · intro v
      by_cases h0 : A.count v = 0
      · omega
      · have hv : (v, A.count v) ∈ c := (hc _ _).mpr ⟨Nat.pos_of_ne_zero h0, rfl⟩
        have := hle _ (List.mem_map_of_mem Prod.snd hv)
        simp only [] at this
        omega
    · intro v hv hcount
      have hvc : (v, mr) ∈ c := (hc v mr).mpr ⟨hrpos, by omega⟩
      have hvF : (v, mr) ∈ c.filter (fun kn => kn.2 = mr) := by
        simp [List.mem_filter, hvc]
      rw [hF] at hvF hFs
      rcases List.mem_cons.mp hvF with e | hmem
      · simp only [Prod.mk.injEq] at e
        exact absurd e.1 hv
      · exact (List.pairwise_cons.mp hFs).1 _ hmem

theorem answerValues_perm (params params2 : List (Str × Str)) (h : params.Perm params2) :
    (answerValues params).Perm (answerValues params2) := by
  unfold answerValues
  exact (h.filter _).map _

theorem calculate_result_no_answers (params : List (Str × Str))
    (h : answerValues params = []) : calculate_result params = "no-result".toList := by
  have : countAnswers params = [] := by
    unfold countAnswers
    rw [countAnswers_eq, h]
    rfl
  simp [calculate_result, this, topValues]

/-- C36.  The function `calculate_result` on the submitted fields, listed in
any order: without a field whose name starts with `q` other than `quiz_id`
the result is `no-result`; otherwise the result is the value of such a field,
no value occurs more often among these fields, and every other value that
occurs as often comes after it in ascending order.  Listing the fields in
another order gives the same result. -/
theorem calculate_result_spec (params : List (Str × Str)) :
    (answerValues params = [] → calculate_result params = "no-result".toList) ∧
    (answerValues params ≠ [] →
      calculate_result params ∈ answerValues params ∧
      (∀ v, (answerValues params).count v ≤
        (answerValues params).count (calculate_result params)) ∧
      (∀ v, v ≠ calculate_result params →
        (answerValues params).count v = (answerValues params).count (calculate_result params) →
        strLt (calculate_result params) v = true)) ∧
    (∀ params2, params.Perm params2 → calculate_result params2 = calculate_result params) := by
  refine ⟨calculate_result_no_answers params, calculate_result_of_answers params, ?_⟩
  intro params2 hp
  have hperm := answerValues_perm params params2 hp
  by_cases hne : answerValues params = []
  · have h2 : answerValues params2 = [] := by
      rw [hne] at hperm
      exact List.Perm.eq_nil hperm.symm
    rw [calculate_result_no_answers params hne, calculate_result_no_answers params2 h2]
  · have hne2 : answerValues params2 ≠ [] := by
      intro e
      rw [e] at hperm
      exact hne (List.Perm.eq_nil hperm)
    obtain ⟨_, h1max, h1tie⟩ := calculate_result_of_answers params hne
    obtain ⟨_, h2max, h2tie⟩ := calculate_result_of_answers params2 hne2
    have hcount : ∀ v, (answerValues params2).count v = (answerValues params).count v :=
      fun v => by
        show List.countP (· == v) (answerValues params2) =
          List.countP (· == v) (answerValues params)
        exact (hperm.countP_eq _).symm
    by_contra hdiff
    have e1 := h1max (calculate_result params2)
    have e2 := h2max (calculate_result params)
    rw [hcount, hcount] at e2
    have heq : (answerValues params).count (calculate_result params2) =
        (answerValues params).count (calculate_result params) := le_antisymm e1 e2
    have t1 := h1tie (calculate_result params2) hdiff heq
    have t2 := h2tie (calculate_result params) (fun e => hdiff e.symm)
      (by rw [hcount, hcount]; exact heq.symm)
    have := strLt_asymm _ _ t1
    rw [t2] at this
    exact absurd this (by simp)

/-- The tie of the handler's test: two answers `bplate` and two `epicuria`
give `bplate`, in whatever order the fields are listed; without an answer
field the result is `no-result`. -/
theorem calculate_result_spec_witness :
    calculate_result [("quiz_id".toList, "dining".toList)] = "no-result".toList ∧
    calculate_result [("q4".toList, "epicuria".toList), ("q1".toList, "bplate".toList),
      ("quiz_id".toList, "dining".toList), ("q2".toList, "epicuria".toList),
      ("q3".toList, "bplate".toList)] = "bplate".toList ∧
    calculate_result [("q1".toList, "bplate".toList), ("q2".toList, "epicuria".toList),
      ("q3".toList, "bplate".toList), ("q4".toList, "epicuria".toList),
      ("quiz_id".toList, "dining".toList)] = "bplate".toList :=
  ⟨(calculate_result_spec [("quiz_id".toList, "dining".toList)]).1 (by decide), by decide,
    ((calculate_result_spec [("q4".toList, "epicuria".toList), ("q1".toList, "bplate".toList),
      ("quiz_id".toList, "dining".toList), ("q2".toList, "epicuria".toList),
      ("q3".toList, "bplate".toList)]).2.2 _ (by decide)).trans (by decide)⟩

/-! ## Theorems: comments are discarded -/

theorem ParseTokenFrom_through (n : Nat) :
    ∀ (pre : Str), pre.length ≤ n → ∀ (state : TokenParserState) (value : Str),
      stateAfter state value pre = TOKEN_STATE_INITIAL_WHITESPACE →
      (∃ ty tok pre2, ty ≠ TOKEN_TYPE_EOF ∧ ty ≠ TOKEN_TYPE_ERROR ∧
          stateAfter TOKEN_STATE_INITIAL_WHITESPACE [] pre2 = TOKEN_STATE_INITIAL_WHITESPACE ∧
          ∀ r, ParseTokenFrom state value (pre ++ r) = (ty, tok, pre2 ++ r)) ∨
      (state = TOKEN_STATE_INITIAL_WHITESPACE ∧
        ∀ r, ParseTokenFrom state value (pre ++ r) = ParseTokenFrom state value r) := by
  induction n with
  | zero =>
    intro pre hlen state value h
    have : pre = [] := List.length_eq_zero.mp (Nat.le_zero.mp hlen)
    subst this
    have hs : state = TOKEN_STATE_INITIAL_WHITESPACE := by
      cases state <;> first | rfl | (simp [stateAfter] at h)
    exact Or.inr ⟨hs, fun r => rfl⟩
  | succ n ih =>
    intro pre hlen state value h
    cases pre with
    | nil =>
      have hs : state = TOKEN_STATE_INITIAL_WHITESPACE := by
        cases state <;> first | rfl | (simp [stateAfter] at h)
      exact Or.inr ⟨hs, fun r => rfl⟩
    | cons c cs =>
      have hcs : cs.length ≤ n := by simp only [List.length_cons] at hlen; omega
      have rec : ∀ (st2 : TokenParserState) (v2 : Str),
          stateAfter st2 v2 cs = TOKEN_STATE_INITIAL_WHITESPACE →
          st2 ≠ TOKEN_STATE_INITIAL_WHITESPACE →
          ∃ ty tok pre2, ty ≠ TOKEN_TYPE_EOF ∧ ty ≠ TOKEN_TYPE_ERROR ∧
            stateAfter TOKEN_STATE_INITIAL_WHITESPACE [] pre2 = TOKEN_STATE_INITIAL_WHITESPACE ∧
            ∀ r, ParseTokenFrom st2 v2 (cs ++ r) = (ty, tok, pre2 ++ r) := by
        intro st2 v2 h2 hne
        rcases ih cs hcs st2 v2 h2 with hl | ⟨e, _⟩
        · exact hl
        · exact absurd e hne
      cases state with
      | TOKEN_STATE_INITIAL_WHITESPACE =>
        simp only [stateAfter] at h
        by_cases h1 : c = '{'
        · rw [if_pos h1] at h
          exact Or.inl ⟨TOKEN_TYPE_START_BLOCK, [c], cs, by simp, by simp, h,
            fun r => by simp [ParseTokenFrom, h1]⟩
        rw [if_neg h1] at h
        by_cases h2 : c = '}'
        · rw [if_pos h2] at h
          exact Or.inl ⟨TOKEN_TYPE_END_BLOCK, [c], cs, by simp, by simp, h,
            fun r => by simp [ParseTokenFrom, h2]⟩
        rw [if_neg h2] at h
        by_cases h3 : c = '#'
        · rw [if_pos h3] at h
          obtain ⟨ty, tok, pre2, e1, e2, e3, e4⟩ := rec _ _ h (by simp)
          refine Or.inl ⟨ty, tok, pre2, e1, e2, e3, fun r => ?_⟩
          have := e4 r
          simp only [List.cons_append, ParseTokenFrom, if_neg h1, if_neg h2, if_pos h3]
          exact this
        rw [if_neg h3] at h
        by_cases h4 : c = '"'
        · rw [if_pos h4] at h
          obtain ⟨ty, tok, pre2, e1, e2, e3, e4⟩ := rec _ _ h (by simp)
          refine Or.inl ⟨ty, tok, pre2, e1, e2, e3, fun r => ?_⟩
          have := e4 r
          simp only [List.cons_append, ParseTokenFrom, if_neg h1, if_neg h2, if_neg h3, if_pos h4]
          exact this
        rw [if_neg h4] at h
        by_cases h5 : c = '\''
        · rw [if_pos h5] at h
          obtain ⟨ty, tok, pre2, e1, e2, e3, e4⟩ := rec _ _ h (by simp)
          refine Or.inl ⟨ty, tok, pre2, e1, e2, e3, fun r => ?_⟩
          have := e4 r
          simp only [List.cons_append, ParseTokenFrom, if_neg h1, if_neg h2, if_neg h3,
            if_neg h4, if_pos h5]
          exact this
        rw [if_neg h5] at h
        by_cases h6 : c = ';'
        · rw [if_pos h6] at h
          exact Or.inl ⟨TOKEN_TYPE_STATEMENT_END, [c], cs, by simp, by simp, h,
            fun r => by simp [ParseTokenFrom, h6]⟩
        rw [if_neg h6] at h
        by_cases h7 : c = ' ' ∨ c = '\t' ∨ c = '\n' ∨ c = '\r'
        · rw [if_pos h7] at h
          have step : ∀ r, ParseTokenFrom TOKEN_STATE_INITIAL_WHITESPACE value (c :: cs ++ r) =
              ParseTokenFrom TOKEN_STATE_INITIAL_WHITESPACE value (cs ++ r) := by
            intro r
            simp only [List.cons_append, ParseTokenFrom, if_neg h1, if_neg h2, if_neg h3,
              if_neg h4, if_neg h5, if_neg h6, if_pos h7]
            rfl
          rcases ih cs hcs _ value h with ⟨ty, tok, pre2, e1, e2, e3, e4⟩ | ⟨_, e⟩
          · exact Or.inl ⟨ty, tok, pre2, e1, e2, e3, fun r => (step r).trans (e4 r)⟩
          · exact Or.inr ⟨rfl, fun r => (step r).trans (e r)⟩
        rw [if_neg h7] at h
        obtain ⟨ty, tok, pre2, e1, e2, e3, e4⟩ := rec _ _ h (by simp)
        refine Or.inl ⟨ty, tok, pre2, e1, e2, e3, fun r => ?_⟩
        have := e4 r
        simp only [List.cons_append, ParseTokenFrom, if_neg h1, if_neg h2, if_neg h3,
          if_neg h4, if_neg h5, if_neg h6, if_neg h7]
        exact this
      | TOKEN_STATE_TOKEN_TYPE_COMMENT =>
        simp only [stateAfter] at h
        by_cases h1 : c = '\n' ∨ c = '\r'
        · rw [if_pos h1] at h
          exact Or.inl ⟨TOKEN_TYPE_COMMENT, value, cs, by simp, by simp, h,
            fun r => by simp [ParseTokenFrom, h1]⟩
        · rw [if_neg h1] at h
          obtain ⟨ty, tok, pre2, e1, e2, e3, e4⟩ := rec _ _ h (by simp)
          refine Or.inl ⟨ty, tok, pre2, e1, e2, e3, fun r => ?_⟩
          have := e4 r
          simp only [List.cons_append, ParseTokenFrom, if_neg h1]
          exact this
      | TOKEN_STATE_TOKEN_TYPE_NORMAL =>
        simp only [stateAfter] at h
        by_cases h1 : c = ' ' ∨ c = '\t' ∨ c = '\n' ∨ c = ';' ∨ c = '{' ∨ c = '}'
        · rw [if_pos h1] at h
          refine Or.inl ⟨TOKEN_TYPE_NORMAL, value, c :: cs, by simp, by simp, ?_,
            fun r => by simp [ParseTokenFrom, h1]⟩
          rcases h1 with e | e | e | e | e | e <;> subst e <;> simpa [stateAfter] using h
        · rw [if_neg h1] at h
          obtain ⟨ty, tok, pre2, e1, e2, e3, e4⟩ := rec _ _ h (by simp)
          refine Or.inl ⟨ty, tok, pre2, e1, e2, e3, fun r => ?_⟩
          have := e4 r
          simp only [List.cons_append, ParseTokenFrom, if_neg h1]
          exact this
      | TOKEN_STATE_SINGLE_QUOTE =>
        cases cs with
        | nil =>
          simp only [stateAfter] at h
          by_cases h1 : c = '\\'
          · rw [if_pos h1] at h
            simp at h
          rw [if_neg h1] at h
          by_cases h2 : c = '\'' ∧ secondLast (value ++ [c]) ≠ some '\\'
          · rw [if_pos h2] at h
            exact Or.inl ⟨TOKEN_TYPE_QUOTED_STRING, value ++ [c], [], by simp, by simp, h,
              fun r => by
                cases r <;>
                  simp only [List.cons_append, List.nil_append, ParseTokenFrom, if_neg h1,
                    if_pos h2] <;> rfl⟩
          · rw [if_neg h2] at h
            simp [stateAfter] at h
        | cons e rest =>
          have hrest : rest.length ≤ n := by simp only [List.length_cons] at hcs; omega
          simp only [stateAfter] at h
          by_cases h1 : c = '\\'
          · rw [if_pos h1] at h
            rcases ih rest hrest _ _ h with ⟨ty, tok, pre2, e1, e2, e3, e4⟩ | ⟨e0, _⟩
            · refine Or.inl ⟨ty, tok, pre2, e1, e2, e3, fun r => ?_⟩
              have := e4 r
              simp only [List.cons_append, ParseTokenFrom, if_pos h1]
              exact this
            · simp at e0
          rw [if_neg h1] at h
          by_cases h2 : c = '\'' ∧ secondLast (value ++ [c]) ≠ some '\\'
          · rw [if_pos h2] at h
            exact Or.inl ⟨TOKEN_TYPE_QUOTED_STRING, value ++ [c], e :: rest, by simp, by simp, h,
              fun r => by
                simp only [List.cons_append, ParseTokenFrom, if_neg h1, if_pos h2]
                rfl⟩
          · rw [if_neg h2] at h
            obtain ⟨ty, tok, pre2, e1, e2, e3, e4⟩ := rec _ _ h (by simp)
            refine Or.inl ⟨ty, tok, pre2, e1, e2, e3, fun r => ?_⟩
            have := e4 r
            simp only [List.cons_append, ParseTokenFrom, if_neg h1, if_neg h2]
            exact this
      | TOKEN_STATE_DOUBLE_QUOTE =>
        cases cs with
        | nil =>
          simp only [stateAfter] at h
          by_cases h1 : c = '\\'
          · rw [if_pos h1] at h
            simp at h
          rw [if_neg h1] at h
          by_cases h2 : c = '"' ∧ secondLast (value ++ [c]) ≠ some '\\'
          · rw [if_pos h2] at h
            exact Or.inl ⟨TOKEN_TYPE_QUOTED_STRING, value ++ [c], [], by simp, by simp, h,
              fun r => by
                cases r <;>
                  simp only [List.cons_append, List.nil_append, ParseTokenFrom, if_neg h1,
                    if_pos h2] <;> rfl⟩
          · rw [if_neg h2] at h
            simp [stateAfter] at h
        | cons e rest =>
          have hrest : rest.length ≤ n := by simp only [List.length_cons] at hcs; omega
          simp only [stateAfter] at h
          by_cases h1 : c = '\\'
          · rw [if_pos h1] at h
            rcases ih rest hrest _ _ h with ⟨ty, tok, pre2, e1, e2, e3, e4⟩ | ⟨e0, _⟩
            · refine Or.inl ⟨ty, tok, pre2, e1, e2, e3, fun r => ?_⟩
              have := e4 r
              simp only [List.cons_append, ParseTokenFrom, if_pos h1]
              exact this
            · simp at e0
          rw [if_neg h1] at h
          by_cases h2 : c = '"' ∧ secondLast (value ++ [c]) ≠ some '\\'
          · rw [if_pos h2] at h
            exact Or.inl ⟨TOKEN_TYPE_QUOTED_STRING, value ++ [c], e :: rest, by simp, by simp, h,
              fun r => by
                simp only [List.cons_append, ParseTokenFrom, if_neg h1, if_pos h2]
                rfl⟩
          · rw [if_neg h2] at h
            obtain ⟨ty, tok, pre2, e1, e2, e3, e4⟩ := rec _ _ h (by simp)
            refine Or.inl ⟨ty, tok, pre2, e1, e2, e3, fun r => ?_⟩
            have := e4 r
            simp only [List.cons_append, ParseTokenFrom, if_neg h1, if_neg h2]
            exact this

theorem ParseStep_congr (st : ParserState) (i1 i2 : Str) (ty : TokenType) (tok x1 x2 : Str)
    (h1 : ParseToken i1 = (ty, tok, x1)) (h2 : ParseToken i2 = (ty, tok, x2)) :
    ParseStep st i2 =
      match ParseStep st i1 with
      | .next st2 _ => .next st2 x2
      | .done outcome => .done outcome := by
  simp only [ParseStep, h1, h2]
  cases ty <;> simp only [reduceCtorEq, if_false, if_true, false_or, true_or, or_true] <;>
    repeat' split
  all_goals first
    | rfl
    | simp_all

theorem ParseLoop_fuel_eq (fuel1 fuel2 : Nat) (st : ParserState) (input : Str)
    (h1 : input.length < fuel1) (h2 : input.length < fuel2) :
    ParseLoop fuel1 st input = ParseLoop fuel2 st input := by
  rcases Nat.le_total fuel1 fuel2 with hle | hle
  · obtain ⟨k, hk⟩ := Nat.exists_eq_add_of_le hle
    rw [hk, ParseLoop_mono fuel1 st input (ParseLoop_fuel fuel1 st input h1) k]
  · obtain ⟨k, hk⟩ := Nat.exists_eq_add_of_le hle
    rw [hk, ParseLoop_mono fuel2 st input (ParseLoop_fuel fuel2 st input h2) k]

theorem ParseLoop_comment_line (comment : Str) (hc : ∀ c ∈ comment, c ≠ '\n' ∧ c ≠ '\r')
    (rest : Str) (st : ParserState) (fuel1 fuel2 : Nat)
    (h1 : ('#' :: comment ++ '\n' :: rest).length < fuel1) (h2 : rest.length < fuel2) :
    ParseLoop fuel1 st ('#' :: comment ++ '\n' :: rest) = ParseLoop fuel2 st rest := by
  cases fuel1 with
  | zero => omega
  | succ g1 =>
    rw [ParseLoop_succ, ParseStep_comment st comment hc rest]
    simp only []
    apply ParseLoop_fuel_eq
    · simp only [List.length_append, List.length_cons] at h1
      omega
    · exact h2

theorem ParseLoop_after_text (n : Nat) :
    ∀ (text : Str), text.length ≤ n →
      tokenizerStateAt text = TOKEN_STATE_INITIAL_WHITESPACE →
      ∀ (r1 r2 : Str),
        (∀ (st : ParserState) (fuel1 fuel2 : Nat), r1.length < fuel1 → r2.length < fuel2 →
          ParseLoop fuel1 st r1 = ParseLoop fuel2 st r2) →
        ∀ (st : ParserState) (fuel1 fuel2 : Nat),
          (text ++ r1).length < fuel1 → (text ++ r2).length < fuel2 →
          ParseLoop fuel1 st (text ++ r1) = ParseLoop fuel2 st (text ++ r2) := by
  induction n with
  | zero =>
    intro text hlen _ r1 r2 hsame st fuel1 fuel2 h1 h2
    have : text = [] := List.length_eq_zero.mp (Nat.le_zero.mp hlen)
    subst this
    exact hsame st fuel1 fuel2 h1 h2
  | succ n ih =>
    intro text hlen hpoint r1 r2 hsame st fuel1 fuel2 h1 h2
    cases fuel1 with
    | zero => omega
    | succ g1 =>
      cases fuel2 with
      | zero => omega
      | succ g2 =>
        simp only [List.length_append] at h1 h2
        rcases ParseTokenFrom_through text.length text (le_refl _) _ _ hpoint with
          ⟨ty, tok, pre2, e1, e2, e3, e4⟩ | ⟨_, e⟩
        · have t1 : ParseToken (text ++ r1) = (ty, tok, pre2 ++ r1) := e4 r1
          have t2 : ParseToken (text ++ r2) = (ty, tok, pre2 ++ r2) := e4 r2
          have hshort : pre2.length < text.length := by
            have := ParseToken_consumes (text ++ r1) (by rw [t1]; exact e1) (by rw [t1]; exact e2)
            rw [t1] at this
            simp only [List.length_append] at this
            omega
          rw [ParseLoop_succ, ParseLoop_succ, ParseStep_congr st _ _ ty tok _ _ t1 t2]
          cases hs : ParseStep st (text ++ r1) with
          | done o => rfl
          | next st2 x =>
            simp only []
            have hx := (ParseStep_next_token st st2 _ x hs).1
            rw [t1] at hx
            simp only [] at hx
            rw [hx]
            apply ih pre2 (by omega) e3 r1 r2 hsame
            · simp only [List.length_append]; omega
            · simp only [List.length_append]; omega
        · have t1 : ParseToken (text ++ r1) = ParseToken r1 := e r1
          have t2 : ParseToken (text ++ r2) = ParseToken r2 := e r2
          have s1 : ParseStep st (text ++ r1) = ParseStep st r1 := by
            simp only [ParseStep, t1]
          have s2 : ParseStep st (text ++ r2) = ParseStep st r2 := by
            simp only [ParseStep, t2]
          rw [ParseLoop_succ, ParseLoop_succ, s1, s2, ← ParseLoop_succ, ← ParseLoop_succ]
          exact hsame st _ _ (by omega) (by omega)

theorem stateAfter_nil (state : TokenParserState) (value : Str) :
    stateAfter state value [] = state := by
  cases state <;> rfl

theorem stateAfter_snoc (w : Char) (good : TokenParserState → Prop)
    (hgood : ∀ s, good s →
      (s = TOKEN_STATE_INITIAL_WHITESPACE ∨ s = TOKEN_STATE_TOKEN_TYPE_NORMAL) ∧
        ∀ v, stateAfter s v [w] = TOKEN_STATE_INITIAL_WHITESPACE) (n : Nat) :
    ∀ (text : Str), text.length ≤ n → ∀ (state : TokenParserState) (value : Str),
      good (stateAfter state value text) →
      stateAfter state value (text ++ [w]) = TOKEN_STATE_INITIAL_WHITESPACE := by
  induction n with
  | zero =>
    intro text hlen state value h
    have : text = [] := List.length_eq_zero.mp (Nat.le_zero.mp hlen)
    subst this
    rw [stateAfter_nil] at h
    exact (hgood _ h).2 value
  | succ n ih =>
    intro text hlen state value h
    cases text with
    | nil =>
      rw [stateAfter_nil] at h
      exact (hgood _ h).2 value
    | cons c cs =>
      have hcs : cs.length ≤ n := by simp only [List.length_cons] at hlen; omega
      cases state with
      | TOKEN_STATE_INITIAL_WHITESPACE =>
        simp only [List.cons_append, stateAfter] at h ⊢
        split_ifs at h ⊢ <;> exact ih cs hcs _ _ h
      | TOKEN_STATE_TOKEN_TYPE_COMMENT =>
        simp only [List.cons_append, stateAfter] at h ⊢
        split_ifs at h ⊢ <;> exact ih cs hcs _ _ h
      | TOKEN_STATE_TOKEN_TYPE_NORMAL =>
        simp only [List.cons_append, stateAfter] at h ⊢
        split_ifs at h ⊢ <;> exact ih cs hcs _ _ h
      | TOKEN_STATE_SINGLE_QUOTE =>
        cases cs with
        | nil =>
          by_cases h1 : c = '\\'
          · simp only [stateAfter, if_pos h1] at h
            have := (hgood _ h).1
            simp at this
          by_cases h2 : c = '\'' ∧ secondLast (value ++ [c]) ≠ some '\\'
          · have key : stateAfter TOKEN_STATE_SINGLE_QUOTE value ([c] ++ [w]) =
                stateAfter TOKEN_STATE_INITIAL_WHITESPACE [] [w] := by
              simp only [List.cons_append, List.nil_append, stateAfter, if_neg h1, if_pos h2]
            simp only [stateAfter, if_neg h1, if_pos h2] at h
            rw [key]
            exact (hgood _ h).2 []
          · simp only [stateAfter, if_neg h1, if_neg h2] at h
            have := (hgood _ h).1
            simp at this
        | cons e rest =>
          have hrest : rest.length ≤ n := by simp only [List.length_cons] at hcs; omega
          by_cases h1 : c = '\\'
          · have k1 : ∀ tail, stateAfter TOKEN_STATE_SINGLE_QUOTE value (c :: e :: tail) =
                stateAfter TOKEN_STATE_SINGLE_QUOTE (value ++ [c] ++ [c] ++ [e]) tail := by
              intro tail
              simp only [stateAfter, if_pos h1]
            rw [k1] at h
            rw [List.cons_append, List.cons_append, k1]
            exact ih rest hrest _ _ h
          by_cases h2 : c = '\'' ∧ secondLast (value ++ [c]) ≠ some '\\'
          · have k2 : ∀ tail, stateAfter TOKEN_STATE_SINGLE_QUOTE value (c :: tail) =
                stateAfter TOKEN_STATE_INITIAL_WHITESPACE [] tail := by
              intro tail
              cases tail <;> simp only [stateAfter, if_neg h1, if_pos h2]
            rw [k2] at h
            rw [List.cons_append, k2]
            exact ih (e :: rest) hcs _ _ h
          · have k3 : ∀ tail, stateAfter TOKEN_STATE_SINGLE_QUOTE value (c :: tail) =
                stateAfter TOKEN_STATE_SINGLE_QUOTE (value ++ [c]) tail := by
              intro tail
              cases tail <;> simp only [stateAfter, if_neg h1, if_neg h2]
            rw [k3] at h
            rw [List.cons_append, k3]
            exact ih (e :: rest) hcs _ _ h
      | TOKEN_STATE_DOUBLE_QUOTE =>
        cases cs with
        | nil =>
          by_cases h1 : c = '\\'
          · simp only [stateAfter, if_pos h1] at h
            have := (hgood _ h).1
            simp at this
          by_cases h2 : c = '"' ∧ secondLast (value ++ [c]) ≠ some '\\'
          · have key : stateAfter TOKEN_STATE_DOUBLE_QUOTE value ([c] ++ [w]) =
                stateAfter TOKEN_STATE_INITIAL_WHITESPACE [] [w] := by
              simp only [List.cons_append, List.nil_append, stateAfter, if_neg h1, if_pos h2]
            simp only [stateAfter, if_neg h1, if_pos h2] at h
            rw [key]
            exact (hgood _ h).2 []
          · simp only [stateAfter, if_neg h1, if_neg h2] at h
            have := (hgood _ h).1
            simp at this
        | cons e rest =>
          have hrest : rest.length ≤ n := by simp only [List.length_cons] at hcs; omega
          by_cases h1 : c = '\\'
          · have k1 : ∀ tail, stateAfter TOKEN_STATE_DOUBLE_QUOTE value (c :: e :: tail) =
                stateAfter TOKEN_STATE_DOUBLE_QUOTE (value ++ [c] ++ [c] ++ [e]) tail := by
              intro tail
              simp only [stateAfter, if_pos h1]
            rw [k1] at h
            rw [List.cons_append, List.cons_append, k1]
            exact ih rest hrest _ _ h
          by_cases h2 : c = '"' ∧ secondLast (value ++ [c]) ≠ some '\\'
          · have k2 : ∀ tail, stateAfter TOKEN_STATE_DOUBLE_QUOTE value (c :: tail) =
                stateAfter TOKEN_STATE_INITIAL_WHITESPACE [] tail := by
              intro tail
              cases tail <;> simp only [stateAfter, if_neg h1, if_pos h2]
            rw [k2] at h
            rw [List.cons_append, k2]
            exact ih (e :: rest) hcs _ _ h
          · have k3 : ∀ tail, stateAfter TOKEN_STATE_DOUBLE_QUOTE value (c :: tail) =
                stateAfter TOKEN_STATE_DOUBLE_QUOTE (value ++ [c]) tail := by
              intro tail
              cases tail <;> simp only [stateAfter, if_neg h1, if_neg h2]
            rw [k3] at h
            rw [List.cons_append, k3]
            exact ih (e :: rest) hcs _ _ h

theorem stateAfter_whitespace (text : Str) (state : TokenParserState) (value : Str) (w : Char)
    (h : ((w = ' ' ∨ w = '\t' ∨ w = '\n') ∧
        (stateAfter state value text = TOKEN_STATE_INITIAL_WHITESPACE ∨
          stateAfter state value text = TOKEN_STATE_TOKEN_TYPE_NORMAL)) ∨
      (w = '\r' ∧ stateAfter state value text = TOKEN_STATE_INITIAL_WHITESPACE)) :
    stateAfter state value (text ++ [w]) = TOKEN_STATE_INITIAL_WHITESPACE := by
  refine stateAfter_snoc w
    (fun s => ((w = ' ' ∨ w = '\t' ∨ w = '\n') ∧
        (s = TOKEN_STATE_INITIAL_WHITESPACE ∨ s = TOKEN_STATE_TOKEN_TYPE_NORMAL)) ∨
      (w = '\r' ∧ s = TOKEN_STATE_INITIAL_WHITESPACE)) ?_ text.length text (le_refl _)
    state value h
  intro s hs
  rcases hs with ⟨hw, hs⟩ | ⟨hw, hs⟩
  · refine ⟨hs, fun v => ?_⟩
    rcases hs with e | e <;> subst e <;> rcases hw with e | e | e <;> subst e <;>
      simp [stateAfter]
  · refine ⟨Or.inl hs, fun v => ?_⟩
    subst hs
    subst hw
    simp [stateAfter]

/-- A comment line where the tokenizer is in its initial state.  Inserting a
comment line (`#`, characters other than CR and LF, then LF) at such a point
changes nothing: `Parse` of the text with the comment line is `Parse` of the
text without it.  Such points are the start of the input, the point directly
after a space, tab or LF that follows text which leaves the tokenizer in its
initial state or inside a word, and the point after a CR that follows text
which leaves it in its initial state. -/
theorem parse_discards_comment_line (text comment rest : Str)
    (hpoint : tokenizerStateAt text = TOKEN_STATE_INITIAL_WHITESPACE)
    (hc : ∀ c ∈ comment, c ≠ '\n' ∧ c ≠ '\r') :
    Parse (text ++ ('#' :: comment ++ '\n' :: rest)) = Parse (text ++ rest) ∧
    tokenizerStateAt [] = TOKEN_STATE_INITIAL_WHITESPACE ∧
    (∀ (before : Str) (w : Char),
      ((w = ' ' ∨ w = '\t' ∨ w = '\n') ∧
          (tokenizerStateAt before = TOKEN_STATE_INITIAL_WHITESPACE ∨
            tokenizerStateAt before = TOKEN_STATE_TOKEN_TYPE_NORMAL)) ∨
        (w = '\r' ∧ tokenizerStateAt before = TOKEN_STATE_INITIAL_WHITESPACE) →
      tokenizerStateAt (before ++ [w]) = TOKEN_STATE_INITIAL_WHITESPACE) := by
  refine ⟨?_, rfl, ?_⟩
  · unfold Parse
    exact ParseLoop_after_text text.length text (le_refl _) hpoint _ _
      (fun st f1 f2 h1 h2 => ParseLoop_comment_line comment hc rest st f1 f2 h1 h2)
      ParserState.initial _ _ (Nat.lt_succ_self _) (Nat.lt_succ_self _)
  · intro before w h
    exact stateAfter_whitespace before _ _ w h

/-- The comment of the parser's test, put after `foo "bar"; ` and before
`baz;`: the tree is that of the text without the comment.  After the
carriage return that follows the word in `foo\r` the tokenizer is still inside
the word. -/
theorem parse_discards_comment_line_witness :
    Parse "foo \"bar\"; # this is a comment\nbaz;".toList =
      .returned true [.mk ["foo".toList, "\"bar\"".toList] none, .mk ["baz".toList] none] ∧
    tokenizerStateAt "foo\r".toList = TOKEN_STATE_TOKEN_TYPE_NORMAL ∧
    tokenizerStateAt "foo ".toList = TOKEN_STATE_INITIAL_WHITESPACE :=
  ⟨((parse_discards_comment_line "foo \"bar\"; ".toList " this is a comment".toList
      "baz;".toList (by decide) (by decide)).1).trans rfl, by decide, by decide⟩

/-! ## Theorems: the request line that `parse_request` validates -/

theorem isUpper_mem_upperLetters (c : Char) (h : c.isUpper = true) : c ∈ upperLetters := by
  have hb : 65 ≤ c.toNat ∧ c.toNat ≤ 90 := by
    simp only [Char.isUpper, Bool.and_eq_true, decide_eq_true_eq, ge_iff_le] at h
    exact ⟨h.1, h.2⟩
  have hc : c = Char.ofNat c.toNat := (Char.ofNat_toNat c).symm
  generalize c.toNat = n at hb hc
  subst hc
  obtain ⟨h1, h2⟩ := hb
  interval_cases n <;> decide

theorem fields_ne_nil (line : Str) : ∀ t ∈ fields line, t ≠ [] := by
  intro t ht
  simp only [fields, List.mem_filter, decide_eq_true_eq] at ht
  exact ht.2

theorem readRequestLine_fields (header_part : Str) (hne : header_part ≠ []) :
    match readRequestLine header_part with
    | none => (fields (firstLine header_part)).length < 3
    | some (m, u, v, _) => ∃ more, fields (firstLine header_part) = m :: u :: v :: more := by
  unfold readRequestLine
  cases hg : getline '\n' header_part with
  | none =>
    cases header_part with
    | nil => exact absurd rfl hne
    | cons c cs => exact absurd hg (getline_cons_ne_none '\n' c cs)
  | some p =>
    obtain ⟨line, rest⟩ := p
    have hl : line = firstLine header_part := getline_takeWhile '\n' _ _ _ hg
    rw [← hl, ← fields_stripCR]
    simp only []
    have f1 := fields_of_extractWord (stripCR line)
    cases h1 : extractWord (stripCR line) with
    | none =>
      rw [h1] at f1
      simp only [] at f1 ⊢
      rw [f1]; simp
    | some p1 =>
      obtain ⟨w1, l1⟩ := p1
      rw [h1] at f1
      simp only [] at f1 ⊢
      have f2 := fields_of_extractWord l1
      cases h2 : extractWord l1 with
      | none =>
        rw [h2] at f2
        simp only [] at f2 ⊢
        rw [f1, f2]; simp
      | some p2 =>
        obtain ⟨w2, l2⟩ := p2
        rw [h2] at f2
        simp only [] at f2 ⊢
        have f3 := fields_of_extractWord l2
        cases h3 : extractWord l2 with
        | none =>
          rw [h3] at f3
          simp only [] at f3 ⊢
          rw [f1, f2, f3]; simp
        | some p3 =>
          obtain ⟨w3, l3⟩ := p3
          rw [h3] at f3
          simp only [] at f3 ⊢
          exact ⟨fields l3, by rw [f1, f2, f3]⟩

theorem parse_request_by_fields (raw : Str) (hsep : crlfcrlf <:+: raw) (m u v : Str)
    (more : List Str) (hf : fields (firstLine (headerPart raw)) = m :: u :: v :: more) :
    (((∀ c ∈ m, c.isUpper = true) ∧ u.head? = some '/' ∧
        (v = "HTTP/1.0".toList ∨ v = "HTTP/1.1".toList)) →
      ∃ headers body, parse_request raw =
        some { method := m, uri := u, http_version := v, headers := headers, body := body }) ∧
    (¬ ((∀ c ∈ m, c.isUpper = true) ∧ u.head? = some '/' ∧
        (v = "HTTP/1.0".toList ∨ v = "HTTP/1.1".toList)) →
      parse_request raw = some {}) := by
  obtain ⟨n, hfind⟩ := findStr_of_infix crlfcrlf raw hsep
  obtain ⟨pre, post, e, hl⟩ := findStr_some crlfcrlf raw n hfind
  have hlen : n + 4 ≤ raw.length := by
    rw [e]; simp [crlfcrlf, hl]
  have h1 : substr raw 0 n = some (raw.take n) := by simp [substr]
  have h2 : substrFrom raw (n + 4) = some (raw.drop (n + 4)) := by
    simp only [substrFrom]; rw [if_pos hlen]
  have hhp : headerPart raw = raw.take n := by simp [headerPart, hfind]
  rw [hhp] at hf
  have hne : raw.take n ≠ [] := by
    intro h0
    rw [h0] at hf
    simp [firstLine, fields, List.splitOnP_nil] at hf
  have key := readRequestLine_fields (raw.take n) hne
  cases hr : readRequestLine (raw.take n) with
  | none =>
    rw [hr] at key
    simp only [] at key
    rw [hf] at key
    simp only [List.length_cons] at key
    omega
  | some p =>
    obtain ⟨method, uri, http_version, stream⟩ := p
    rw [hr] at key
    simp only [] at key
    obtain ⟨more0, hk⟩ := key
    rw [hf] at hk
    simp only [List.cons.injEq] at hk
    obtain ⟨rfl, rfl, rfl, _⟩ := hk
    unfold parse_request
    simp only [hfind, h1, h2, hr]
    constructor
    · rintro ⟨g1, g2, g3⟩
      have c1 : ¬ (m.any fun c => !upperLetters.contains c) = true := by
        simp only [List.any_eq_true, not_exists, not_and, Bool.not_eq_true,
          Bool.not_eq_false']
        intro c hc
        simpa using isUpper_mem_upperLetters c (g1 c hc)
      have c2 : ¬ (decide (u = []) || decide (u.head? ≠ some '/')) = true := by
        simp only [Bool.or_eq_true, decide_eq_true_eq, not_or, ne_eq, not_not]
        refine ⟨?_, g2⟩
        intro h0
        rw [h0] at g2
        simp at g2
      have c3 : ¬ (decide (v ≠ "HTTP/1.0".toList) && decide (v ≠ "HTTP/1.1".toList)) = true := by
        simp only [Bool.and_eq_true, decide_eq_true_eq, not_and, ne_eq, not_not]
        intro h0
        rcases g3 with g3 | g3
        · exact absurd g3 h0
        · exact g3
      have c4 : ¬ (v.any fun c => !versionChars.contains c) = true := by
        rcases g3 with g3 | g3 <;> subst g3 <;> decide
      rw [if_neg c1, if_neg c2, if_neg c3, if_neg c4]
      obtain ⟨headers, hh⟩ := parseHeaders_total (getlineTokens '\n' stream) []
      rw [hh]
      exact ⟨headers, _, rfl⟩
    · intro hbad
      by_cases c1 : (m.any fun c => !upperLetters.contains c) = true
      · rw [if_pos c1]
      rw [if_neg c1]
      by_cases c2 : (decide (u = []) || decide (u.head? ≠ some '/')) = true
      · rw [if_pos c2]
      rw [if_neg c2]
      by_cases c3 : (decide (v ≠ "HTTP/1.0".toList) && decide (v ≠ "HTTP/1.1".toList)) = true
      · rw [if_pos c3]
      exfalso
      apply hbad
      refine ⟨?_, ?_, ?_⟩
      · intro c hc
        apply upperLetters_isUpper
        simp only [List.any_eq_true, not_exists, not_and, Bool.not_eq_true,
          Bool.not_eq_false'] at c1
        simpa using c1 c hc
      · simp only [Bool.or_eq_true, decide_eq_true_eq, not_or, ne_eq, not_not] at c2
        exact c2.2
      · simp only [Bool.and_eq_true, decide_eq_true_eq, not_and, ne_eq, not_not] at c3
        by_cases h0 : v = "HTTP/1.0".toList
        · exact Or.inl h0
        · exact Or.inr (c3 h0)

/-- C3.  `parse_request` returns a value on every input (no exception escapes
it).  Whenever the returned method is non-empty, the input contains
`\r\n\r\n`, the returned method, uri and version are the first three
whitespace-separated fields of the request line, the method consists solely
of uppercase ASCII letters, the uri is non-empty and starts with `/`, and the
version is exactly `HTTP/1.0` or `HTTP/1.1`.  Every input that fails one of
the conditions yields the malformed sentinel, the empty request: an input
without `\r\n\r\n`, a request line of fewer than three fields, a first field
with a character that is no uppercase letter, a second field that does not
start with `/`, a third field other than the two versions.  And an input that
meets them all yields a request with exactly these three fields. -/
theorem parse_request_total_validated (raw : Str) :
    ∃ r, parse_request raw = some r ∧
      (r.method ≠ [] →
        crlfcrlf <:+: raw ∧
        (∃ more, fields (firstLine (headerPart raw)) =
          r.method :: r.uri :: r.http_version :: more) ∧
        (∀ c ∈ r.method, c.isUpper = true) ∧
        r.uri ≠ [] ∧ r.uri.head? = some '/' ∧
        (r.http_version = "HTTP/1.0".toList ∨ r.http_version = "HTTP/1.1".toList)) ∧
      (r.method = [] → r = {}) ∧
      (¬ crlfcrlf <:+: raw → r = {}) ∧
      ((fields (firstLine (headerPart raw))).length < 3 → r = {}) ∧
      (∀ m u v more, fields (firstLine (headerPart raw)) = m :: u :: v :: more →
        ((∃ c ∈ m, c.isUpper = false) ∨ u.head? ≠ some '/' ∨
          (v ≠ "HTTP/1.0".toList ∧ v ≠ "HTTP/1.1".toList)) → r = {}) ∧
      (crlfcrlf <:+: raw → ∀ m u v more,
        fields (firstLine (headerPart raw)) = m :: u :: v :: more →
        (∀ c ∈ m, c.isUpper = true) → u.head? = some '/' →
        (v = "HTTP/1.0".toList ∨ v = "HTTP/1.1".toList) →
        r.method = m ∧ r.uri = u ∧ r.http_version = v) := by
  by_cases hsep : crlfcrlf <:+: raw
  swap
  · refine ⟨{}, ?_, fun h => absurd rfl h, fun _ => rfl, fun _ => rfl, fun _ => rfl,
      fun _ _ _ _ _ _ => rfl, fun h => absurd h hsep⟩
    simp only [parse_request, findStr_of_not_infix crlfcrlf raw hsep]
  by_cases hlen : (fields (firstLine (headerPart raw))).length < 3
  · refine ⟨{}, parse_request_few_fields raw hsep hlen, fun h => absurd rfl h, fun _ => rfl,
      fun _ => rfl, fun _ => rfl, fun _ _ _ _ _ _ => rfl, ?_⟩
    intro _ m u v more hf
    rw [hf] at hlen
    simp only [List.length_cons] at hlen
    omega
  obtain ⟨m, u, v, more, hf⟩ :
      ∃ m u v more, fields (firstLine (headerPart raw)) = m :: u :: v :: more := by
    match hm : fields (firstLine (headerPart raw)) with
    | [] => rw [hm] at hlen; simp at hlen
    | [_] => rw [hm] at hlen; simp at hlen
    | [_, _] => rw [hm] at hlen; simp at hlen
    | m :: u :: v :: more => exact ⟨m, u, v, more, rfl⟩
  have hm : m ≠ [] := fields_ne_nil _ m (by rw [hf]; simp)
  have key := parse_request_by_fields raw hsep m u v more hf
  by_cases good : (∀ c ∈ m, c.isUpper = true) ∧ u.head? = some '/' ∧
      (v = "HTTP/1.0".toList ∨ v = "HTTP/1.1".toList)
  · obtain ⟨headers, body, hp⟩ := key.1 good
    refine ⟨_, hp, fun _ => ⟨hsep, ⟨more, hf⟩, good.1, ?_, good.2.1, good.2.2⟩,
      fun h => absurd h hm, fun h => absurd hsep h, fun h => absurd h hlen, ?_, ?_⟩
    · intro h0
      have := good.2.1
      rw [show u = [] from h0] at this
      simp at this
    · intro m2 u2 v2 more2 hf2 hbad
      rw [hf] at hf2
      simp only [List.cons.injEq] at hf2
      obtain ⟨rfl, rfl, rfl, _⟩ := hf2
      exfalso
      rcases hbad with ⟨c, hc, hcu⟩ | hbad | hbad
      · rw [good.1 c hc] at hcu
        exact absurd hcu (by simp)
      · exact hbad good.2.1
      · rcases good.2.2 with g | g
        · exact hbad.1 g
        · exact hbad.2 g
    · intro _ m2 u2 v2 more2 hf2 _ _ _
      rw [hf] at hf2
      simp only [List.cons.injEq] at hf2
      obtain ⟨rfl, rfl, rfl, _⟩ := hf2
      exact ⟨rfl, rfl, rfl⟩
  · refine ⟨{}, key.2 good, fun h => absurd rfl h, fun _ => rfl, fun _ => rfl, fun _ => rfl,
      fun _ _ _ _ _ _ => rfl, ?_⟩
    intro _ m2 u2 v2 more2 hf2 g1 g2 g3
    rw [hf] at hf2
    simp only [List.cons.injEq] at hf2
    obtain ⟨rfl, rfl, rfl, _⟩ := hf2
    exact absurd ⟨g1, g2, g3⟩ good

/-- A method in lower case, a uri without the leading `/` and the version
`HTTP/2.0` each give the sentinel; the request line `GET /echo HTTP/1.1` gives
its three fields. -/
theorem parse_request_total_validated_witness :
    parse_request "get / HTTP/1.1\r\n\r\n".toList = some {} ∧
    parse_request "GET echo HTTP/1.1\r\n\r\n".toList = some {} ∧
    parse_request "GET / HTTP/2.0\r\n\r\n".toList = some {} ∧
    parse_request "GET /echo HTTP/1.1\r\nHost: a\r\n\r\nbody".toList =
      some { method := "GET".toList, uri := "/echo".toList, http_version := "HTTP/1.1".toList,
             headers := [("Host".toList, "a".toList)], body := "body".toList } := by
  refine ⟨?_, ?_, ?_, by decide⟩
  · obtain ⟨r, hr, _, _, _, _, hbad, _⟩ :=
      parse_request_total_validated "get / HTTP/1.1\r\n\r\n".toList
    rw [hr, hbad "get".toList "/".toList "HTTP/1.1".toList [] (by decide)
      (Or.inl ⟨'g', by decide, by decide⟩)]
  · obtain ⟨r, hr, _, _, _, _, hbad, _⟩ :=
      parse_request_total_validated "GET echo HTTP/1.1\r\n\r\n".toList
    rw [hr, hbad "GET".toList "echo".toList "HTTP/1.1".toList [] (by decide)
      (Or.inr (Or.inl (by decide)))]
  · obtain ⟨r, hr, _, _, _, _, hbad, _⟩ :=
      parse_request_total_validated "GET / HTTP/2.0\r\n\r\n".toList
    rw [hr, hbad "GET".toList "/".toList "HTTP/2.0".toList [] (by decide)
      (Or.inr (Or.inr ⟨by decide, by decide⟩))]

/-! ## Theorems: claims that meet a defect of the parser -/

/-- C7, evaluated on the code.  In `a; } b; 'x` the quote is opened at a token
start and never closed, and `ParseToken` returns the error token for it.  But
the `}` at depth zero has popped the root block and the word `b` reads the top
of the empty stack: the behaviour of `Parse` is undefined before the quote is
read, and `Parse` does not return false.  Without the extra `}`, on `foo 'x`,
it returns false. -/
theorem parse_unclosed_quote_after_extra_brace :
    tokenizerStateAt "a; \x7d b; ".toList = TOKEN_STATE_INITIAL_WHITESPACE ∧
    closesQuote '\'' "x".toList = false ∧
    (ParseToken "'x".toList).1 = TOKEN_TYPE_ERROR ∧
    (Parse "a; \x7d b; 'x".toList).isUndefined = true ∧
    (Parse "a; \x7d b; 'x".toList).success = none ∧
    (Parse "foo 'x".toList).success = some false := by
  decide

/-- C20, evaluated on the code.  `Parse` returns true on `listen 80;foo`, with
the tree of `listen 80`.  The end of the stream is reached inside the word
`foo`, which `ParseToken` gives up for the end-of-stream token: what precedes
the end of the stream is a word, not `;` or `}`. -/
theorem parse_true_with_word_at_end :
    Parse "listen 80;foo".toList =
      .returned true [.mk ["listen".toList, "80".toList] none] ∧
    tokenizerStateAt "listen 80;foo".toList = TOKEN_STATE_TOKEN_TYPE_NORMAL ∧
    significantTokens "listen 80;foo".toList =
      [TOKEN_TYPE_NORMAL, TOKEN_TYPE_NORMAL, TOKEN_TYPE_STATEMENT_END, TOKEN_TYPE_EOF] := by
  refine ⟨rfl, by decide, by decide⟩

/-- C33, evaluated on the code.  After `foo` and a carriage return the tokenizer
is still inside the word, so a comment line inserted there is not taken for a
comment: `foo\r#c\nbar;` gives the statement of the two tokens `foo\r#c` and
`bar`, where `foo\rbar;` gives the one token `foo\rbar`.  After a blank the
same comment line changes nothing. -/
theorem parse_keeps_comment_after_cr :
    tokenizerStateAt "foo\r".toList = TOKEN_STATE_TOKEN_TYPE_NORMAL ∧
    Parse "foo\r#c\nbar;".toList =
      .returned true [.mk ["foo\r#c".toList, "bar".toList] none] ∧
    Parse "foo\rbar;".toList = .returned true [.mk ["foo\rbar".toList] none] ∧
    Parse "foo #c\nbar;".toList = Parse "foo bar;".toList := by
  refine ⟨by decide, rfl, rfl, rfl⟩

/-- C39, evaluated on the code.  On `a; } b;` the loop of `Parse` runs four
times: three iterations leave it running, and the fourth reads the top of the
stack that the `}` emptied.  The run ends in undefined behaviour and `Parse`
returns neither true nor false. -/
theorem parse_run_ends_without_return :
    (ParseStates 8 ParserState.initial "a; \x7d b;".toList).length = 4 ∧
    (ParseLoop 3 ParserState.initial "a; \x7d b;".toList).isUndefined = false ∧
    (ParseLoop 4 ParserState.initial "a; \x7d b;".toList).isUndefined = true ∧
    (Parse "a; \x7d b;".toList).success = none := by
  decide

end Webserver
